import Mathlib

/-!
Verification of a generic doubly linked list (`list.go`) with an in-place
quicksort (`QuickSort` / `_qsort` / `swap`).

The program is embedded as a pointer machine: the heap maps node ids
(`Nat`) to node records holding `next`/`prev`/`list` pointers (`Option Nat`,
`none` modelling Go's `nil`) and a stored value.  A Go `*List[T]` is
identified with the node id of its sentinel `root` element; the `len`
fields of all lists live in a separate map.  Every Go statement is
transcribed in order; every pointer dereference is a monadic bind in
`Option`, so a `nil` dereference (a Go panic) yields `none`.  Loops and
recursion are driven by explicit fuel; theorems establish success for
sufficient fuel, which simultaneously proves termination and absence of
nil dereferences.
-/

namespace GoList

/-- One Go `Element[T]` record: `next`, `prev`, `list` pointers and `Value`. -/
structure NodeRec (α : Type) where
  next : Option Nat
  prev : Option Nat
  list : Option Nat
  value : α
deriving Repr

/-- Program state: heap of elements, the `len` field of every list
(indexed by the list's sentinel id), and an allocation counter. -/
structure State (α : Type) where
  heap : Nat → NodeRec α
  lens : Nat → Int
  fresh : Nat

variable {α : Type}

/-- Read `e.next`. -/
def nxt (σ : State α) (n : Nat) : Option Nat := (σ.heap n).next

/-- Read `e.prev`. -/
def prv (σ : State α) (n : Nat) : Option Nat := (σ.heap n).prev

/-- Read `e.list`. -/
def own (σ : State α) (n : Nat) : Option Nat := (σ.heap n).list

/-- Read `e.Value`. -/
def val (σ : State α) (n : Nat) : α := (σ.heap n).value

/-- Write `e.next`. -/
def setNext (σ : State α) (n : Nat) (p : Option Nat) : State α :=
  { σ with heap := fun m => if m = n then { σ.heap m with next := p } else σ.heap m }

/-- Write `e.prev`. -/
def setPrev (σ : State α) (n : Nat) (p : Option Nat) : State α :=
  { σ with heap := fun m => if m = n then { σ.heap m with prev := p } else σ.heap m }

/-- Write `e.list`. -/
def setOwn (σ : State α) (n : Nat) (p : Option Nat) : State α :=
  { σ with heap := fun m => if m = n then { σ.heap m with list := p } else σ.heap m }

/-- Write `l.len`. -/
def setLen (σ : State α) (s : Nat) (k : Int) : State α :=
  { σ with lens := fun m => if m = s then k else σ.lens m }

/-- Allocate `&Element[T]{Value: v}` (zero-valued pointers) at a fresh id. -/
def allocNode (σ : State α) (v : α) : State α × Nat :=
  ({ σ with
      heap := fun m => if m = σ.fresh then ⟨none, none, none, v⟩ else σ.heap m,
      fresh := σ.fresh + 1 },
   σ.fresh)

/-- Go: `func (e *Element[T]) Next() *Element[T]`. -/
def NextE (σ : State α) (e : Nat) : Option Nat :=
  match own σ e with
  | none => none
  | some L => if nxt σ e = some L then none else nxt σ e

/-- Go: `func (e *Element[T]) Prev() *Element[T]`. -/
def PrevE (σ : State α) (e : Nat) : Option Nat :=
  match own σ e with
  | none => none
  | some L => if prv σ e = some L then none else prv σ e

/-- Go: `func (l *List[T]) Init() *List[T]`. -/
def Init (σ : State α) (l : Nat) : State α :=
  setLen (setPrev (setNext σ l (some l)) l (some l)) l 0

/-- Go: `func (l *List[T]) lazyInit()`. -/
def lazyInit (σ : State α) (l : Nat) : State α :=
  if nxt σ l = none then Init σ l else σ

/-- Go: `func (l *List[T]) Len() int`. -/
def Len (σ : State α) (l : Nat) : Int := σ.lens l

/-- Go: `func (l *List[T]) Front() *Element[T]`. -/
def Front (σ : State α) (l : Nat) : Option Nat :=
  if σ.lens l = 0 then none else nxt σ l

/-- Go: `func (l *List[T]) Back() *Element[T]`. -/
def Back (σ : State α) (l : Nat) : Option Nat :=
  if σ.lens l = 0 then none else prv σ l

/-- Go: `func (l *List[T]) insert(e, at *Element[T]) *Element[T]`. -/
def insert (σ : State α) (l e : Nat) (at_ : Option Nat) : Option (State α) := do
  let σ1 := setPrev σ e at_
  let a ← at_
  let σ2 := setNext σ1 e (nxt σ1 a)
  let p ← prv σ2 e
  let σ3 := setNext σ2 p (some e)
  let q ← nxt σ3 e
  let σ4 := setPrev σ3 q (some e)
  let σ5 := setOwn σ4 e (some l)
  some (setLen σ5 l (σ5.lens l + 1))

/-- Go: `func (l *List[T]) insertValue(v T, at *Element[T]) *Element[T]`. -/
def insertValue (σ : State α) (l : Nat) (v : α) (at_ : Option Nat) :
    Option (State α × Nat) := do
  let p := allocNode σ v
  let σ' ← insert p.1 l p.2 at_
  some (σ', p.2)

/-- Go: `func (l *List[T]) remove(e *Element[T])`. -/
def remove (σ : State α) (l e : Nat) : Option (State α) := do
  let p ← prv σ e
  let σ1 := setNext σ p (nxt σ e)
  let q ← nxt σ1 e
  let σ2 := setPrev σ1 q (prv σ1 e)
  let σ3 := setNext σ2 e none
  let σ4 := setPrev σ3 e none
  let σ5 := setOwn σ4 e none
  some (setLen σ5 l (σ5.lens l - 1))

/-- Go: `func (l *List[T]) move(e, at *Element[T])`. -/
def move (σ : State α) (e : Nat) (at_ : Option Nat) : Option (State α) :=
  if some e = at_ then some σ
  else do
    let p ← prv σ e
    let σ1 := setNext σ p (nxt σ e)
    let q ← nxt σ1 e
    let σ2 := setPrev σ1 q (prv σ1 e)
    let σ3 := setPrev σ2 e at_
    let a ← at_
    let σ4 := setNext σ3 e (nxt σ3 a)
    let p2 ← prv σ4 e
    let σ5 := setNext σ4 p2 (some e)
    let q2 ← nxt σ5 e
    some (setPrev σ5 q2 (some e))

/-- Go: `func (l *List[T]) Remove(e *Element[T]) T`. -/
def Remove (σ : State α) (l e : Nat) : Option (State α × α) :=
  if own σ e = some l then do
    let σ' ← remove σ l e
    some (σ', val σ' e)
  else some (σ, val σ e)

/-- Go: `func (l *List[T]) PushFront(v T) *Element[T]`. -/
def PushFront (σ : State α) (l : Nat) (v : α) : Option (State α × Nat) :=
  let σ0 := lazyInit σ l
  insertValue σ0 l v (some l)

/-- Go: `func (l *List[T]) PushBack(v T) *Element[T]`. -/
def PushBack (σ : State α) (l : Nat) (v : α) : Option (State α × Nat) :=
  let σ0 := lazyInit σ l
  insertValue σ0 l v (prv σ0 l)

/-- Go: `func (l *List[T]) InsertBefore(v T, mark *Element[T]) *Element[T]`. -/
def InsertBefore (σ : State α) (l : Nat) (v : α) (mark : Nat) :
    Option (State α × Option Nat) :=
  if own σ mark ≠ some l then some (σ, none)
  else do
    let r ← insertValue σ l v (prv σ mark)
    some (r.1, some r.2)

/-- Go: `func (l *List[T]) InsertAfter(v T, mark *Element[T]) *Element[T]`. -/
def InsertAfter (σ : State α) (l : Nat) (v : α) (mark : Nat) :
    Option (State α × Option Nat) :=
  if own σ mark ≠ some l then some (σ, none)
  else do
    let r ← insertValue σ l v (some mark)
    some (r.1, some r.2)

/-- Go: `func (l *List[T]) MoveToFront(e *Element[T])`. -/
def MoveToFront (σ : State α) (l e : Nat) : Option (State α) :=
  if own σ e ≠ some l ∨ nxt σ l = some e then some σ
  else move σ e (some l)

/-- Go: `func (l *List[T]) MoveToBack(e *Element[T])`. -/
def MoveToBack (σ : State α) (l e : Nat) : Option (State α) :=
  if own σ e ≠ some l ∨ prv σ l = some e then some σ
  else move σ e (prv σ l)

/-- Go: `func (l *List[T]) MoveBefore(e, mark *Element[T])`. -/
def MoveBefore (σ : State α) (l e mark : Nat) : Option (State α) :=
  if own σ e ≠ some l ∨ e = mark ∨ own σ mark ≠ some l then some σ
  else move σ e (prv σ mark)

/-- Go: `func (l *List[T]) MoveAfter(e, mark *Element[T])`. -/
def MoveAfter (σ : State α) (l e mark : Nat) : Option (State α) :=
  if own σ e ≠ some l ∨ e = mark ∨ own σ mark ≠ some l then some σ
  else move σ e (some mark)

/-- Loop body of `PushBackList`: `i` countdown, `e` cursor over `other`;
`e.Next()` is evaluated after the insertion, in the updated state. -/
def pushBackListLoop (l : Nat) : Nat → State α → Option Nat → Option (State α)
  | 0, σ, _ => some σ
  | i+1, σ, e => do
    let ee ← e
    let r ← insertValue σ l (val σ ee) (prv σ l)
    pushBackListLoop l i r.1 (NextE r.1 ee)

/-- Go: `func (l *List[T]) PushBackList(other *List[T])`. -/
def PushBackList (σ : State α) (l other : Nat) : Option (State α) :=
  let σ0 := lazyInit σ l
  pushBackListLoop l (Len σ0 other).toNat σ0 (Front σ0 other)

/-- Loop body of `PushFrontList`: iterates `other` back to front. -/
def pushFrontListLoop (l : Nat) : Nat → State α → Option Nat → Option (State α)
  | 0, σ, _ => some σ
  | i+1, σ, e => do
    let ee ← e
    let r ← insertValue σ l (val σ ee) (some l)
    pushFrontListLoop l i r.1 (PrevE r.1 ee)

/-- Go: `func (l *List[T]) PushFrontList(other *List[T])`. -/
def PushFrontList (σ : State α) (l other : Nat) : Option (State α) :=
  let σ0 := lazyInit σ l
  pushFrontListLoop l (Len σ0 other).toNat σ0 (Back σ0 other)

/-- Go: `func swap[T any](b, d *Element[T]) (neighbor bool)`. -/
def swap (σ : State α) (b d : Option Nat) : Option (State α × Bool) :=
  if b = d then some (σ, false)
  else do
    let bb ← b
    let dd ← d
    if nxt σ bb = some dd ∨ prv σ bb = some dd then
      if nxt σ bb = some dd then do
        let p ← prv σ bb
        let σ1 := setNext σ p (some dd)
        let q ← nxt σ1 dd
        let σ2 := setPrev σ1 q (some bb)
        let σ3 := setPrev σ2 dd (prv σ2 bb)
        let σ4 := setNext σ3 bb (nxt σ3 dd)
        let σ5 := setNext σ4 dd (some bb)
        some (setPrev σ5 bb (some dd), true)
      else do
        let p ← prv σ dd
        let σ1 := setNext σ p (some bb)
        let q ← nxt σ1 bb
        let σ2 := setPrev σ1 q (some dd)
        let σ3 := setPrev σ2 bb (prv σ2 dd)
        let σ4 := setNext σ3 dd (nxt σ3 bb)
        let σ5 := setNext σ4 bb (some dd)
        some (setPrev σ5 dd (some bb), true)
    else do
      let bn ← nxt σ bb
      let σ1 := setPrev σ bn (some dd)
      let bp ← prv σ1 bb
      let σ2 := setNext σ1 bp (some dd)
      let dn ← nxt σ2 dd
      let σ3 := setPrev σ2 dn (some bb)
      let dp ← prv σ3 dd
      let σ4 := setNext σ3 dp (some bb)
      let bPrevP := prv σ4 bb
      let bNextP := nxt σ4 bb
      let σ5 := setPrev σ4 bb (prv σ4 dd)
      let σ6 := setNext σ5 bb (nxt σ5 dd)
      let σ7 := setPrev σ6 dd bPrevP
      some (setNext σ7 dd bNextP, false)

/-- The first inner loop of `_qsort`:
`for right != left and cmp(right.Value, pivotValue) >= 0 { right = right.Prev() }`. -/
def scanRight (cmp : α → α → Int) (pv : α) :
    Nat → State α → Option Nat → Option Nat → Option (Option Nat)
  | 0, _, _, _ => none
  | fuel+1, σ, left, right =>
    if right = left then some right
    else
      match right with
      | none => none
      | some r =>
        if cmp (val σ r) pv ≥ 0 then scanRight cmp pv fuel σ left (PrevE σ r)
        else some right

/-- The second inner loop of `_qsort`:
`for left != right and cmp(left.Value, pivotValue) <= 0 { left = left.Next() }`. -/
def scanLeft (cmp : α → α → Int) (pv : α) :
    Nat → State α → Option Nat → Option Nat → Option (Option Nat)
  | 0, _, _, _ => none
  | fuel+1, σ, left, right =>
    if left = right then some left
    else
      match left with
      | none => none
      | some l =>
        if cmp (val σ l) pv ≤ 0 then scanLeft cmp pv fuel σ (NextE σ l) right
        else some left

/-- The outer partition loop of `_qsort`; returns the final `left` cursor. -/
def partLoop (cmp : α → α → Int) (pv : α) :
    Nat → State α → Option Nat → Option Nat → Option (State α × Option Nat)
  | 0, _, _, _ => none
  | fuel+1, σ, left, right => do
    let right' ← scanRight cmp pv fuel σ left right
    let left' ← scanLeft cmp pv fuel σ left right'
    if left' = right' then some (σ, left')
    else do
      let r ← swap σ left' right'
      if r.2 then some (r.1, right')
      else partLoop cmp pv fuel r.1 right' left'

/-- Go: `func _qsort[T any](lst *List[T], left, right *Element[T], cmp ...)`. -/
def _qsort (cmp : α → α → Int) :
    Nat → State α → Option Nat → Option Nat → Option (State α)
  | 0, _, _, _ => none
  | fuel+1, σ, left, right =>
    if left = right then some σ
    else do
      let l0 ← left
      let r0 ← right
      let LBoundary := prv σ l0
      let RBoundary := nxt σ r0
      let pivotValue := val σ l0
      let r ← partLoop cmp pivotValue fuel σ left right
      let σ1 := r.1
      let lf ← r.2
      let leftNext := nxt σ1 lf
      let lb ← LBoundary
      let r2 ← swap σ1 (nxt σ1 lb) r.2
      let σ2 := r2.1
      let ln ← leftNext
      let finalPivot := prv σ2 ln
      let σ3 ←
        if nxt σ2 lb ≠ finalPivot then do
          let fp ← finalPivot
          _qsort cmp fuel σ2 (nxt σ2 lb) (prv σ2 fp)
        else some σ2
      let rb ← RBoundary
      if finalPivot ≠ prv σ3 rb then do
        let fp ← finalPivot
        _qsort cmp fuel σ3 (nxt σ3 fp) (prv σ3 rb)
      else some σ3

/-- Go: `func (l *List[T]) QuickSort(cmp func(a, b T) int)`. -/
def QuickSort (σ : State α) (l : Nat) (cmp : α → α → Int) (fuel : Nat) :
    Option (State α) :=
  let σ0 := lazyInit σ l
  _qsort cmp fuel σ0 (Front σ0 l) (Back σ0 l)

/-! ### Read-over-write lemmas -/

@[simp] theorem nxt_setNext (σ : State α) (n : Nat) (p : Option Nat) (m : Nat) :
    nxt (setNext σ n p) m = if m = n then p else nxt σ m := by
  simp only [nxt, setNext]; split <;> rfl

@[simp] theorem nxt_setPrev (σ : State α) (n : Nat) (p : Option Nat) (m : Nat) :
    nxt (setPrev σ n p) m = nxt σ m := by
  simp only [nxt, setPrev]; split <;> rfl

@[simp] theorem nxt_setOwn (σ : State α) (n : Nat) (p : Option Nat) (m : Nat) :
    nxt (setOwn σ n p) m = nxt σ m := by
  simp only [nxt, setOwn]; split <;> rfl

@[simp] theorem nxt_setLen (σ : State α) (s : Nat) (k : Int) (m : Nat) :
    nxt (setLen σ s k) m = nxt σ m := rfl

@[simp] theorem prv_setPrev (σ : State α) (n : Nat) (p : Option Nat) (m : Nat) :
    prv (setPrev σ n p) m = if m = n then p else prv σ m := by
  simp only [prv, setPrev]; split <;> rfl

@[simp] theorem prv_setNext (σ : State α) (n : Nat) (p : Option Nat) (m : Nat) :
    prv (setNext σ n p) m = prv σ m := by
  simp only [prv, setNext]; split <;> rfl

@[simp] theorem prv_setOwn (σ : State α) (n : Nat) (p : Option Nat) (m : Nat) :
    prv (setOwn σ n p) m = prv σ m := by
  simp only [prv, setOwn]; split <;> rfl

@[simp] theorem prv_setLen (σ : State α) (s : Nat) (k : Int) (m : Nat) :
    prv (setLen σ s k) m = prv σ m := rfl

@[simp] theorem own_setNext (σ : State α) (n : Nat) (p : Option Nat) (m : Nat) :
    own (setNext σ n p) m = own σ m := by
  simp only [own, setNext]; split <;> rfl

@[simp] theorem own_setPrev (σ : State α) (n : Nat) (p : Option Nat) (m : Nat) :
    own (setPrev σ n p) m = own σ m := by
  simp only [own, setPrev]; split <;> rfl

@[simp] theorem own_setOwn (σ : State α) (n : Nat) (p : Option Nat) (m : Nat) :
    own (setOwn σ n p) m = if m = n then p else own σ m := by
  simp only [own, setOwn]; split <;> rfl

@[simp] theorem own_setLen (σ : State α) (s : Nat) (k : Int) (m : Nat) :
    own (setLen σ s k) m = own σ m := rfl

@[simp] theorem val_setNext (σ : State α) (n : Nat) (p : Option Nat) (m : Nat) :
    val (setNext σ n p) m = val σ m := by
  simp only [val, setNext]; split <;> rfl

@[simp] theorem val_setPrev (σ : State α) (n : Nat) (p : Option Nat) (m : Nat) :
    val (setPrev σ n p) m = val σ m := by
  simp only [val, setPrev]; split <;> rfl

@[simp] theorem val_setOwn (σ : State α) (n : Nat) (p : Option Nat) (m : Nat) :
    val (setOwn σ n p) m = val σ m := by
  simp only [val, setOwn]; split <;> rfl

@[simp] theorem val_setLen (σ : State α) (s : Nat) (k : Int) (m : Nat) :
    val (setLen σ s k) m = val σ m := rfl

@[simp] theorem lens_setNext (σ : State α) (n : Nat) (p : Option Nat) :
    (setNext σ n p).lens = σ.lens := rfl

@[simp] theorem lens_setPrev (σ : State α) (n : Nat) (p : Option Nat) :
    (setPrev σ n p).lens = σ.lens := rfl

@[simp] theorem lens_setOwn (σ : State α) (n : Nat) (p : Option Nat) :
    (setOwn σ n p).lens = σ.lens := rfl

@[simp] theorem lens_setLen (σ : State α) (s : Nat) (k : Int) (m : Nat) :
    (setLen σ s k).lens m = if m = s then k else σ.lens m := rfl

@[simp] theorem fresh_setNext (σ : State α) (n : Nat) (p : Option Nat) :
    (setNext σ n p).fresh = σ.fresh := rfl

@[simp] theorem fresh_setPrev (σ : State α) (n : Nat) (p : Option Nat) :
    (setPrev σ n p).fresh = σ.fresh := rfl

@[simp] theorem fresh_setOwn (σ : State α) (n : Nat) (p : Option Nat) :
    (setOwn σ n p).fresh = σ.fresh := rfl

@[simp] theorem fresh_setLen (σ : State α) (s : Nat) (k : Int) :
    (setLen σ s k).fresh = σ.fresh := rfl

theorem heap_setNext_ne (σ : State α) (n : Nat) (p : Option Nat) (m : Nat)
    (h : m ≠ n) : (setNext σ n p).heap m = σ.heap m := by
  simp only [setNext]; exact if_neg h

theorem heap_setPrev_ne (σ : State α) (n : Nat) (p : Option Nat) (m : Nat)
    (h : m ≠ n) : (setPrev σ n p).heap m = σ.heap m := by
  simp only [setPrev]; exact if_neg h

theorem heap_setOwn_ne (σ : State α) (n : Nat) (p : Option Nat) (m : Nat)
    (h : m ≠ n) : (setOwn σ n p).heap m = σ.heap m := by
  simp only [setOwn]; exact if_neg h

@[simp] theorem heap_setLen (σ : State α) (s : Nat) (k : Int) :
    (setLen σ s k).heap = σ.heap := rfl

/-! ### Ring well-formedness -/

/-- `a` is directly followed by `b` in the ring, with both links agreeing. -/
def linked (σ : State α) (a b : Nat) : Prop :=
  nxt σ a = some b ∧ prv σ b = some a

instance (σ : State α) (a b : Nat) : Decidable (linked σ a b) :=
  decidable_of_iff (nxt σ a = some b ∧ prv σ b = some a) Iff.rfl

/-- The sentinel `s` followed by `ids` forms a closed doubly linked ring. -/
def RingOk (σ : State α) (s : Nat) (ids : List Nat) : Prop :=
  List.Chain' (linked σ) (s :: ids ++ [s])

/-- Well-formed list: closed consistent ring, distinct nodes, correct
ownership fields and length field. -/
structure WFl (σ : State α) (s : Nat) (ids : List Nat) : Prop where
  ring : RingOk σ s ids
  nodup : (s :: ids).Nodup
  owns : ∀ n ∈ ids, own σ n = some s
  sentOwn : own σ s = none
  len : σ.lens s = ids.length

/-- Congruence: a chain of links survives a state change that does not
touch the `next` field of non-final nodes nor the `prev` field of
non-initial nodes. -/
theorem chain'_linked_congr {σ σ' : State α} :
    ∀ {l : List Nat}, (∀ a ∈ l.dropLast, nxt σ' a = nxt σ a) →
      (∀ a ∈ l.tail, prv σ' a = prv σ a) →
      List.Chain' (linked σ) l → List.Chain' (linked σ') l
  | [], _, _, _ => List.chain'_nil
  | [_], _, _, _ => List.chain'_singleton _
  | a :: b :: t, hn, hp, hc => by
    rw [List.chain'_cons] at hc ⊢
    refine ⟨⟨?_, ?_⟩, ?_⟩
    · rw [hn a (by simp)]; exact hc.1.1
    · rw [hp b (by simp)]; exact hc.1.2
    · exact chain'_linked_congr
        (fun x hx => hn x (by simp only [List.dropLast_cons₂]; exact List.mem_cons_of_mem a hx))
        (fun x hx => hp x (by simp only [List.tail_cons] at hx ⊢; exact List.mem_cons_of_mem b hx))
        hc.2

/-- Extract one forward link from a chain. -/
theorem chain'_linked_infix {σ : State α} {x y : Nat} :
    ∀ (l1 : List Nat) {l2 : List Nat},
      List.Chain' (linked σ) (l1 ++ x :: y :: l2) →
      nxt σ x = some y ∧ prv σ y = some x
  | [], _, hc => (List.chain'_cons.mp hc).1
  | _ :: t, _, hc => chain'_linked_infix t hc.tail

/-! ### List helpers -/

theorem headD_append_cons (B C : List Nat) (d s : Nat) :
    (B ++ d :: C).headD s = B.headD d := by
  cases B <;> simp

theorem getLastD_append_cons (A B : List Nat) (x dflt : Nat) :
    (A ++ x :: B).getLastD dflt = B.getLastD x := by
  induction A generalizing dflt with
  | nil => exact List.getLastD_cons dflt x B
  | cons a t ih => rw [List.cons_append, List.getLastD_cons, ih]

theorem getLast?_cons_eq (a : Nat) (l : List Nat) :
    (a :: l).getLast? = some (l.getLastD a) := by
  induction l generalizing a with
  | nil => rfl
  | cons b t ih => rw [List.getLast?_cons_cons, ih, List.getLastD_cons]

theorem getLast_notMem_dropLast {l : List Nat} (h : l.Nodup) (hne : l ≠ []) :
    l.getLast hne ∉ l.dropLast := by
  intro hmem
  have hd := List.dropLast_append_getLast hne
  rw [← hd] at h
  rcases List.disjoint_of_nodup_append h with hdis
  exact hdis hmem (by simp)

/-! ### Ring access lemmas -/

theorem RingOk.link_at {σ : State α} {s : Nat} {ids : List Nat}
    (h : RingOk σ s ids) {u v : List Nat} {x y : Nat}
    (he : s :: ids ++ [s] = u ++ x :: y :: v) :
    nxt σ x = some y ∧ prv σ y = some x := by
  have h' : List.Chain' (linked σ) (u ++ x :: y :: v) := by rw [← he]; exact h
  exact chain'_linked_infix u h'

theorem RingOk.nxt_mem {σ : State α} {s : Nat} {ids : List Nat}
    (h : RingOk σ s ids) {A B : List Nat} {x : Nat} (he : ids = A ++ x :: B) :
    nxt σ x = some (B.headD s) := by
  cases B with
  | nil => exact (h.link_at (u := s :: A) (v := []) (by simp [he])).1
  | cons y t =>
      exact (h.link_at (u := s :: A) (v := t ++ [s]) (by simp [he])).1

theorem RingOk.prv_mem {σ : State α} {s : Nat} {ids : List Nat}
    (h : RingOk σ s ids) {A B : List Nat} {x : Nat} (he : ids = A ++ x :: B) :
    prv σ x = some (A.getLastD s) := by
  cases A using List.reverseRecOn with
  | nil => exact (h.link_at (u := []) (v := B ++ [s]) (by simp [he])).2
  | append_singleton A0 a =>
      have := (h.link_at (u := s :: A0) (v := B ++ [s]) (x := a) (y := x)
        (by simp [he])).2
      rwa [getLastD_append_cons, List.getLastD_nil]

theorem RingOk.nxt_sent {σ : State α} {s : Nat} {ids : List Nat}
    (h : RingOk σ s ids) : nxt σ s = some (ids.headD s) := by
  cases ids with
  | nil => exact (h.link_at (u := []) (v := []) (by simp)).1
  | cons a t =>
      exact (h.link_at (u := []) (v := t ++ [s]) (by simp)).1

theorem RingOk.prv_sent {σ : State α} {s : Nat} {ids : List Nat}
    (h : RingOk σ s ids) : prv σ s = some (ids.getLastD s) := by
  cases ids using List.reverseRecOn with
  | nil => exact (h.link_at (u := []) (v := []) (by simp)).2
  | append_singleton A0 a =>
      have := (h.link_at (u := s :: A0) (v := []) (x := a) (y := s)
        (by simp)).2
      rwa [getLastD_append_cons, List.getLastD_nil]

theorem WFl.sent_notMem {σ : State α} {s : Nat} {ids : List Nat}
    (hw : WFl σ s ids) : s ∉ ids := (List.nodup_cons.mp hw.nodup).1

theorem WFl.NextE_eq {σ : State α} {s : Nat} {ids : List Nat}
    (hw : WFl σ s ids) {A B : List Nat} {x : Nat} (he : ids = A ++ x :: B) :
    NextE σ x = B.head? := by
  have hx : x ∈ ids := by rw [he]; simp
  have hn := hw.ring.nxt_mem he
  unfold NextE
  rw [hw.owns x hx, hn]
  cases B with
  | nil => simp
  | cons y t =>
      have hy : y ≠ s := by
        intro hcon
        exact hw.sent_notMem (hcon ▸ (by rw [he]; simp : y ∈ ids))
      simp [hy]

theorem WFl.PrevE_eq {σ : State α} {s : Nat} {ids : List Nat}
    (hw : WFl σ s ids) {A B : List Nat} {x : Nat} (he : ids = A ++ x :: B) :
    PrevE σ x = A.getLast? := by
  have hx : x ∈ ids := by rw [he]; simp
  have hp := hw.ring.prv_mem he
  unfold PrevE
  rw [hw.owns x hx, hp]
  cases A using List.reverseRecOn with
  | nil => simp
  | append_singleton A0 a =>
      have ha : a ≠ s := by
        intro hcon
        exact hw.sent_notMem (hcon ▸ (by rw [he]; simp : a ∈ ids))
      rw [getLastD_append_cons, List.getLastD_nil, List.getLast?_concat]
      simp [ha]

/-! ### Correctness of `swap` -/

theorem perm_swap_mid (b d : Nat) (B C : List Nat) :
    (b :: (B ++ d :: C)).Perm (d :: (B ++ b :: C)) := by
  have h1 : (B ++ d :: C).Perm (d :: (B ++ C)) := List.perm_middle
  have h2 : (B ++ b :: C).Perm (b :: (B ++ C)) := List.perm_middle
  exact (h1.cons b).trans ((List.Perm.swap d b _).trans (h2.cons d).symm)

theorem getLastD_mem_or (l : List Nat) (dflt : Nat) :
    l.getLastD dflt = dflt ∨ l.getLastD dflt ∈ l := by
  cases l using List.reverseRecOn with
  | nil => exact Or.inl rfl
  | append_singleton t a => exact Or.inr (by simp [List.getLastD_concat])

theorem headD_mem_or (l : List Nat) (dflt : Nat) :
    l.headD dflt = dflt ∨ l.headD dflt ∈ l := by
  cases l <;> simp

theorem head?_append_singleton (l : List Nat) (x : Nat) :
    (l ++ [x]).head? = some (l.headD x) := by
  cases l <;> simp

theorem getLast_cons_eq_getLastD {a : Nat} {l : List Nat} (h : a :: l ≠ []) :
    (a :: l).getLast h = l.getLastD a := by
  have h1 := getLast?_cons_eq a l
  rw [List.getLast?_eq_getLast _ h] at h1
  exact Option.some.inj h1

theorem getLastD_cons_notMem_dropLast {s : Nat} {A : List Nat}
    (h : (s :: A).Nodup) : A.getLastD s ∉ (s :: A).dropLast := by
  cases A using List.reverseRecOn with
  | nil => simp
  | append_singleton t a =>
      rw [List.getLastD_concat]
      have hd : (s :: (t ++ [a])).dropLast = s :: t := by
        rw [← List.cons_append, List.dropLast_concat]
      rw [hd]
      intro hmem
      rw [← List.cons_append] at h
      rcases List.nodup_append.mp h with ⟨_, _, hdisj⟩
      exact hdisj hmem (by simp)

theorem swap_adj {σ : State α} {s b d : Nat} {A C : List Nat}
    (hr : RingOk σ s (A ++ b :: d :: C))
    (hnd : (s :: (A ++ b :: d :: C)).Nodup) :
    ∃ σ', swap σ (some b) (some d) = some (σ', true) ∧
      RingOk σ' s (A ++ d :: b :: C) ∧
      (∀ n, own σ' n = own σ n) ∧ (∀ n, val σ' n = val σ n) ∧
      σ'.lens = σ.lens ∧ σ'.fresh = σ.fresh ∧
      (∀ n, n ≠ b → n ≠ d → n ≠ A.getLastD s → n ≠ C.headD s →
        σ'.heap n = σ.heap n) := by
  have hnds : s ∉ A ++ b :: d :: C := (List.nodup_cons.mp hnd).1
  have htl : (A ++ b :: d :: C).Nodup := (List.nodup_cons.mp hnd).2
  rw [List.mem_append, List.mem_cons, List.mem_cons] at hnds
  push_neg at hnds
  obtain ⟨hsA, hsb, hsd, hsC⟩ := hnds
  rw [List.nodup_append] at htl
  obtain ⟨hAnd, htl2, hABC⟩ := htl
  rw [List.nodup_cons] at htl2
  obtain ⟨hbm, htl3⟩ := htl2
  rw [List.mem_cons] at hbm
  push_neg at hbm
  obtain ⟨hbd, hbC⟩ := hbm
  rw [List.nodup_cons] at htl3
  obtain ⟨hdC, hCnd⟩ := htl3
  have hbA : b ∉ A := fun hmem => hABC hmem (by simp)
  have hdA : d ∉ A := fun hmem => hABC hmem (by simp)
  have hAC : ∀ a ∈ A, a ∉ C := fun a ha hc => hABC ha (by simp [hc])
  -- original links
  have hpb : prv σ b = some (A.getLastD s) := hr.prv_mem rfl
  have hnb : nxt σ b = some d := by
    have h := hr.nxt_mem (A := A) (B := d :: C) rfl
    simpa using h
  have hnd2 : nxt σ d = some (C.headD s) :=
    hr.nxt_mem (A := A ++ [b]) (B := C) (x := d) (by simp)
  have hpd : prv σ d = some b := by
    have h := hr.prv_mem (A := A ++ [b]) (B := C) (x := d) (by simp)
    rwa [getLastD_append_cons, List.getLastD_nil] at h
  -- opaque names for the two outer neighbours
  obtain ⟨bp, hbp⟩ : ∃ x, A.getLastD s = x := ⟨_, rfl⟩
  obtain ⟨dn, hdn⟩ : ∃ x, C.headD s = x := ⟨_, rfl⟩
  rw [hbp] at hpb
  rw [hdn] at hnd2
  -- the written neighbours are distinct from b and d
  have hbpb : bp ≠ b := by
    rcases getLastD_mem_or A s with h | h
    · rw [hbp] at h; rw [h]; exact hsb
    · rw [hbp] at h; exact fun hc => hbA (hc ▸ h)
  have hbpd : bp ≠ d := by
    rcases getLastD_mem_or A s with h | h
    · rw [hbp] at h; rw [h]; exact hsd
    · rw [hbp] at h; exact fun hc => hdA (hc ▸ h)
  have hdnb : dn ≠ b := by
    rcases headD_mem_or C s with h | h
    · rw [hdn] at h; rw [h]; exact hsb
    · rw [hdn] at h; exact fun hc => hbC (hc ▸ h)
  have hdnd : dn ≠ d := by
    rcases headD_mem_or C s with h | h
    · rw [hdn] at h; rw [h]; exact hsd
    · rw [hdn] at h; exact fun hc => hdC (hc ▸ h)
  obtain ⟨σ', hσ'⟩ : ∃ σ', σ' =
      setPrev (setNext (setNext (setPrev (setPrev (setNext σ bp
        (some d)) dn (some b)) d (some bp)) b
        (some dn)) d (some b)) b (some d) := ⟨_, rfl⟩
  -- new links around the exchanged pair
  have LA : nxt σ' bp = some d := by rw [hσ']; simp [hbpb, hbpd]
  have LB : prv σ' d = some bp := by rw [hσ']; simp [hbd.symm]
  have LC : nxt σ' d = some b := by rw [hσ']; simp
  have LD : prv σ' b = some d := by rw [hσ']; simp
  have LE : nxt σ' b = some dn := by rw [hσ']; simp [hbd]
  have LF : prv σ' dn = some b := by rw [hσ']; simp [hdnb, hdnd]
  -- untouched chain segments
  have hsplit := List.chain'_append.mp
    (show List.Chain' (linked σ) ((s :: A) ++ (b :: d :: (C ++ [s]))) by
      simpa [RingOk] using hr)
  obtain ⟨chsA, chRest, _⟩ := hsplit
  have chCs : List.Chain' (linked σ) (C ++ [s]) := chRest.tail.tail
  have chsA' : List.Chain' (linked σ') (s :: A) := by
    refine chain'_linked_congr (fun a ha => ?_) (fun a ha => ?_) chsA
    · have haA : a ∈ s :: A := (List.dropLast_sublist (s :: A)).subset ha
      have h1 : a ≠ b := by
        rintro rfl
        rcases List.mem_cons.mp haA with h | h
        · exact hsb h.symm
        · exact hbA h
      have h2 : a ≠ d := by
        rintro rfl
        rcases List.mem_cons.mp haA with h | h
        · exact hsd h.symm
        · exact hdA h
      have h3 : a ≠ bp := by
        intro hcon
        have hnsA : (s :: A).Nodup :=
          hnd.sublist ((List.sublist_append_left A _).cons₂ s)
        apply getLastD_cons_notMem_dropLast hnsA
        rw [hbp, ← hcon]
        exact ha
      rw [hσ']; simp [h1, h2, h3]
    · simp only [List.tail_cons] at ha
      have h1 : a ≠ b := fun hc => hbA (hc ▸ ha)
      have h2 : a ≠ d := fun hc => hdA (hc ▸ ha)
      have h3 : a ≠ dn := by
        rcases headD_mem_or C s with h | h
        · rw [hdn] at h; rw [h]; exact fun hc => hsA (hc ▸ ha)
        · rw [hdn] at h; exact fun hc => hAC a ha (hc ▸ h)
      rw [hσ']; simp [h1, h2, h3]
  have chCs' : List.Chain' (linked σ') (C ++ [s]) := by
    refine chain'_linked_congr (fun a ha => ?_) (fun a ha => ?_) chCs
    · rw [List.dropLast_concat] at ha
      have h1 : a ≠ b := fun hc => hbC (hc ▸ ha)
      have h2 : a ≠ d := fun hc => hdC (hc ▸ ha)
      have h3 : a ≠ bp := by
        rcases getLastD_mem_or A s with h | h
        · rw [hbp] at h; rw [h]; exact fun hc => hsC (hc ▸ ha)
        · rw [hbp] at h; exact fun hc => hAC _ (hc ▸ h) ha
      rw [hσ']; simp [h1, h2, h3]
    · cases C with
      | nil => simp at ha
      | cons c0 t =>
        have hdnc0 : dn = c0 := by rw [← hdn]; rfl
        simp only [List.cons_append, List.tail_cons] at ha
        rw [List.mem_append, List.mem_singleton] at ha
        have hc0t : c0 ∉ t := (List.nodup_cons.mp hCnd).1
        have h1 : a ≠ b := by
          rcases ha with h | h
          · exact fun hc => hbC (hc ▸ (List.mem_cons_of_mem c0 h))
          · rw [h]; exact hsb
        have h2 : a ≠ d := by
          rcases ha with h | h
          · exact fun hc => hdC (hc ▸ (List.mem_cons_of_mem c0 h))
          · rw [h]; exact hsd
        have h3 : a ≠ dn := by
          rw [hdnc0]
          rcases ha with h | h
          · exact fun hc => hc0t (hc ▸ h)
          · rw [h]; exact fun hc => hsC (hc ▸ (List.mem_cons_self c0 t))
        rw [hσ']; simp [h1, h2, h3]
  -- reassemble the ring
  have hchain : List.Chain' (linked σ') ((s :: A) ++ (d :: b :: (C ++ [s]))) := by
    rw [List.chain'_append]
    refine ⟨chsA', ?_, ?_⟩
    · rw [List.chain'_cons]
      refine ⟨⟨LC, LD⟩, ?_⟩
      rw [List.chain'_cons']
      refine ⟨fun y hy => ?_, chCs'⟩
      rw [head?_append_singleton, hdn] at hy
      have hyd := Option.mem_some_iff.mp hy
      subst hyd
      exact ⟨LE, LF⟩
    · intro x hx y hy
      rw [getLast?_cons_eq, hbp] at hx
      have hxv := Option.mem_some_iff.mp hx
      have hyv : y = d := by have := hy; simp at this; exact this.symm
      subst hxv
      subst hyv
      exact ⟨LA, LB⟩
  refine ⟨σ', ?_, ?_, ?_, ?_, ?_, ?_, ?_⟩
  · rw [hσ']
    simp [swap, hbd, hnb, hpb, hnd2, hpd, hbpd.symm, hdnb.symm]
  · show List.Chain' (linked σ') (s :: (A ++ d :: b :: C) ++ [s])
    simpa using hchain
  · intro n; rw [hσ']; simp
  · intro n; rw [hσ']; simp
  · rw [hσ']; rfl
  · rw [hσ']; rfl
  · intro n h1 h2 h3 h4
    rw [hbp] at h3
    rw [hdn] at h4
    rw [hσ']
    simp [setNext, setPrev, h1, h2, h3, h4]

theorem swap_nonadj {σ : State α} {s b d B0 : Nat} {A Bt C : List Nat}
    (hr : RingOk σ s (A ++ b :: B0 :: (Bt ++ d :: C)))
    (hnd : (s :: (A ++ b :: B0 :: (Bt ++ d :: C))).Nodup) :
    ∃ σ', swap σ (some b) (some d) = some (σ', false) ∧
      RingOk σ' s (A ++ d :: B0 :: (Bt ++ b :: C)) ∧
      (∀ n, own σ' n = own σ n) ∧ (∀ n, val σ' n = val σ n) ∧
      σ'.lens = σ.lens ∧ σ'.fresh = σ.fresh ∧
      (∀ n, n ≠ b → n ≠ d → n ≠ A.getLastD s → n ≠ B0 →
        n ≠ Bt.getLastD B0 → n ≠ C.headD s → σ'.heap n = σ.heap n) := by
  have hsmem : s ∉ A ++ b :: B0 :: (Bt ++ d :: C) := (List.nodup_cons.mp hnd).1
  have hsA : s ∉ A := fun h => hsmem (by simp [h])
  have hsb : s ≠ b := fun h => hsmem (by simp [h])
  have hsB0 : s ≠ B0 := fun h => hsmem (by simp [h])
  have hsBt : s ∉ Bt := fun h => hsmem (by simp [h])
  have hsd : s ≠ d := fun h => hsmem (by simp [h])
  have hsC : s ∉ C := fun h => hsmem (by simp [h])
  have htl : (A ++ b :: B0 :: (Bt ++ d :: C)).Nodup := (List.nodup_cons.mp hnd).2
  rw [List.nodup_append] at htl
  obtain ⟨hAnd, htl2, hAX⟩ := htl
  rw [List.nodup_cons] at htl2
  obtain ⟨hbm, htl3⟩ := htl2
  have hbB0 : b ≠ B0 := fun h => hbm (by simp [h])
  have hbBt : b ∉ Bt := fun h => hbm (by simp [h])
  have hbd : b ≠ d := fun h => hbm (by simp [h])
  have hbC : b ∉ C := fun h => hbm (by simp [h])
  rw [List.nodup_cons] at htl3
  obtain ⟨hB0m, htl4⟩ := htl3
  have hB0Bt : B0 ∉ Bt := fun h => hB0m (by simp [h])
  have hB0d : B0 ≠ d := fun h => hB0m (by simp [h])
  have hB0C : B0 ∉ C := fun h => hB0m (by simp [h])
  rw [List.nodup_append] at htl4
  obtain ⟨hBtnd, htl5, hBtX⟩ := htl4
  rw [List.nodup_cons] at htl5
  obtain ⟨hdC, hCnd⟩ := htl5
  have hbA : b ∉ A := fun hmem => hAX hmem (by simp)
  have hdA : d ∉ A := fun hmem => hAX hmem (by simp)
  have hB0A : B0 ∉ A := fun hmem => hAX hmem (by simp)
  have hABt : ∀ a ∈ A, a ∉ Bt := fun a ha hmem => hAX ha (by simp [hmem])
  have hAC : ∀ a ∈ A, a ∉ C := fun a ha hmem => hAX ha (by simp [hmem])
  have hdBt : d ∉ Bt := fun hmem => hBtX hmem (by simp)
  have hBtC : ∀ a ∈ Bt, a ∉ C := fun a ha hmem => hBtX ha (by simp [hmem])
  -- original links
  have hpb : prv σ b = some (A.getLastD s) := hr.prv_mem rfl
  have hnb : nxt σ b = some B0 := by
    have h := hr.nxt_mem (A := A) (B := B0 :: (Bt ++ d :: C)) (x := b) rfl
    simpa using h
  have hnd2 : nxt σ d = some (C.headD s) := by
    have h := hr.nxt_mem (A := A ++ b :: B0 :: Bt) (B := C) (x := d) (by simp)
    exact h
  have hpd : prv σ d = some (Bt.getLastD B0) := by
    have h := hr.prv_mem (A := A ++ b :: B0 :: Bt) (B := C) (x := d) (by simp)
    rwa [getLastD_append_cons, List.getLastD_cons] at h
  -- opaque names for the four outer neighbours
  obtain ⟨bp, hbp⟩ : ∃ x, A.getLastD s = x := ⟨_, rfl⟩
  obtain ⟨dp, hdp⟩ : ∃ x, Bt.getLastD B0 = x := ⟨_, rfl⟩
  obtain ⟨dn, hdn⟩ : ∃ x, C.headD s = x := ⟨_, rfl⟩
  rw [hbp] at hpb
  rw [hdp] at hpd
  rw [hdn] at hnd2
  have hdpB : dp ∈ B0 :: Bt := by
    rw [← hdp]
    rcases getLastD_mem_or Bt B0 with h | h
    · rw [h]; exact List.mem_cons_self _ _
    · exact List.mem_cons_of_mem _ h
  have hbpb : bp ≠ b := by
    rcases getLastD_mem_or A s with h | h
    · rw [hbp] at h; rw [h]; exact hsb
    · rw [hbp] at h; exact fun hc => hbA (hc ▸ h)
  have hbpd : bp ≠ d := by
    rcases getLastD_mem_or A s with h | h
    · rw [hbp] at h; rw [h]; exact hsd
    · rw [hbp] at h; exact fun hc => hdA (hc ▸ h)
  have hbpB0 : bp ≠ B0 := by
    rcases getLastD_mem_or A s with h | h
    · rw [hbp] at h; rw [h]; exact hsB0
    · rw [hbp] at h; exact fun hc => hB0A (hc ▸ h)
  have hbpdp : bp ≠ dp := by
    intro hc
    rcases getLastD_mem_or A s with h | h
    · rw [hbp] at h
      rcases List.mem_cons.mp hdpB with h2 | h2
      · apply hsB0; rw [← h, hc]; exact h2
      · apply hsBt; rw [← h, hc]; exact h2
    · rw [hbp] at h
      rcases List.mem_cons.mp hdpB with h2 | h2
      · apply hB0A; rw [← h2, ← hc]; exact h
      · apply hABt bp h; rw [hc]; exact h2
  have hdnb : dn ≠ b := by
    rcases headD_mem_or C s with h | h
    · rw [hdn] at h; rw [h]; exact hsb
    · rw [hdn] at h; exact fun hc => hbC (hc ▸ h)
  have hdnd : dn ≠ d := by
    rcases headD_mem_or C s with h | h
    · rw [hdn] at h; rw [h]; exact hsd
    · rw [hdn] at h; exact fun hc => hdC (hc ▸ h)
  have hdnB0 : dn ≠ B0 := by
    rcases headD_mem_or C s with h | h
    · rw [hdn] at h; rw [h]; exact hsB0
    · rw [hdn] at h; exact fun hc => hB0C (hc ▸ h)
  have hdndp : dn ≠ dp := by
    intro hc
    rcases headD_mem_or C s with h | h
    · rw [hdn] at h
      rcases List.mem_cons.mp hdpB with h2 | h2
      · apply hsB0; rw [← h, hc]; exact h2
      · apply hsBt; rw [← h, hc]; exact h2
    · rw [hdn] at h
      rcases List.mem_cons.mp hdpB with h2 | h2
      · apply hB0C; rw [← h2, ← hc]; exact h
      · exact hBtC dp h2 (hc ▸ h)
  have hdpb : dp ≠ b := by
    intro hc
    rcases List.mem_cons.mp hdpB with h2 | h2
    · apply hbB0; rw [← hc]; exact h2
    · apply hbBt; rw [← hc]; exact h2
  have hdpd : dp ≠ d := by
    intro hc
    rcases List.mem_cons.mp hdpB with h2 | h2
    · apply hB0d; rw [← h2, hc]
    · apply hdBt; rw [← hc]; exact h2
  have hB0b : B0 ≠ b := fun hc => hbB0 hc.symm
  have hB0d' : B0 ≠ d := hB0d
  -- the adjacency tests in the code are false
  have hcond1 : nxt σ b ≠ some d := by rw [hnb]; exact fun hc => hB0d' (Option.some.inj hc)
  have hcond2 : prv σ b ≠ some d := by rw [hpb]; exact fun hc => hbpd (Option.some.inj hc)
  obtain ⟨σ', hσ'⟩ : ∃ σ', σ' =
      setNext (setPrev (setNext (setPrev (setNext (setPrev (setNext (setPrev σ
        B0 (some d)) bp (some d)) dn (some b)) dp (some b)) b (some dp)) b
        (some dn)) d (some bp)) d (some B0) := ⟨_, rfl⟩
  -- new links
  have LA : nxt σ' bp = some d := by
    rw [hσ']; simp [hbpd, hbpb, hbpdp]
  have LB : prv σ' d = some bp := by rw [hσ']; simp
  have LC : nxt σ' d = some B0 := by rw [hσ']; simp
  have LD : prv σ' B0 = some d := by
    rw [hσ']; simp [hB0d', hB0b, hdnB0.symm]
  have LE : nxt σ' dp = some b := by rw [hσ']; simp [hdpd, hdpb]
  have LF : prv σ' b = some dp := by rw [hσ']; simp [hbd]
  have LG : nxt σ' b = some dn := by rw [hσ']; simp [hbd]
  have LH : prv σ' dn = some b := by rw [hσ']; simp [hdnd, hdnb]
  -- untouched chain segments
  have hsplit := List.chain'_append.mp
    (show List.Chain' (linked σ)
        ((s :: A) ++ (b :: ((B0 :: Bt) ++ (d :: (C ++ [s]))))) by
      simpa [RingOk] using hr)
  obtain ⟨chsA, chRest, _⟩ := hsplit
  have chRest2 : List.Chain' (linked σ) ((B0 :: Bt) ++ (d :: (C ++ [s]))) :=
    chRest.tail
  have hsplit2 := List.chain'_append.mp chRest2
  obtain ⟨chB, chRest3, _⟩ := hsplit2
  have chCs : List.Chain' (linked σ) (C ++ [s]) := chRest3.tail
  have chsA' : List.Chain' (linked σ') (s :: A) := by
    refine chain'_linked_congr (fun a ha => ?_) (fun a ha => ?_) chsA
    · have haA : a ∈ s :: A := (List.dropLast_sublist (s :: A)).subset ha
      have h1 : a ≠ b := by
        rintro rfl
        rcases List.mem_cons.mp haA with h | h
        · exact hsb h.symm
        · exact hbA h
      have h2 : a ≠ d := by
        rintro rfl
        rcases List.mem_cons.mp haA with h | h
        · exact hsd h.symm
        · exact hdA h
      have h3 : a ≠ bp := by
        intro hcon
        have hnsA : (s :: A).Nodup :=
          hnd.sublist ((List.sublist_append_left A _).cons₂ s)
        apply getLastD_cons_notMem_dropLast hnsA
        rw [hbp, ← hcon]
        exact ha
      have h4 : a ≠ dp := by
        rintro rfl
        rcases List.mem_cons.mp hdpB with h2' | h2'
        · rcases List.mem_cons.mp haA with h | h
          · exact hsB0 (h2' ▸ h.symm).symm.symm
          · exact hB0A (h2' ▸ h)
        · rcases List.mem_cons.mp haA with h | h
          · exact hsBt (h ▸ h2')
          · exact hABt _ h h2'
      rw [hσ']; simp [h1, h2, h3, h4]
    · simp only [List.tail_cons] at ha
      have h1 : a ≠ b := fun hc => hbA (hc ▸ ha)
      have h2 : a ≠ d := fun hc => hdA (hc ▸ ha)
      have h3 : a ≠ B0 := fun hc => hB0A (hc ▸ ha)
      have h4 : a ≠ dn := by
        rcases headD_mem_or C s with h | h
        · rw [hdn] at h; rw [h]; exact fun hc => hsA (hc ▸ ha)
        · rw [hdn] at h; exact fun hc => hAC a ha (hc ▸ h)
      rw [hσ']; simp [h1, h2, h3, h4]
  have chB' : List.Chain' (linked σ') (B0 :: Bt) := by
    refine chain'_linked_congr (fun a ha => ?_) (fun a ha => ?_) chB
    · have haB : a ∈ B0 :: Bt := (List.dropLast_sublist (B0 :: Bt)).subset ha
      have h1 : a ≠ b := by
        rintro rfl
        rcases List.mem_cons.mp haB with h | h
        · exact hbB0 h.symm.symm
        · exact hbBt h
      have h2 : a ≠ d := by
        intro hc
        rcases List.mem_cons.mp haB with h | h
        · apply hB0d; rw [← h, ← hc]
        · apply hdBt; rw [← hc]; exact h
      have h3 : a ≠ bp := by
        rintro rfl
        rcases getLastD_mem_or A s with h | h
        · rw [hbp] at h
          rcases List.mem_cons.mp haB with h' | h'
          · exact hsB0 (h ▸ h')
          · exact hsBt (h ▸ h')
        · rw [hbp] at h
          rcases List.mem_cons.mp haB with h' | h'
          · exact hB0A (h' ▸ h)
          · exact hABt _ h h'
      have h4 : a ≠ dp := by
        intro hcon
        have hnB : (B0 :: Bt).Nodup := by
          rw [List.nodup_cons]; exact ⟨hB0Bt, hBtnd⟩
        apply getLastD_cons_notMem_dropLast hnB
        rw [hdp, ← hcon]
        exact ha
      rw [hσ']; simp [h1, h2, h3, h4]
    · simp only [List.tail_cons] at ha
      have h1 : a ≠ b := fun hc => hbBt (hc ▸ ha)
      have h2 : a ≠ d := fun hc => hdBt (hc ▸ ha)
      have h3 : a ≠ B0 := fun hc => hB0Bt (hc ▸ ha)
      have h4 : a ≠ dn := by
        rcases headD_mem_or C s with h | h
        · rw [hdn] at h; rw [h]; exact fun hc => hsBt (hc ▸ ha)
        · rw [hdn] at h; exact fun hc => hBtC a ha (hc ▸ h)
      rw [hσ']; simp [h1, h2, h3, h4]
  have chCs' : List.Chain' (linked σ') (C ++ [s]) := by
    refine chain'_linked_congr (fun a ha => ?_) (fun a ha => ?_) chCs
    · rw [List.dropLast_concat] at ha
      have h1 : a ≠ b := fun hc => hbC (hc ▸ ha)
      have h2 : a ≠ d := fun hc => hdC (hc ▸ ha)
      have h3 : a ≠ bp := by
        rcases getLastD_mem_or A s with h | h
        · rw [hbp] at h; rw [h]; exact fun hc => hsC (hc ▸ ha)
        · rw [hbp] at h; exact fun hc => hAC _ (hc ▸ h) ha
      have h4 : a ≠ dp := by
        rintro rfl
        rcases List.mem_cons.mp hdpB with h' | h'
        · exact hB0C (h' ▸ ha)
        · exact hBtC _ h' ha
      rw [hσ']; simp [h1, h2, h3, h4]
    · cases C with
      | nil => simp at ha
      | cons c0 t =>
        have hdnc0 : dn = c0 := by rw [← hdn]; rfl
        simp only [List.cons_append, List.tail_cons] at ha
        rw [List.mem_append, List.mem_singleton] at ha
        have hc0t : c0 ∉ t := (List.nodup_cons.mp hCnd).1
        have h1 : a ≠ b := by
          rcases ha with h | h
          · exact fun hc => hbC (hc ▸ (List.mem_cons_of_mem c0 h))
          · rw [h]; exact hsb
        have h2 : a ≠ d := by
          rcases ha with h | h
          · exact fun hc => hdC (hc ▸ (List.mem_cons_of_mem c0 h))
          · rw [h]; exact hsd
        have h3 : a ≠ B0 := by
          rcases ha with h | h
          · exact fun hc => hB0C (hc ▸ (List.mem_cons_of_mem c0 h))
          · rw [h]; exact fun hc => hsB0 hc
        have h4 : a ≠ dn := by
          rw [hdnc0]
          rcases ha with h | h
          · exact fun hc => hc0t (hc ▸ h)
          · rw [h]; exact fun hc => hsC (hc ▸ (List.mem_cons_self c0 t))
        rw [hσ']; simp [h1, h2, h3, h4]
  -- reassemble the ring
  have hchain : List.Chain' (linked σ')
      ((s :: A) ++ ((d :: (B0 :: Bt)) ++ (b :: (C ++ [s])))) := by
    rw [List.chain'_append]
    refine ⟨chsA', ?_, ?_⟩
    · rw [List.chain'_append]
      refine ⟨?_, ?_, ?_⟩
      · rw [List.chain'_cons]
        exact ⟨⟨LC, LD⟩, chB'⟩
      · rw [List.chain'_cons']
        refine ⟨fun y hy => ?_, chCs'⟩
        rw [head?_append_singleton, hdn] at hy
        have hyd := Option.mem_some_iff.mp hy
        subst hyd
        exact ⟨LG, LH⟩
      · intro x hx y hy
        rw [getLast?_cons_eq, List.getLastD_cons, hdp] at hx
        have hxv := Option.mem_some_iff.mp hx
        have hyv : y = b := by have := hy; simp at this; exact this.symm
        subst hxv
        subst hyv
        exact ⟨LE, LF⟩
    · intro x hx y hy
      rw [getLast?_cons_eq, hbp] at hx
      have hxv := Option.mem_some_iff.mp hx
      have hyv : y = d := by have := hy; simp at this; exact this.symm
      subst hxv
      subst hyv
      exact ⟨LA, LB⟩
  refine ⟨σ', ?_, ?_, ?_, ?_, ?_, ?_, ?_⟩
  · rw [hσ']
    simp [swap, hbd, hnb, hpb, hnd2, hpd, hcond1, hcond2, hB0b.symm, hbpb.symm,
      hdnb.symm, hdpb.symm, hdnd.symm, hB0d', hB0d'.symm, hbpd, hbpd.symm,
      hdpd, hdpd.symm, hbpb, hdnb, hB0b, hdpb]
  · show List.Chain' (linked σ') (s :: (A ++ d :: B0 :: (Bt ++ b :: C)) ++ [s])
    simpa using hchain
  · intro n; rw [hσ']; simp
  · intro n; rw [hσ']; simp
  · rw [hσ']; rfl
  · rw [hσ']; rfl
  · intro n h1 h2 h3 h4 h5 h6
    rw [hbp] at h3
    rw [hdp] at h5
    rw [hdn] at h6
    rw [hσ']
    simp [setNext, setPrev, h1, h2, h3, h4, h5, h6]

/-- `swap` on equal arguments (including two `nil`s) does nothing. -/
theorem swap_same (σ : State α) (x : Option Nat) : swap σ x x = some (σ, false) := by
  simp [swap]

/-- Main specification of `swap` when `b` occurs before `d` in the ring:
the two nodes exchange positions, the returned flag reports adjacency,
values, owners, lengths are untouched, and only the two nodes and their
former neighbours are written. -/
theorem swap_spec {σ : State α} {s b d : Nat} {A B C : List Nat}
    (hr : RingOk σ s (A ++ b :: (B ++ d :: C)))
    (hnd : (s :: (A ++ b :: (B ++ d :: C))).Nodup) :
    ∃ σ', swap σ (some b) (some d) = some (σ', B.isEmpty) ∧
      RingOk σ' s (A ++ d :: (B ++ b :: C)) ∧
      (∀ n, own σ' n = own σ n) ∧ (∀ n, val σ' n = val σ n) ∧
      σ'.lens = σ.lens ∧ σ'.fresh = σ.fresh ∧
      (∀ n, n ≠ b → n ≠ d → n ≠ A.getLastD s → n ≠ B.headD d →
        n ≠ B.getLastD b → n ≠ C.headD s → σ'.heap n = σ.heap n) := by
  cases B with
  | nil =>
    have hr' : RingOk σ s (A ++ b :: d :: C) := by simpa using hr
    have hnd' : (s :: (A ++ b :: d :: C)).Nodup := by simpa using hnd
    obtain ⟨σ', h1, h2, h3, h4, h5, h6, h7⟩ := swap_adj hr' hnd'
    refine ⟨σ', by simpa using h1, by simpa using h2, h3, h4, h5, h6, ?_⟩
    intro n k1 k2 k3 _ _ k6
    exact h7 n k1 k2 k3 k6
  | cons B0 Bt =>
    have hr' : RingOk σ s (A ++ b :: B0 :: (Bt ++ d :: C)) := by simpa using hr
    have hnd' : (s :: (A ++ b :: B0 :: (Bt ++ d :: C))).Nodup := by simpa using hnd
    obtain ⟨σ', h1, h2, h3, h4, h5, h6, h7⟩ := swap_nonadj hr' hnd'
    refine ⟨σ', by simpa using h1, by simpa using h2, h3, h4, h5, h6, ?_⟩
    intro n k1 k2 k3 k4 k5 k6
    rw [List.headD_cons] at k4
    rw [List.getLastD_cons] at k5
    exact h7 n k1 k2 k3 k4 k5 k6

/-- Weaker frame: `swap` does not touch heap cells outside the ring. -/
theorem swap_spec_frame {σ σ' : State α} {s b d : Nat} {A B C : List Nat}
    (hr : RingOk σ s (A ++ b :: (B ++ d :: C)))
    (hfr : ∀ n, n ≠ b → n ≠ d → n ≠ A.getLastD s → n ≠ B.headD d →
        n ≠ B.getLastD b → n ≠ C.headD s → σ'.heap n = σ.heap n) :
    ∀ n, n ∉ s :: (A ++ b :: (B ++ d :: C)) → σ'.heap n = σ.heap n := by
  intro n hn
  have k1 : n ≠ b := fun hc => hn (by simp [hc])
  have k2 : n ≠ d := fun hc => hn (by simp [hc])
  have k3 : n ≠ A.getLastD s := by
    intro hc
    rcases getLastD_mem_or A s with h | h
    · exact hn (by simp [hc.trans h])
    · refine hn ?_
      rw [hc]
      simp only [List.mem_cons, List.mem_append]
      tauto
  have k4 : n ≠ B.headD d := by
    intro hc
    rcases headD_mem_or B d with h | h
    · exact k2 (hc.trans h)
    · refine hn ?_
      rw [hc]
      simp only [List.mem_cons, List.mem_append]
      tauto
  have k5 : n ≠ B.getLastD b := by
    intro hc
    rcases getLastD_mem_or B b with h | h
    · exact k1 (hc.trans h)
    · refine hn ?_
      rw [hc]
      simp only [List.mem_cons, List.mem_append]
      tauto
  have k6 : n ≠ C.headD s := by
    intro hc
    rcases headD_mem_or C s with h | h
    · exact hn (by simp [hc.trans h])
    · refine hn ?_
      rw [hc]
      simp only [List.mem_cons, List.mem_append]
      tauto
  exact hfr n k1 k2 k3 k4 k5 k6

/-! ### The partition scans -/

theorem getLast?_append_cons (X : List Nat) (y : Nat) (Y : List Nat) :
    (X ++ y :: Y).getLast? = some (Y.getLastD y) := by
  cases X with
  | nil => exact getLast?_cons_eq y Y
  | cons a t => rw [List.cons_append, getLast?_cons_eq, getLastD_append_cons]

theorem head?_append_cons (M : List Nat) (r : Nat) (C : List Nat) :
    (M ++ r :: C).head? = some (M.headD r) := by
  cases M <;> simp

/-- Specification of the right-to-left scan
`for right != left and cmp(right.Value, pivotValue) >= 0`:
either it stops inside `M ++ [r]` at the rightmost element comparing `< 0`
(everything to its right comparing `>= 0`), or every element of `M ++ [r]`
compares `>= 0` and the scan runs into the `left` cursor. -/
theorem scanRight_spec {σ : State α} {s : Nat} {ids : List Nat}
    (hw : WFl σ s ids) (cmp : α → α → Int) (pv : α) :
    ∀ (M : List Nat) (fuel : Nat) (l r : Nat) (A C : List Nat),
      ids = A ++ l :: (M ++ r :: C) →
      M.length + 2 ≤ fuel →
      (∃ W1 j W2, M ++ [r] = W1 ++ j :: W2 ∧ cmp (val σ j) pv < 0 ∧
          (∀ x ∈ W2, cmp (val σ x) pv ≥ 0) ∧
          scanRight cmp pv fuel σ (some l) (some r) = some (some j)) ∨
      ((∀ x ∈ M ++ [r], cmp (val σ x) pv ≥ 0) ∧
        scanRight cmp pv fuel σ (some l) (some r) = some (some l)) := by
  intro M
  induction M using List.reverseRecOn with
  | nil =>
    intro fuel l r A C he hf
    obtain ⟨fuel, rfl⟩ : ∃ f, fuel = f + 2 := ⟨fuel - 2, by omega⟩
    have hlr : l ≠ r := by
      have hnd := hw.nodup
      rw [he] at hnd
      have : l ∉ [] ++ r :: C := by
        have h2 := (List.nodup_cons.mp hnd).2
        rw [List.nodup_append] at h2
        intro hmem
        exact (List.nodup_cons.mp h2.2.1).1 (by simpa using hmem)
      intro hc
      exact this (by simp [hc])
    by_cases hge : cmp (val σ r) pv ≥ 0
    · right
      constructor
      · intro x hx
        simp only [List.nil_append, List.mem_singleton] at hx
        rw [hx]; exact hge
      · have hpr : PrevE σ r = some l := by
          have h := hw.PrevE_eq (A := A ++ [l]) (B := C) (x := r) (by simpa using he)
          rwa [List.getLast?_concat] at h
        rw [scanRight]
        rw [if_neg (by simpa using fun hc => hlr hc.symm)]
        rw [if_pos hge, hpr, scanRight]
        rw [if_pos rfl]
    · left
      refine ⟨[], r, [], by simp, by omega, by simp, ?_⟩
      rw [scanRight]
      rw [if_neg (by simpa using fun hc => hlr hc.symm)]
      rw [if_neg hge]
  | append_singleton M' m ih =>
    intro fuel l r A C he hf
    obtain ⟨fuel, rfl⟩ : ∃ f, fuel = f + 1 := ⟨fuel - 1, by omega⟩
    have hlr : l ≠ r := by
      have hnd := hw.nodup
      rw [he] at hnd
      have h2 := (List.nodup_cons.mp hnd).2
      rw [List.nodup_append] at h2
      have h3 := (List.nodup_cons.mp h2.2.1).1
      intro hc
      exact h3 (by simp [hc])
    by_cases hge : cmp (val σ r) pv ≥ 0
    · have hpr : PrevE σ r = some m := by
        have h := hw.PrevE_eq (A := A ++ l :: (M' ++ [m])) (B := C) (x := r)
          (by simp [he])
        rwa [getLast?_append_cons, List.getLastD_concat] at h
      have hstep : scanRight cmp pv (fuel + 1) σ (some l) (some r) =
          scanRight cmp pv fuel σ (some l) (some m) := by
        rw [scanRight]
        rw [if_neg (by simpa using fun hc => hlr hc.symm)]
        rw [if_pos hge, hpr]
      have he' : ids = A ++ l :: (M' ++ m :: (r :: C)) := by simp [he]
      have hf' : M'.length + 2 ≤ fuel := by
        have : (M' ++ [m]).length = M'.length + 1 := by simp
        omega
      rcases ih fuel l m A (r :: C) he' hf' with ⟨W1, j, W2, hsp, hj, hW2, hres⟩ | ⟨hall, hres⟩
      · left
        refine ⟨W1, j, W2 ++ [r], ?_, hj, ?_, ?_⟩
        · have : M' ++ [m] ++ [r] = (W1 ++ j :: W2) ++ [r] := by rw [hsp]
          simpa using this
        · intro x hx
          rcases List.mem_append.mp hx with h | h
          · exact hW2 x h
          · rw [List.mem_singleton.mp h]; exact hge
        · rw [hstep]; exact hres
      · right
        constructor
        · intro x hx
          rcases List.mem_append.mp hx with h | h
          · exact hall x (by simpa using h)
          · rw [List.mem_singleton.mp h]; exact hge
        · rw [hstep]; exact hres
    · left
      refine ⟨M' ++ [m], r, [], by simp, by omega, by simp, ?_⟩
      rw [scanRight]
      rw [if_neg (by simpa using fun hc => hlr hc.symm)]
      rw [if_neg hge]

/-- Specification of the left-to-right scan
`for left != right and cmp(left.Value, pivotValue) <= 0`:
either it stops inside `l :: M` at the leftmost element comparing `> 0`
(everything to its left comparing `<= 0`), or every element of `l :: M`
compares `<= 0` and the scan runs into the `right` cursor. -/
theorem scanLeft_spec {σ : State α} {s : Nat} {ids : List Nat}
    (hw : WFl σ s ids) (cmp : α → α → Int) (pv : α) :
    ∀ (M : List Nat) (fuel : Nat) (l r : Nat) (A C : List Nat),
      ids = A ++ l :: (M ++ r :: C) →
      M.length + 2 ≤ fuel →
      (∃ W1 j W2, l :: M = W1 ++ j :: W2 ∧ 0 < cmp (val σ j) pv ∧
          (∀ x ∈ W1, cmp (val σ x) pv ≤ 0) ∧
          scanLeft cmp pv fuel σ (some l) (some r) = some (some j)) ∨
      ((∀ x ∈ l :: M, cmp (val σ x) pv ≤ 0) ∧
        scanLeft cmp pv fuel σ (some l) (some r) = some (some r)) := by
  intro M
  induction M with
  | nil =>
    intro fuel l r A C he hf
    obtain ⟨fuel, rfl⟩ : ∃ f, fuel = f + 2 := ⟨fuel - 2, by omega⟩
    have hlr : l ≠ r := by
      have hnd := hw.nodup
      rw [he] at hnd
      have h2 := (List.nodup_cons.mp hnd).2
      rw [List.nodup_append] at h2
      have h3 := (List.nodup_cons.mp h2.2.1).1
      intro hc
      exact h3 (by simp [hc])
    by_cases hle : cmp (val σ l) pv ≤ 0
    · right
      constructor
      · intro x hx
        rw [List.mem_singleton.mp hx]; exact hle
      · have hnx : NextE σ l = some r := by
          have h := hw.NextE_eq (A := A) (B := [] ++ r :: C) (x := l) he
          simpa using h
        rw [scanLeft]
        rw [if_neg (by simpa using hlr)]
        rw [if_pos hle, hnx, scanLeft]
        rw [if_pos rfl]
    · left
      refine ⟨[], l, [], by simp, by omega, by simp, ?_⟩
      rw [scanLeft]
      rw [if_neg (by simpa using hlr)]
      rw [if_neg hle]
  | cons m M' ih =>
    intro fuel l r A C he hf
    obtain ⟨fuel, rfl⟩ : ∃ f, fuel = f + 1 := ⟨fuel - 1, by omega⟩
    have hlr : l ≠ r := by
      have hnd := hw.nodup
      rw [he] at hnd
      have h2 := (List.nodup_cons.mp hnd).2
      rw [List.nodup_append] at h2
      have h3 := (List.nodup_cons.mp h2.2.1).1
      intro hc
      exact h3 (by simp [hc])
    by_cases hle : cmp (val σ l) pv ≤ 0
    · have hnx : NextE σ l = some m := by
        have h := hw.NextE_eq (A := A) (B := m :: M' ++ r :: C) (x := l)
          (by simpa using he)
        simpa using h
      have hstep : scanLeft cmp pv (fuel + 1) σ (some l) (some r) =
          scanLeft cmp pv fuel σ (some m) (some r) := by
        rw [scanLeft]
        rw [if_neg (by simpa using hlr)]
        rw [if_pos hle, hnx]
      have he' : ids = (A ++ [l]) ++ m :: (M' ++ r :: C) := by simp [he]
      have hf' : M'.length + 2 ≤ fuel := by
        have : (m :: M').length = M'.length + 1 := rfl
        omega
      rcases ih fuel m r (A ++ [l]) C he' hf' with
        ⟨W1, j, W2, hsp, hj, hW1, hres⟩ | ⟨hall, hres⟩
      · left
        refine ⟨l :: W1, j, W2, by rw [List.cons_append, ← hsp], hj, ?_, ?_⟩
        · intro x hx
          rcases List.mem_cons.mp hx with h | h
          · rw [h]; exact hle
          · exact hW1 x h
        · rw [hstep]; exact hres
      · right
        constructor
        · intro x hx
          rcases List.mem_cons.mp hx with h | h
          · rw [h]; exact hle
          · exact hall x h
        · rw [hstep]; exact hres
    · left
      refine ⟨[], l, m :: M', by simp, by omega, by simp, ?_⟩
      rw [scanLeft]
      rw [if_neg (by simpa using hlr)]
      rw [if_neg hle]

/-! ### The partition loop -/

theorem scanLeft_stop (cmp : α → α → Int) (pv : α) (fuel : Nat) (σ : State α)
    (x : Option Nat) : scanLeft cmp pv (fuel + 1) σ x x = some x := by
  rw [scanLeft.eq_def]
  simp

theorem WFl.recast {σ : State α} {s : Nat} {ids ids' : List Nat}
    (hw : WFl σ s ids) (h : ids = ids') : WFl σ s ids' := h ▸ hw

/-- Rebuild `WFl` after a state change that permutes the ring and preserves
ownership fields and lengths. -/
theorem WFl.of_perm_ringOk {σ σ' : State α} {s : Nat} {ids ids' : List Nat}
    (hw : WFl σ s ids) (hperm : ids'.Perm ids) (hr : RingOk σ' s ids')
    (hown : ∀ n, own σ' n = own σ n) (hlen : σ'.lens = σ.lens) :
    WFl σ' s ids' where
  ring := hr
  nodup := ((hperm.cons s).nodup_iff).mpr hw.nodup
  owns := fun n hn => by rw [hown n]; exact hw.owns n (hperm.mem_iff.mp hn)
  sentOwn := by rw [hown s]; exact hw.sentOwn
  len := by rw [hlen, hperm.length_eq]; exact hw.len

theorem headD_of_split {l : Nat} {W1 W1L W1R : List Nat} {i : Nat}
    (hspL : l :: W1 = W1L ++ i :: W1R) (hne : W1L ≠ []) (z : Nat) :
    W1L.headD z = l := by
  cases W1L with
  | nil => exact absurd rfl hne
  | cons w0 t =>
    rw [List.cons_append] at hspL
    rw [List.headD_cons]
    exact (List.cons.inj hspL).1.symm

theorem headD_append_right (X Y : List Nat) (z : Nat) :
    (X ++ Y).headD z = X.headD (Y.headD z) := by
  cases X <;> simp

/-- Full specification of the partition loop of `_qsort`.  Starting from a
well-formed ring whose middle segment is `U ++ l :: (M ++ r :: V)` with
everything in `U` (and `l`) comparing `<= 0` against the pivot and
everything in `V` comparing `>= 0`, the loop terminates, performs only
swaps inside the segment (so the segment is permuted in place, the head
node of the segment never moves, and values/owners/lengths and all heap
cells outside the ring are untouched), and the final `left` cursor `lf`
splits the segment into a lower part `U' ++ [lf]` (all `<= 0`) and an
upper part `V'` (all `>= 0`). -/
theorem partLoop_spec {s : Nat} (cmp : α → α → Int) (pv : α) (vmap : Nat → α) :
    ∀ (fuel : Nat) (σ : State α) (P U M V Q : List Nat) (l r : Nat),
      WFl σ s (P ++ (U ++ l :: (M ++ r :: V)) ++ Q) →
      (∀ n, val σ n = vmap n) →
      (∀ x ∈ U, cmp (vmap x) pv ≤ 0) →
      cmp (vmap l) pv ≤ 0 →
      (∀ x ∈ V, 0 ≤ cmp (vmap x) pv) →
      2 * M.length + 4 ≤ fuel →
      ∃ σ' U' lf V',
        partLoop cmp pv fuel σ (some l) (some r) = some (σ', some lf) ∧
        WFl σ' s (P ++ (U' ++ lf :: V') ++ Q) ∧
        (U' ++ lf :: V').Perm (U ++ l :: (M ++ r :: V)) ∧
        U'.headD lf = U.headD l ∧
        (∀ x ∈ U', cmp (vmap x) pv ≤ 0) ∧
        cmp (vmap lf) pv ≤ 0 ∧
        (∀ x ∈ V', 0 ≤ cmp (vmap x) pv) ∧
        (∀ n, val σ' n = vmap n) ∧
        (∀ n, own σ' n = own σ n) ∧
        σ'.lens = σ.lens ∧ σ'.fresh = σ.fresh ∧
        (∀ n, n ∉ s :: (P ++ (U ++ l :: (M ++ r :: V)) ++ Q) →
          σ'.heap n = σ.heap n) := by
  intro fuel
  induction fuel with
  | zero => intro σ P U M V Q l r _ _ _ _ _ hf; omega
  | succ f IH =>
    intro σ P U M V Q l r hw hv hU hl hV hf
    have hidsR : P ++ (U ++ l :: (M ++ r :: V)) ++ Q =
        (P ++ U) ++ l :: (M ++ r :: (V ++ Q)) := by simp
    rcases scanRight_spec (hw.recast hidsR) cmp pv M f l r (P ++ U) (V ++ Q)
        rfl (by omega) with ⟨W1, j, W2, hsp, hjlt, hW2, hresR⟩ | ⟨hallge, hresR⟩
    · -- the right scan found `j` with cmp < 0
      have hjlt' : cmp (vmap j) pv < 0 := by rw [← hv j]; exact hjlt
      have hW2' : ∀ x ∈ W2, 0 ≤ cmp (vmap x) pv := fun x hx => by
        rw [← hv x]; exact hW2 x hx
      have hseg : M ++ r :: V = W1 ++ j :: (W2 ++ V) := by
        rw [show M ++ r :: V = (M ++ [r]) ++ V by simp, hsp]
        simp
      have hlenW1 : W1.length + W2.length = M.length := by
        have := congrArg List.length hsp
        simp at this
        omega
      have hidsL : P ++ (U ++ l :: (M ++ r :: V)) ++ Q =
          (P ++ U) ++ l :: (W1 ++ j :: ((W2 ++ V) ++ Q)) := by
        rw [show U ++ l :: (M ++ r :: V) = U ++ l :: (W1 ++ j :: (W2 ++ V)) by
          rw [hseg]]
        simp
      rcases scanLeft_spec (hw.recast hidsL) cmp pv W1 f l j (P ++ U)
          ((W2 ++ V) ++ Q) rfl (by omega) with
        ⟨W1L, i, W1R, hspL, higt, hW1L, hresL⟩ | ⟨hallle, hresL⟩
      · -- the left scan found `i` with cmp > 0 : a swap happens
        have higt' : 0 < cmp (vmap i) pv := by rw [← hv i]; exact higt
        have hW1L' : ∀ x ∈ W1L, cmp (vmap x) pv ≤ 0 := fun x hx => by
          rw [← hv x]; exact hW1L x hx
        have hiMem : i ∈ l :: W1 := by rw [hspL]; simp
        have hij : i ≠ j := by
          have hnd := (hw.recast hidsL).nodup
          have hnd2 : ((l :: W1) ++ j :: ((W2 ++ V) ++ Q)).Nodup := by
            have h1 := (List.nodup_cons.mp hnd).2
            have h2 := (List.nodup_append.mp h1).2.1
            simpa using h2
          have hdisj := (List.nodup_append.mp hnd2).2.2
          intro hc
          exact hdisj hiMem (by simp [hc])
        have hW1Lne : W1L ≠ [] := by
          intro hc
          rw [hc, List.nil_append] at hspL
          have hli : l = i := (List.cons.inj hspL).1
          rw [hli] at hl
          omega
        have hW1Lhead : ∀ z, W1L.headD z = l := headD_of_split hspL hW1Lne
        have hlenW1R : W1L.length + W1R.length = W1.length := by
          have := congrArg List.length hspL
          simp at this
          omega
        have hW1Llen : 1 ≤ W1L.length := by
          cases W1L with
          | nil => exact absurd rfl hW1Lne
          | cons _ _ => simp
        have hsegC : l :: (W1 ++ j :: (W2 ++ V)) =
            W1L ++ i :: (W1R ++ j :: (W2 ++ V)) := by
          have h1 : l :: (W1 ++ j :: (W2 ++ V)) =
              (l :: W1) ++ j :: (W2 ++ V) := rfl
          rw [h1, hspL]
          simp
        have hseg2 : U ++ l :: (M ++ r :: V) =
            (U ++ W1L) ++ i :: (W1R ++ j :: (W2 ++ V)) := by
          rw [show U ++ l :: (M ++ r :: V) = U ++ l :: (W1 ++ j :: (W2 ++ V)) by
            rw [hseg], hsegC]
          simp
        have hidsSw : P ++ (U ++ l :: (M ++ r :: V)) ++ Q =
            (P ++ (U ++ W1L)) ++ i :: (W1R ++ j :: ((W2 ++ V) ++ Q)) := by
          rw [hseg2]; simp
        have hwS := hw.recast hidsSw
        obtain ⟨σ1, hswEq, hring1, hown1, hval1, hlens1, hfresh1, hframe1⟩ :=
          swap_spec hwS.ring hwS.nodup
        have hframeRing1 : ∀ n, n ∉ s ::
            ((P ++ (U ++ W1L)) ++ i :: (W1R ++ j :: ((W2 ++ V) ++ Q))) →
            σ1.heap n = σ.heap n := swap_spec_frame hwS.ring hframe1
        have hperm1 : ((P ++ (U ++ W1L)) ++ j :: (W1R ++ i :: ((W2 ++ V) ++ Q))).Perm
            ((P ++ (U ++ W1L)) ++ i :: (W1R ++ j :: ((W2 ++ V) ++ Q))) :=
          List.Perm.append_left _ (perm_swap_mid i j W1R _).symm
        have hw1 : WFl σ1 s
            ((P ++ (U ++ W1L)) ++ j :: (W1R ++ i :: ((W2 ++ V) ++ Q))) :=
          WFl.of_perm_ringOk hwS hperm1 hring1 hown1 hlens1
        have hv1 : ∀ n, val σ1 n = vmap n := fun n => (hval1 n).trans (hv n)
        cases W1R with
        | nil =>
          -- the swapped nodes were adjacent: the loop stops
          have hrun : partLoop cmp pv (f + 1) σ (some l) (some r) =
              some (σ1, some j) := by
            rw [partLoop, hresR]
            simp only [Option.bind_eq_bind, Option.some_bind]
            rw [hresL]
            simp only [Option.some_bind]
            rw [if_neg (by simpa using hij)]
            rw [hswEq]
            try rfl
          refine ⟨σ1, U ++ W1L, j, i :: (W2 ++ V), hrun,
            hw1.recast (by simp), ?_, ?_, ?_, by omega, ?_, hv1,
            hown1, hlens1, hfresh1, ?_⟩
          · have heq2 : U ++ l :: (M ++ r :: V) =
                (U ++ W1L) ++ i :: ([] ++ j :: (W2 ++ V)) := hseg2
            rw [heq2]
            have h := List.Perm.append_left (U ++ W1L)
              (perm_swap_mid i j [] (W2 ++ V))
            simpa using h.symm
          · rw [headD_append_right, hW1Lhead j]
          · intro x hx
            rcases List.mem_append.mp hx with h | h
            · exact hU x h
            · exact hW1L' x h
          · intro x hx
            rcases List.mem_cons.mp hx with h | h
            · rw [h]; omega
            · rcases List.mem_append.mp h with h2 | h2
              · exact hW2' x h2
              · exact hV x h2
          · intro n hn
            apply hframeRing1
            intro hc
            apply hn
            rw [hidsSw]
            exact hc
        | cons b0 bt =>
          -- not adjacent: the loop continues with exchanged cursors
          have hrunStep : partLoop cmp pv (f + 1) σ (some l) (some r) =
              partLoop cmp pv f σ1 (some j) (some i) := by
            rw [partLoop, hresR]
            simp only [Option.bind_eq_bind, Option.some_bind]
            rw [hresL]
            simp only [Option.some_bind]
            rw [if_neg (by simpa using hij)]
            rw [hswEq]
            try rfl
          have hw1' : WFl σ1 s
              (P ++ ((U ++ W1L) ++ j :: ((b0 :: bt) ++ i :: (W2 ++ V))) ++ Q) :=
            hw1.recast (by simp)
          have hfuel2 : 2 * (b0 :: bt).length + 4 ≤ f := by
            simp only [List.length_cons] at hlenW1R ⊢
            omega
          have hrec := IH σ1 P (U ++ W1L) (b0 :: bt) (W2 ++ V) Q j i hw1' hv1
            (fun x hx => by
              rcases List.mem_append.mp hx with h | h
              · exact hU x h
              · exact hW1L' x h)
            (by omega)
            (fun x hx => by
              rcases List.mem_append.mp hx with h | h
              · exact hW2' x h
              · exact hV x h)
            hfuel2
          obtain ⟨σ', U', lf, V', hres', hw', hperm', hhead', hU', hlf', hV',
            hv', hown', hlens', hfresh', hframe'⟩ := hrec
          refine ⟨σ', U', lf, V', by rw [hrunStep]; exact hres', hw', ?_, ?_,
            hU', hlf', hV', hv', fun n => (hown' n).trans (hown1 n),
            hlens'.trans hlens1, hfresh'.trans hfresh1, ?_⟩
          · refine hperm'.trans ?_
            rw [hseg2]
            have h := List.Perm.append_left (U ++ W1L)
              (perm_swap_mid i j (b0 :: bt) (W2 ++ V))
            exact h.symm
          · rw [hhead', headD_append_right, hW1Lhead j]
          · intro n hn
            have hn1 : n ∉ s ::
                (P ++ ((U ++ W1L) ++ j :: ((b0 :: bt) ++ i :: (W2 ++ V))) ++ Q) := by
              intro hc
              apply hn
              rcases List.mem_cons.mp hc with h | h
              · exact List.mem_cons.mpr (Or.inl h)
              · refine List.mem_cons.mpr (Or.inr ?_)
                have hpermSeg : (P ++ ((U ++ W1L) ++ j ::
                    ((b0 :: bt) ++ i :: (W2 ++ V))) ++ Q).Perm
                    (P ++ (U ++ l :: (M ++ r :: V)) ++ Q) := by
                  refine List.Perm.append ?_ (List.Perm.refl Q)
                  refine List.Perm.append_left P ?_
                  rw [hseg2]
                  exact List.Perm.append_left (U ++ W1L)
                    (perm_swap_mid i j (b0 :: bt) (W2 ++ V)).symm
                exact hpermSeg.mem_iff.mp h
            have h2 := hframe' n hn1
            rw [h2]
            apply hframeRing1
            intro hc
            apply hn
            rw [hidsSw]
            exact hc
      · -- the left scan ran into the right cursor: the loop stops
        have hallle' : ∀ x ∈ l :: W1, cmp (vmap x) pv ≤ 0 := fun x hx => by
          rw [← hv x]; exact hallle x hx
        have hrun : partLoop cmp pv (f + 1) σ (some l) (some r) =
            some (σ, some j) := by
          rw [partLoop, hresR]
          simp only [Option.bind_eq_bind, Option.some_bind]
          rw [hresL]
          simp only [Option.some_bind]
          simp
        have hseg3 : U ++ l :: (M ++ r :: V) =
            (U ++ (l :: W1)) ++ j :: (W2 ++ V) := by
          rw [hseg]; simp
        refine ⟨σ, U ++ (l :: W1), j, W2 ++ V, hrun,
          hw.recast (by rw [hseg3]), ?_, ?_, ?_, by omega, ?_, hv,
          fun n => rfl, rfl, rfl, fun n _ => rfl⟩
        · rw [hseg3]
        · rw [headD_append_right]
          simp
        · intro x hx
          rcases List.mem_append.mp hx with h | h
          · exact hU x h
          · exact hallle' x h
        · intro x hx
          rcases List.mem_append.mp hx with h | h
          · exact hW2' x h
          · exact hV x h
    · -- the right scan ran into the left cursor: the loop stops at once
      have hallge' : ∀ x ∈ M ++ [r], 0 ≤ cmp (vmap x) pv := fun x hx => by
        rw [← hv x]; exact hallge x hx
      obtain ⟨f1, rfl⟩ : ∃ f1, f = f1 + 1 := ⟨f - 1, by omega⟩
      have hresL : scanLeft cmp pv (f1 + 1) σ (some l) (some l) =
          some (some l) := scanLeft_stop cmp pv f1 σ (some l)
      have hrun : partLoop cmp pv (f1 + 1 + 1) σ (some l) (some r) =
          some (σ, some l) := by
        rw [partLoop, hresR]
        simp only [Option.bind_eq_bind, Option.some_bind]
        rw [hresL]
        simp only [Option.some_bind]
        simp
      refine ⟨σ, U, l, M ++ r :: V, hrun, hw, List.Perm.refl _, rfl, hU, hl,
        ?_, hv, fun n => rfl, rfl, rfl, fun n _ => rfl⟩
      intro x hx
      rcases List.mem_append.mp hx with h | h
      · exact hallge' x (by simp [h])
      · rcases List.mem_cons.mp h with h2 | h2
        · exact hallge' x (by simp [h2])
        · exact hV x h2

/-! ### The recursive quicksort -/

/-- A valid three-way comparator: a total (weak) order presented as a
sign-valued function. -/
structure Valid (cmp : α → α → Int) : Prop where
  refl : ∀ a, cmp a a = 0
  flip : ∀ a b, cmp a b ≤ 0 ↔ 0 ≤ cmp b a
  trans : ∀ a b c, cmp a b ≤ 0 → cmp b c ≤ 0 → cmp a c ≤ 0

/-- Adjacent-pairs sortedness with respect to a three-way comparator. -/
def CmpSorted (cmp : α → α → Int) (l : List α) : Prop :=
  List.Chain' (fun a b => cmp a b ≤ 0) l

/-- Fuel sufficient for `_qsort` on a range of a given length. -/
def qsortFuel : Nat → Nat
  | 0 => 1
  | n + 1 => qsortFuel n + 2 * (n + 1) + 1

theorem qsortFuel_pos (n : Nat) : 1 ≤ qsortFuel n := by
  cases n with
  | zero => exact le_refl 1
  | succ m => simp only [qsortFuel]; omega

theorem qsortFuel_ge (n : Nat) : 2 * n + 1 ≤ qsortFuel n := by
  induction n with
  | zero => exact le_refl 1
  | succ m ih => simp only [qsortFuel]; omega

theorem qsortFuel_mono : ∀ {m n : Nat}, m ≤ n → qsortFuel m ≤ qsortFuel n := by
  intro m n h
  induction n with
  | zero => interval_cases m; exact le_refl _
  | succ k ih =>
    rcases Nat.lt_or_ge m (k + 1) with h2 | h2
    · have := ih (by omega)
      simp only [qsortFuel]
      omega
    · have : m = k + 1 := by omega
      rw [this]

/-- The node just before a ring block, followed by the block's head. -/
theorem RingOk.nxt_last_left {σ : State α} {s : Nat} {P Y : List Nat}
    (h : RingOk σ s (P ++ Y)) : nxt σ (P.getLastD s) = some (Y.headD s) := by
  cases P using List.reverseRecOn with
  | nil =>
    have := h.nxt_sent
    simpa using this
  | append_singleton P0 p =>
    have := h.nxt_mem (A := P0) (B := Y) (x := p) (by simp)
    rwa [getLastD_append_cons, List.getLastD_nil]

/-- The node just after a ring block, preceded by the block's last node. -/
theorem RingOk.prv_head_right {σ : State α} {s : Nat} {X Q : List Nat}
    (h : RingOk σ s (X ++ Q)) : prv σ (Q.headD s) = some (X.getLastD s) := by
  cases Q with
  | nil =>
    have := h.prv_sent
    simpa using this
  | cons q qs =>
    exact h.prv_mem (A := X) (B := qs) (x := q) rfl

theorem getLastD_append_right (X Y : List Nat) (d : Nat) :
    (X ++ Y).getLastD d = Y.getLastD (X.getLastD d) := by
  cases Y with
  | nil => simp
  | cons y ys => rw [getLastD_append_cons, List.getLastD_cons]

theorem RingOk.recast' {σ : State α} {s : Nat} {ids ids' : List Nat}
    (h : RingOk σ s ids) (he : ids = ids') : RingOk σ s ids' := he ▸ h

/-- Assembling sortedness: a sorted lower part, the pivot, a sorted upper
part, with all lower values `<=` pivot and upper values `>=` pivot. -/
theorem cmpSorted_append_pivot {cmp : α → α → Int} (hval : Valid cmp)
    (vmap : Nat → α) {L : List Nat} {x : Nat} {R : List Nat}
    (hL : CmpSorted cmp (L.map vmap)) (hR : CmpSorted cmp (R.map vmap))
    (hLle : ∀ y ∈ L, cmp (vmap y) (vmap x) ≤ 0)
    (hRge : ∀ y ∈ R, 0 ≤ cmp (vmap y) (vmap x)) :
    CmpSorted cmp ((L ++ x :: R).map vmap) := by
  rw [List.map_append, List.map_cons]
  rw [CmpSorted, List.chain'_append]
  refine ⟨hL, ?_, ?_⟩
  · rw [List.chain'_cons']
    refine ⟨?_, hR⟩
    intro y hy
    rw [List.head?_map] at hy
    obtain ⟨a, ha, rfl⟩ := Option.map_eq_some'.mp hy
    have haR : a ∈ R := List.mem_of_mem_head? ha
    exact (hval.flip (vmap x) (vmap a)).mpr (hRge a haR)
  · intro a ha b hb
    rw [List.getLast?_map] at ha
    obtain ⟨a0, ha0, rfl⟩ := Option.map_eq_some'.mp (Option.mem_def.mp ha)
    have hbx : b = vmap x := by have := hb; simp at this; exact this.symm
    rw [hbx]
    obtain ⟨hne, heq⟩ := List.mem_getLast?_eq_getLast
      (show a0 ∈ L.getLast? from ha0)
    rw [heq]
    exact hLle _ (List.getLast_mem hne)

set_option maxHeartbeats 1600000 in
/-- Full specification of `_qsort` on a well-formed nonempty range `R`:
with fuel at least `qsortFuel R.length` it terminates successfully (hence
performs no nil dereference), permutes exactly the nodes of `R` in place
into an order whose values are pairwise cmp-sorted, and leaves values,
owners, lengths and all heap cells outside the ring untouched. -/
theorem qsort_spec {s : Nat} {cmp : α → α → Int} (hval : Valid cmp)
    (vmap : Nat → α) :
    ∀ (n : Nat) (σ : State α) (fuel : Nat) (P R Q : List Nat),
      R.length = n → R ≠ [] →
      WFl σ s (P ++ R ++ Q) →
      (∀ m, val σ m = vmap m) →
      qsortFuel n ≤ fuel →
      ∃ σ' R',
        _qsort cmp fuel σ (some (R.headD 0)) (some (R.getLastD 0)) = some σ' ∧
        WFl σ' s (P ++ R' ++ Q) ∧
        R'.Perm R ∧
        CmpSorted cmp (R'.map vmap) ∧
        (∀ m, val σ' m = vmap m) ∧
        (∀ m, own σ' m = own σ m) ∧
        σ'.lens = σ.lens ∧ σ'.fresh = σ.fresh ∧
        (∀ m, m ∉ s :: (P ++ R ++ Q) → σ'.heap m = σ.heap m) := by
  intro n
  induction n using Nat.strong_induction_on with
  | _ n IH =>
  intro σ fuel P R Q hlen hRne hw hv hfuel
  obtain ⟨x, R1, rfl⟩ : ∃ x R1, R = x :: R1 := by
    cases R with
    | nil => exact absurd rfl hRne
    | cons a t => exact ⟨a, t, rfl⟩
  obtain ⟨f, rfl⟩ : ∃ f, fuel = f + 1 :=
    ⟨fuel - 1, by have := qsortFuel_pos n; omega⟩
  cases R1 using List.reverseRecOn with
  | nil =>
    refine ⟨σ, [x], ?_, hw, List.Perm.refl _, ?_, hv, fun m => rfl, rfl, rfl,
      fun m _ => rfl⟩
    · rw [_qsort]
      simp
    · simp [CmpSorted]
  | append_singleton Rmid rl =>
    have hn2 : Rmid.length + 2 = n := by
      simpa using hlen
    have hsubl : List.Sublist (x :: (Rmid ++ [rl]))
        (s :: (P ++ x :: (Rmid ++ [rl]) ++ Q)) :=
      (((List.sublist_append_right P _).trans
        (List.sublist_append_left _ Q)).trans (List.sublist_cons_self _ _))
    have hseg_nd : (x :: (Rmid ++ [rl])).Nodup := hw.nodup.sublist hsubl
    have hxnotin : x ∉ Rmid ++ [rl] := (List.nodup_cons.mp hseg_nd).1
    have hxrl : x ≠ rl := fun hc => hxnotin (by simp [hc])
    -- boundary reads on the initial state
    have hprvx : prv σ x = some (P.getLastD s) :=
      hw.ring.prv_mem (A := P) (B := (Rmid ++ [rl]) ++ Q) (x := x) (by simp)
    have hnxtrl : nxt σ rl = some (Q.headD s) :=
      hw.ring.nxt_mem (A := P ++ x :: Rmid) (B := Q) (x := rl) (by simp)
    -- run the partition loop
    have hwPL : WFl σ s (P ++ ([] ++ x :: (Rmid ++ rl :: [])) ++ Q) :=
      hw.recast (by simp)
    have hfPL : 2 * Rmid.length + 4 ≤ f := by
      have h1 := qsortFuel_ge n
      omega
    obtain ⟨σ1, U', lf, V', hplRun, hw1, hperm1, hhead1, hU', hlf', hV', hv1,
      hown1, hlens1, hfresh1, hframe1⟩ :=
      partLoop_spec cmp (vmap x) vmap f σ P [] Rmid [] Q x rl hwPL hv
        (by simp) (by rw [hval.refl]) (by simp) hfPL
    have hpivhead : U'.headD lf = x := by simpa using hhead1
    have hsegperm : (U' ++ lf :: V').Perm (x :: (Rmid ++ [rl])) := by
      refine hperm1.trans ?_
      simp
    have hseglen : U'.length + V'.length + 1 = n := by
      have := hsegperm.length_eq
      simp at this
      omega
    -- reads after the loop
    have hnxtlf : nxt σ1 lf = some ((V' ++ Q).headD s) :=
      hw1.ring.nxt_mem (A := P ++ U') (B := V' ++ Q) (x := lf) (by simp)
    have hnxtlb : nxt σ1 (P.getLastD s) = some x := by
      have h := RingOk.nxt_last_left (P := P)
        (Y := (U' ++ lf :: V') ++ Q) (hw1.ring.recast' (by simp))
      rw [h]
      rw [headD_append_right, headD_append_cons, hpivhead]
    -- the placement swap
    have hmid : ∃ σ2 nb L0,
        swap σ1 (some x) (some lf) = some (σ2, nb) ∧
        WFl σ2 s (P ++ (L0 ++ x :: V') ++ Q) ∧
        (L0 ++ x :: V').Perm (U' ++ lf :: V') ∧
        (∀ y ∈ L0, cmp (vmap y) (vmap x) ≤ 0) ∧
        (L0 = [] → lf = x) ∧
        (∀ m, val σ2 m = vmap m) ∧ (∀ m, own σ2 m = own σ1 m) ∧
        σ2.lens = σ1.lens ∧ σ2.fresh = σ1.fresh ∧
        (∀ m, m ∉ s :: (P ++ (U' ++ lf :: V') ++ Q) →
          σ2.heap m = σ1.heap m) := by
      cases U' with
      | nil =>
        have hlfx : lf = x := by simpa using hpivhead
        subst hlfx
        refine ⟨σ1, false, [], swap_same σ1 (some lf), hw1.recast (by simp),
          by simp, by simp, fun _ => rfl, hv1, fun m => rfl, rfl, rfl,
          fun m _ => rfl⟩
      | cons u0 U'r =>
        have hu0 : u0 = x := by simpa using hpivhead
        subst hu0
        have hwS : WFl σ1 s (P ++ u0 :: (U'r ++ lf :: (V' ++ Q))) :=
          hw1.recast (by simp)
        obtain ⟨σ2, hsw, hring2, hown2, hval2, hlens2, hfresh2, hframe2⟩ :=
          swap_spec hwS.ring hwS.nodup
        have hpermRing : (P ++ lf :: (U'r ++ u0 :: (V' ++ Q))).Perm
            (P ++ u0 :: (U'r ++ lf :: (V' ++ Q))) :=
          List.Perm.append_left P (perm_swap_mid u0 lf U'r (V' ++ Q)).symm
        have hw2 : WFl σ2 s (P ++ lf :: (U'r ++ u0 :: (V' ++ Q))) :=
          WFl.of_perm_ringOk hwS hpermRing hring2 hown2 hlens2
        refine ⟨σ2, U'r.isEmpty, lf :: U'r, hsw, hw2.recast (by simp), ?_, ?_,
          fun hc => absurd hc (List.cons_ne_nil _ _),
          fun m => (hval2 m).trans (hv1 m), hown2,
          hlens2, hfresh2, ?_⟩
        · have h := (perm_swap_mid u0 lf U'r V').symm
          simpa using h
        · intro y hy
          rcases List.mem_cons.mp hy with h | h
          · rw [h]; exact hlf'
          · exact hU' y (by rw [List.mem_cons]; exact Or.inr h)
        · intro m hm
          apply swap_spec_frame hwS.ring hframe2
          intro hc
          apply hm
          have : m ∈ s :: (P ++ u0 :: (U'r ++ lf :: (V' ++ Q))) := hc
          simpa using this
    obtain ⟨σ2, nb, L0, hsw, hw2, hperm2, hL0le, hlf_nil, hv2, hown2, hlens2,
      hfresh2, hframe2⟩ := hmid
    have hperm2R : (L0 ++ x :: V').Perm (x :: (Rmid ++ [rl])) :=
      hperm2.trans hsegperm
    have hlen2 : L0.length + V'.length + 1 = n := by
      have h := hperm2R.length_eq
      simp at h
      omega
    have hsubl2 : List.Sublist (L0 ++ x :: V')
        (s :: (P ++ (L0 ++ x :: V') ++ Q)) :=
      (((List.sublist_append_right P _).trans
        (List.sublist_append_left _ Q)).trans (List.sublist_cons_self _ _))
    have hseg2_nd : (L0 ++ x :: V').Nodup := hw2.nodup.sublist hsubl2
    have hxL0 : x ∉ L0 := fun hmem =>
      (List.nodup_append.mp hseg2_nd).2.2 hmem (by simp)
    have hxV' : x ∉ V' :=
      (List.nodup_cons.mp (List.nodup_append.mp hseg2_nd).2.1).1
    have hfp : prv σ2 ((V' ++ Q).headD s) = some x := by
      have h := RingOk.prv_head_right (X := P ++ L0 ++ [x]) (Q := V' ++ Q)
        (hw2.ring.recast' (by simp))
      rw [h, getLastD_append_right]
      simp
    have hnxtlb2 : nxt σ2 (P.getLastD s) = some (L0.headD x) := by
      have h := RingOk.nxt_last_left (P := P) (Y := (L0 ++ x :: V') ++ Q)
        (hw2.ring.recast' (by simp))
      rw [h, headD_append_right, headD_append_cons]
    have hfrec : ∀ k, k + 1 ≤ n → qsortFuel k ≤ f := by
      intro k hk
      have h1 : qsortFuel k ≤ qsortFuel (n - 1) := qsortFuel_mono (by omega)
      have h2 : qsortFuel (n - 1 + 1) =
          qsortFuel (n - 1) + 2 * (n - 1 + 1) + 1 := rfl
      have h3 : n - 1 + 1 = n := by omega
      rw [h3] at h2
      omega
    have hmemT : ∀ (X Y : List Nat) (m : Nat), X.Perm Y → m ∉ s :: Y →
        m ∉ s :: X := by
      intro X Y m hp hnm hc
      rcases List.mem_cons.mp hc with h | h
      · exact hnm (List.mem_cons.mpr (Or.inl h))
      · exact hnm (List.mem_cons.mpr (Or.inr (hp.mem_iff.mp h)))
    have hringperm1 : (P ++ (U' ++ lf :: V') ++ Q).Perm
        (P ++ (x :: (Rmid ++ [rl])) ++ Q) :=
      (List.Perm.append_left P hsegperm).append_right Q
    have hringperm2 : (P ++ (L0 ++ x :: V') ++ Q).Perm
        (P ++ (x :: (Rmid ++ [rl])) ++ Q) :=
      (List.Perm.append_left P hperm2R).append_right Q
    -- normalise the goal cursors
    have hgoalcur : (x :: (Rmid ++ [rl])).getLastD 0 = rl := by
      rw [List.getLastD_cons, List.getLastD_concat]
    rcases L0 with _ | ⟨l0, l0t⟩
    · -- empty lower part: the pivot stayed put, only the upper part recurses
      have hlfx : lf = x := hlf_nil rfl
      rcases V' with _ | ⟨v0, vt⟩
      · exfalso
        simp at hlen2
        omega
      · simp only [List.length_nil, List.length_cons] at hlen2
        have hnxt2x : nxt σ2 x = some v0 := by
          have h := hw2.ring.nxt_mem (A := P) (B := (v0 :: vt) ++ Q) (x := x)
            (by simp)
          simpa using h
        have hprv2rb : prv σ2 (Q.headD s) = some (vt.getLastD v0) := by
          have h := RingOk.prv_head_right (X := P ++ (x :: v0 :: vt)) (Q := Q)
            (hw2.ring.recast' (by simp))
          rw [h, getLastD_append_right, List.getLastD_cons, List.getLastD_cons]
        have hxlast : x ≠ vt.getLastD v0 := by
          intro hc
          rcases getLastD_mem_or vt v0 with h | h
          · exact hxV' (by rw [hc, h]; exact List.mem_cons_self _ _)
          · exact hxV' (by rw [hc]; exact List.mem_cons_of_mem _ h)
        have hrecIH := IH (vt.length + 1) (by omega) σ2 f (P ++ [x]) (v0 :: vt)
          Q (by simp) (List.cons_ne_nil _ _) (hw2.recast (by simp)) hv2
          (hfrec _ (by omega))
        simp only [List.headD_cons, List.getLastD_cons] at hrecIH
        obtain ⟨σ4, RV', hrecR, hw4, hpermR, hsortR, hv4, hown4, hlens4,
          hfresh4, hframe4⟩ := hrecIH
        have hrun : _qsort cmp (f + 1) σ (some x) (some rl) = some σ4 := by
          rw [_qsort]
          rw [if_neg (by simpa using hxrl)]
          simp only [Option.bind_eq_bind, Option.some_bind]
          rw [hprvx, hnxtrl, hv x, hplRun]
          simp only [Option.some_bind]
          rw [hnxtlf, hnxtlb, hsw]
          simp only [Option.some_bind]
          rw [hfp, show nxt σ2 (P.getLastD s) = some x from hnxtlb2]
          rw [if_neg (by simp)]
          simp only [Option.some_bind]
          rw [hprv2rb]
          rw [if_pos (by simpa using hxlast)]
          try simp only [Option.some_bind]
          rw [hnxt2x, hrecR]
        refine ⟨σ4, x :: RV', ?_, hw4.recast (by simp), ?_, ?_, hv4, ?_, ?_,
          ?_, ?_⟩
        · rw [List.headD_cons, hgoalcur]
          exact hrun
        · refine List.Perm.trans ?_ hperm2R
          simpa using hpermR.cons x
        · have h := cmpSorted_append_pivot hval vmap (L := []) (x := x)
            (R := RV') (by simp [CmpSorted]) hsortR
            (by simp)
            (fun y hy => hV' y (hpermR.mem_iff.mp hy))
          simpa using h
        · intro m
          rw [hown4 m, hown2 m, hown1 m]
        · rw [hlens4, hlens2, hlens1]
        · rw [hfresh4, hfresh2, hfresh1]
        · intro m hm
          have hm1 := hmemT _ _ m hringperm1 hm
          have hm2 := hmemT _ _ m hringperm2 hm
          have hm4 : m ∉ s :: ((P ++ [x]) ++ (v0 :: vt) ++ Q) := by
            refine hmemT _ _ m (List.Perm.of_eq ?_) hm2
            simp
          have hm0 : m ∉ s :: (P ++ ([] ++ x :: (Rmid ++ [rl])) ++ Q) := by
            refine hmemT _ _ m (List.Perm.of_eq ?_) hm
            simp
          rw [hframe4 m hm4, hframe2 m hm1, hframe1 m hm0]
    · -- nonempty lower part: the lower range recurses
      simp only [List.length_cons] at hlen2
      have hl0x : l0 ≠ x := fun hc => hxL0 (hc ▸ List.mem_cons_self _ _)
      have hprv2x : prv σ2 x = some (l0t.getLastD l0) := by
        have h := hw2.ring.prv_mem (A := P ++ (l0 :: l0t)) (B := V' ++ Q)
          (x := x) (by simp)
        rw [h, getLastD_append_right, List.getLastD_cons]
      have hrecIHL := IH (l0t.length + 1) (by omega) σ2 f P (l0 :: l0t)
        (x :: (V' ++ Q)) (by simp) (List.cons_ne_nil _ _)
        (hw2.recast (by simp)) hv2 (hfrec _ (by omega))
      simp only [List.headD_cons, List.getLastD_cons] at hrecIHL
      obtain ⟨σ3, L', hrecL, hw3, hpermL, hsortL, hv3, hown3, hlens3,
        hfresh3, hframe3⟩ := hrecIHL
      have hL'le : ∀ y ∈ L', cmp (vmap y) (vmap x) ≤ 0 := fun y hy =>
        hL0le y (hpermL.mem_iff.mp hy)
      have hnxt3x : nxt σ3 x = some ((V' ++ Q).headD s) := by
        have h := hw3.ring.nxt_mem (A := P ++ L') (B := V' ++ Q) (x := x)
          (by simp)
        exact h
      have hprv3rb : prv σ3 (Q.headD s) = some (V'.getLastD x) := by
        have h := RingOk.prv_head_right (X := (P ++ L') ++ (x :: V')) (Q := Q)
          (hw3.ring.recast' (by simp))
        rw [h, getLastD_append_right, List.getLastD_cons]
      rcases V' with _ | ⟨v0, vt⟩
      · -- empty upper part: no right recursion
        simp only [List.length_nil, List.length_cons] at hlen2
        have hrun : _qsort cmp (f + 1) σ (some x) (some rl) = some σ3 := by
          rw [_qsort]
          rw [if_neg (by simpa using hxrl)]
          simp only [Option.bind_eq_bind, Option.some_bind]
          rw [hprvx, hnxtrl, hv x, hplRun]
          simp only [Option.some_bind]
          rw [hnxtlf, hnxtlb, hsw]
          simp only [Option.some_bind]
          rw [hfp, hnxtlb2]
          simp only [List.headD_cons]
          rw [if_pos (by simpa using hl0x)]
          simp only [Option.some_bind]
          rw [hprv2x, hrecL]
          simp only [Option.some_bind]
          rw [hprv3rb]
          simp only [List.getLastD_nil]
          rw [if_neg (by simp)]
        refine ⟨σ3, L' ++ [x], ?_, hw3.recast (by simp), ?_, ?_, hv3, ?_, ?_,
          ?_, ?_⟩
        · rw [List.headD_cons, hgoalcur]
          exact hrun
        · refine List.Perm.trans ?_ hperm2R
          simpa using hpermL.append_right [x]
        · have h := cmpSorted_append_pivot hval vmap (L := L') (x := x)
            (R := []) hsortL (by simp [CmpSorted]) hL'le (by simp)
          simpa using h
        · intro m
          rw [hown3 m, hown2 m, hown1 m]
        · rw [hlens3, hlens2, hlens1]
        · rw [hfresh3, hfresh2, hfresh1]
        · intro m hm
          have hm1 := hmemT _ _ m hringperm1 hm
          have hm2 := hmemT _ _ m hringperm2 hm
          have hm3 : m ∉ s :: (P ++ (l0 :: l0t) ++ (x :: ([] ++ Q))) := by
            refine hmemT _ _ m (List.Perm.of_eq ?_) hm2
            simp
          have hm0 : m ∉ s :: (P ++ ([] ++ x :: (Rmid ++ [rl])) ++ Q) := by
            refine hmemT _ _ m (List.Perm.of_eq ?_) hm
            simp
          rw [hframe3 m hm3, hframe2 m hm1, hframe1 m hm0]
      · -- nonempty upper part: the upper range recurses as well
        simp only [List.length_nil, List.length_cons] at hlen2
        have hxlast : x ≠ vt.getLastD v0 := by
          intro hc
          rcases getLastD_mem_or vt v0 with h | h
          · exact hxV' (by rw [hc, h]; exact List.mem_cons_self _ _)
          · exact hxV' (by rw [hc]; exact List.mem_cons_of_mem _ h)
        have hrecIHR := IH (vt.length + 1) (by omega) σ3 f (P ++ L' ++ [x])
          (v0 :: vt) Q (by simp) (List.cons_ne_nil _ _)
          (hw3.recast (by simp)) hv3 (hfrec _ (by omega))
        simp only [List.headD_cons, List.getLastD_cons] at hrecIHR
        obtain ⟨σ4, RV', hrecR, hw4, hpermR, hsortR, hv4, hown4, hlens4,
          hfresh4, hframe4⟩ := hrecIHR
        have hrun : _qsort cmp (f + 1) σ (some x) (some rl) = some σ4 := by
          rw [_qsort]
          rw [if_neg (by simpa using hxrl)]
          simp only [Option.bind_eq_bind, Option.some_bind]
          rw [hprvx, hnxtrl, hv x, hplRun]
          simp only [Option.some_bind]
          rw [hnxtlf, hnxtlb, hsw]
          simp only [Option.some_bind]
          rw [hfp, hnxtlb2]
          simp only [List.headD_cons]
          rw [if_pos (by simpa using hl0x)]
          simp only [Option.some_bind]
          rw [hprv2x, hrecL]
          simp only [Option.some_bind]
          rw [hprv3rb]
          simp only [List.getLastD_cons]
          rw [if_pos (by simpa using hxlast)]
          try simp only [Option.some_bind]
          rw [hnxt3x]
          simp only [List.cons_append, List.headD_cons]
          rw [hrecR]
        refine ⟨σ4, L' ++ x :: RV', ?_, hw4.recast (by simp), ?_, ?_, hv4,
          ?_, ?_, ?_, ?_⟩
        · rw [List.headD_cons, hgoalcur]
          exact hrun
        · refine List.Perm.trans ?_ hperm2R
          exact List.Perm.append hpermL (hpermR.cons x)
        · exact cmpSorted_append_pivot hval vmap hsortL hsortR hL'le
            (fun y hy => hV' y (hpermR.mem_iff.mp hy))
        · intro m
          rw [hown4 m, hown3 m, hown2 m, hown1 m]
        · rw [hlens4, hlens3, hlens2, hlens1]
        · rw [hfresh4, hfresh3, hfresh2, hfresh1]
        · intro m hm
          have hm1 := hmemT _ _ m hringperm1 hm
          have hm2 := hmemT _ _ m hringperm2 hm
          have hm3 : m ∉ s :: (P ++ (l0 :: l0t) ++ (x :: ((v0 :: vt) ++ Q))) := by
            refine hmemT _ _ m (List.Perm.of_eq ?_) hm2
            simp
          have hm4 : m ∉ s :: ((P ++ L' ++ [x]) ++ (v0 :: vt) ++ Q) := by
            refine hmemT _ _ m ?_ hm3
            have hp : (P ++ L' ++ [x]).Perm (P ++ (l0 :: l0t) ++ [x]) :=
              (List.Perm.append_left P hpermL).append_right [x]
            have hp2 : ((P ++ L' ++ [x]) ++ (v0 :: vt) ++ Q).Perm
                ((P ++ (l0 :: l0t) ++ [x]) ++ (v0 :: vt) ++ Q) :=
              (hp.append_right _).append_right Q
            refine hp2.trans (List.Perm.of_eq (by simp))
          have hm0 : m ∉ s :: (P ++ ([] ++ x :: (Rmid ++ [rl])) ++ Q) := by
            refine hmemT _ _ m (List.Perm.of_eq ?_) hm
            simp
          rw [hframe4 m hm4, hframe3 m hm3, hframe2 m hm1, hframe1 m hm0]

/-! ### Traversal -/

/-- The documented iteration pattern over a list:
`for e := l.Front(); e != nil; e = e.Next()` (fueled). -/
def traversal (σ : State α) : Nat → Option Nat → List Nat
  | 0, _ => []
  | _+1, none => []
  | fuel+1, some e => e :: traversal σ fuel (NextE σ e)

/-- The front-to-back traversal of list `l`. -/
def listTraversal (σ : State α) (l fuel : Nat) : List Nat :=
  traversal σ fuel (Front σ l)

/-- The nodes reachable from the sentinel by following `next` until the
sentinel comes back (fueled), as the `String()` loop walks them. -/
def ringNodes (σ : State α) (s : Nat) : Nat → Option Nat → List Nat
  | 0, _ => []
  | _+1, none => []
  | fuel+1, some c => if c = s then [] else c :: ringNodes σ s fuel (nxt σ c)

theorem traversal_suffix {σ : State α} {s : Nat} {ids : List Nat}
    (hw : WFl σ s ids) :
    ∀ (B A : List Nat) (x : Nat) (fuel : Nat), ids = A ++ x :: B →
      B.length + 1 ≤ fuel → traversal σ fuel (some x) = x :: B := by
  intro B
  induction B with
  | nil =>
    intro A x fuel he hf
    obtain ⟨f, rfl⟩ : ∃ f, fuel = f + 1 := ⟨fuel - 1, by omega⟩
    rw [traversal, hw.NextE_eq he]
    cases f <;> rfl
  | cons b B' ih =>
    intro A x fuel he hf
    obtain ⟨f, rfl⟩ : ∃ f, fuel = f + 1 := ⟨fuel - 1, by omega⟩
    rw [traversal, hw.NextE_eq he, List.head?_cons]
    rw [ih (A ++ [x]) b f (by simp [he]) (by simp at hf ⊢; omega)]

theorem listTraversal_eq {σ : State α} {s : Nat} {ids : List Nat}
    (hw : WFl σ s ids) {fuel : Nat} (hf : ids.length ≤ fuel) :
    listTraversal σ s fuel = ids := by
  cases ids with
  | nil =>
    unfold listTraversal Front
    rw [hw.len]
    simp only [List.length_nil, Int.Nat.cast_ofNat_Int, if_pos rfl]
    cases fuel <;> rfl
  | cons x B =>
    unfold listTraversal Front
    rw [hw.len]
    rw [if_neg (by intro hc; simp only [List.length_cons] at hc; omega), hw.ring.nxt_sent, List.headD_cons]
    exact traversal_suffix hw B [] x fuel (by simp) (by simp at hf ⊢; omega)

theorem ringNodes_suffix {σ : State α} {s : Nat} {ids : List Nat}
    (hw : WFl σ s ids) :
    ∀ (B A : List Nat) (x : Nat) (fuel : Nat), ids = A ++ x :: B →
      B.length + 1 ≤ fuel → ringNodes σ s fuel (some x) = x :: B := by
  intro B
  induction B with
  | nil =>
    intro A x fuel he hf
    obtain ⟨f, rfl⟩ : ∃ f, fuel = f + 1 := ⟨fuel - 1, by omega⟩
    have hx : x ≠ s := by
      intro hc
      exact hw.sent_notMem (hc ▸ (by rw [he]; simp : x ∈ ids))
    rw [ringNodes, if_neg hx, hw.ring.nxt_mem he]
    cases f with
    | zero => rfl
    | succ g => rw [ringNodes]; simp
  | cons b B' ih =>
    intro A x fuel he hf
    obtain ⟨f, rfl⟩ : ∃ f, fuel = f + 1 := ⟨fuel - 1, by omega⟩
    have hx : x ≠ s := by
      intro hc
      exact hw.sent_notMem (hc ▸ (by rw [he]; simp : x ∈ ids))
    rw [ringNodes, if_neg hx, hw.ring.nxt_mem he, List.headD_cons]
    rw [ih (A ++ [x]) b f (by simp [he]) (by simp at hf ⊢; omega)]

theorem ringNodes_eq {σ : State α} {s : Nat} {ids : List Nat}
    (hw : WFl σ s ids) {fuel : Nat} (hf : ids.length ≤ fuel) :
    ringNodes σ s fuel (nxt σ s) = ids := by
  cases ids with
  | nil =>
    rw [hw.ring.nxt_sent]
    cases fuel with
    | zero => rfl
    | succ f => rw [ringNodes]; simp
  | cons x B =>
    rw [hw.ring.nxt_sent, List.headD_cons]
    exact ringNodes_suffix hw B [] x fuel (by simp) (by simp at hf ⊢; omega)

/-- A well-formed list is already initialized, so `lazyInit` is the identity. -/
theorem lazyInit_of_wf {σ : State α} {s : Nat} {ids : List Nat}
    (hw : WFl σ s ids) : lazyInit σ s = σ := by
  unfold lazyInit
  rw [hw.ring.nxt_sent]
  simp

/-- Specification of `QuickSort` on a well-formed list: it terminates and
sorts the ring in place, preserving nodes, values, ownership, lengths and
every heap cell outside the ring. -/
theorem QuickSort_spec {s : Nat} {cmp : α → α → Int} (hval : Valid cmp)
    {σ : State α} {ids : List Nat} {fuel : Nat}
    (hw : WFl σ s ids) (hfuel : qsortFuel ids.length ≤ fuel) :
    ∃ σ' ids', QuickSort σ s cmp fuel = some σ' ∧ WFl σ' s ids' ∧
      ids'.Perm ids ∧ CmpSorted cmp (ids'.map (val σ)) ∧
      (∀ m, val σ' m = val σ m) ∧ (∀ m, own σ' m = own σ m) ∧
      σ'.lens = σ.lens ∧ σ'.fresh = σ.fresh ∧
      (∀ m, m ∉ s :: ids → σ'.heap m = σ.heap m) := by
  have hlz := lazyInit_of_wf hw
  cases ids with
  | nil =>
    obtain ⟨f, rfl⟩ : ∃ f, fuel = f + 1 := by
      refine ⟨fuel - 1, ?_⟩
      have h := hfuel
      simp only [List.length_nil] at h
      have := qsortFuel_pos 0
      omega
    refine ⟨σ, [], ?_, hw, List.Perm.refl _, by simp [CmpSorted],
      fun _ => rfl, fun _ => rfl, rfl, rfl, fun _ _ => rfl⟩
    have hfr : Front σ s = none := by
      unfold Front; rw [hw.len]; simp
    have hbk : Back σ s = none := by
      unfold Back; rw [hw.len]; simp
    unfold QuickSort
    rw [hlz]
    show _qsort cmp (f + 1) σ (Front σ s) (Back σ s) = some σ
    rw [hfr, hbk, _qsort]
    simp
  | cons i0 it =>
    have hfr : Front σ s = some i0 := by
      unfold Front
      rw [hw.len, if_neg (by intro hc; simp only [List.length_cons] at hc; omega), hw.ring.nxt_sent,
        List.headD_cons]
    have hbk : Back σ s = some (it.getLastD i0) := by
      unfold Back
      rw [hw.len, if_neg (by intro hc; simp only [List.length_cons] at hc; omega), hw.ring.prv_sent,
        List.getLastD_cons]
    obtain ⟨σ', R', hrun, hw', hperm, hsort, hv', hown', hlens', hfresh',
      hframe'⟩ := qsort_spec hval (val σ) (i0 :: it).length σ fuel [] (i0 :: it)
        [] rfl (List.cons_ne_nil _ _) (hw.recast (by simp)) (fun _ => rfl) hfuel
    refine ⟨σ', R', ?_, hw'.recast (by simp), hperm, hsort, hv', hown', hlens',
      hfresh', ?_⟩
    · unfold QuickSort
      rw [hlz]
      show _qsort cmp fuel σ (Front σ s) (Back σ s) = some σ'
      rw [hfr, hbk]
      rw [List.headD_cons, List.getLastD_cons] at hrun
      exact hrun
    · intro m hm
      exact hframe' m (by simpa using hm)


/-! ### Concrete example states -/

/-- The usual three-way integer comparator. -/
def cmpInt (a b : Int) : Int := a - b

theorem cmpInt_valid : Valid cmpInt where
  refl a := by simp [cmpInt]
  flip a b := by simp only [cmpInt]; omega
  trans a b c h1 h2 := by simp only [cmpInt] at h1 h2 ⊢; omega

/-- A concrete list holding `5, 2, 7`: sentinel `0`, nodes `1, 2, 3`. -/
def exState : State Int :=
  { heap := fun m =>
      if m = 0 then ⟨some 1, some 3, none, 0⟩
      else if m = 1 then ⟨some 2, some 0, some 0, 5⟩
      else if m = 2 then ⟨some 3, some 1, some 0, 2⟩
      else if m = 3 then ⟨some 0, some 2, some 0, 7⟩
      else ⟨none, none, none, 0⟩,
    lens := fun m => if m = 0 then 3 else 0,
    fresh := 4 }

theorem exState_wf : WFl exState 0 [1, 2, 3] :=
  ⟨by unfold RingOk
      exact .cons (by decide) (.cons (by decide) (.cons (by decide)
        (.cons (by decide) .nil))),
   by decide, by decide, by decide, by decide⟩

/-- A concrete single-element list holding `42`: sentinel `0`, node `1`. -/
def exState1 : State Int :=
  { heap := fun m =>
      if m = 0 then ⟨some 1, some 1, none, 0⟩
      else if m = 1 then ⟨some 0, some 0, some 0, 42⟩
      else ⟨none, none, none, 0⟩,
    lens := fun m => if m = 0 then 1 else 0,
    fresh := 2 }

theorem exState1_wf : WFl exState1 0 [1] :=
  ⟨by unfold RingOk
      exact .cons (by decide) (.cons (by decide) .nil),
   by decide, by decide, by decide, by decide⟩

/-! ### The claims about QuickSort -/

/-- C1: for every finite well-formed list and every valid three-way
comparator, `QuickSort` (given sufficient fuel, which `qsort_terminates`
shows always exists) succeeds and afterwards the front-to-back traversal
is sorted: every adjacent pair `(a, b)` of values satisfies
`cmp a b ≤ 0`. -/
theorem quicksort_sorts_traversal {s : Nat} {cmp : α → α → Int}
    {σ : State α} {ids : List Nat} {fuel : Nat} (hval : Valid cmp)
    (hw : WFl σ s ids) (hfuel : qsortFuel ids.length ≤ fuel) :
    ∃ σ', QuickSort σ s cmp fuel = some σ' ∧
      CmpSorted cmp ((listTraversal σ' s ids.length).map (val σ')) := by
  obtain ⟨σ', ids', hrun, hw', hperm, hsort, hv', -, -, -, -⟩ :=
    QuickSort_spec hval hw hfuel
  refine ⟨σ', hrun, ?_⟩
  rw [listTraversal_eq hw' (le_of_eq hperm.length_eq)]
  rw [funext hv']
  exact hsort

theorem quicksort_sorts_traversal_witness :
    ∃ σ', QuickSort exState 0 cmpInt 16 = some σ' ∧
      CmpSorted cmpInt ((listTraversal σ' 0 3).map (val σ')) :=
  quicksort_sorts_traversal cmpInt_valid exState_wf (by decide)

/-- C2: `QuickSort` preserves the multiset of traversed values and the
length field, and neither creates nor destroys nodes: the traversal
afterwards is a permutation of the node identities before, the allocator
state is untouched, and every node keeps its own stored value. -/
theorem quicksort_preserves_multiset {s : Nat} {cmp : α → α → Int}
    {σ : State α} {ids : List Nat} {fuel : Nat} (hval : Valid cmp)
    (hw : WFl σ s ids) (hfuel : qsortFuel ids.length ≤ fuel) :
    ∃ σ', QuickSort σ s cmp fuel = some σ' ∧
      ((listTraversal σ' s ids.length).map (val σ')).Perm
        ((listTraversal σ s ids.length).map (val σ)) ∧
      Len σ' s = Len σ s ∧
      (listTraversal σ' s ids.length).Perm (listTraversal σ s ids.length) ∧
      σ'.fresh = σ.fresh ∧
      (∀ m, val σ' m = val σ m) := by
  obtain ⟨σ', ids', hrun, hw', hperm, hsort, hv', -, hlens, hfresh, -⟩ :=
    QuickSort_spec hval hw hfuel
  have ht' : listTraversal σ' s ids.length = ids' :=
    listTraversal_eq hw' (le_of_eq hperm.length_eq)
  have ht : listTraversal σ s ids.length = ids := listTraversal_eq hw (le_refl _)
  refine ⟨σ', hrun, ?_, ?_, ?_, hfresh, hv'⟩
  · rw [ht', ht, funext hv']
    exact hperm.map (val σ)
  · unfold Len
    rw [hlens]
  · rw [ht', ht]
    exact hperm

theorem quicksort_preserves_multiset_witness :
    ∃ σ', QuickSort exState 0 cmpInt 16 = some σ' ∧
      ((listTraversal σ' 0 3).map (val σ')).Perm
        ((listTraversal exState 0 3).map (val exState)) ∧
      Len σ' 0 = Len exState 0 ∧
      (listTraversal σ' 0 3).Perm (listTraversal exState 0 3) ∧
      σ'.fresh = exState.fresh ∧
      (∀ m, val σ' m = val exState m) :=
  quicksort_preserves_multiset cmpInt_valid exState_wf (by decide)

/-- C4: `_qsort` terminates on every well-formed nonempty range with a
valid comparator: fuel `qsortFuel R.length` always suffices for the
fueled embedding to return a result (it returns `none` exactly on fuel
exhaustion or a nil dereference), so the recursion is well-founded. -/
theorem qsort_terminates {s : Nat} {cmp : α → α → Int} {σ : State α}
    {P R Q : List Nat} (hval : Valid cmp) (hR : R ≠ [])
    (hw : WFl σ s (P ++ R ++ Q)) :
    ∃ σ', _qsort cmp (qsortFuel R.length) σ (some (R.headD 0))
      (some (R.getLastD 0)) = some σ' := by
  obtain ⟨σ', R', h, -⟩ := qsort_spec hval (val σ) R.length σ
    (qsortFuel R.length) P R Q rfl hR hw (fun _ => rfl) (le_refl _)
  exact ⟨σ', h⟩

theorem qsort_terminates_witness :
    ∃ σ', _qsort cmpInt (qsortFuel [1, 2, 3].length) exState
      (some ([1, 2, 3].headD 0)) (some ([1, 2, 3].getLastD 0)) = some σ' :=
  qsort_terminates (P := []) (Q := []) cmpInt_valid (by decide)
    (show WFl exState 0 ([] ++ [1, 2, 3] ++ []) from exState_wf)

/-- C7: `QuickSort` on an empty or single-element list is a no-op: with
any fuel at least 1 it terminates and returns the state completely
unchanged (traversal order, links and `Len` included). -/
theorem quicksort_small_noop {s : Nat} {cmp : α → α → Int} {σ : State α}
    {ids : List Nat} {fuel : Nat} (hw : WFl σ s ids)
    (hsmall : ids = [] ∨ ∃ e, ids = [e]) (hfuel : 1 ≤ fuel) :
    QuickSort σ s cmp fuel = some σ := by
  have hlz := lazyInit_of_wf hw
  obtain ⟨f, rfl⟩ : ∃ f, fuel = f + 1 := ⟨fuel - 1, by omega⟩
  rcases hsmall with rfl | ⟨e, rfl⟩
  · have hfr : Front σ s = none := by
      unfold Front; rw [hw.len]; simp
    have hbk : Back σ s = none := by
      unfold Back; rw [hw.len]; simp
    unfold QuickSort
    rw [hlz]
    show _qsort cmp (f + 1) σ (Front σ s) (Back σ s) = some σ
    rw [hfr, hbk, _qsort]
    simp
  · have hfr : Front σ s = some e := by
      unfold Front
      rw [hw.len, if_neg (by intro hc; simp at hc), hw.ring.nxt_sent,
        List.headD_cons]
    have hbk : Back σ s = some e := by
      unfold Back
      rw [hw.len, if_neg (by intro hc; simp at hc), hw.ring.prv_sent]
      rfl
    unfold QuickSort
    rw [hlz]
    show _qsort cmp (f + 1) σ (Front σ s) (Back σ s) = some σ
    rw [hfr, hbk, _qsort]
    simp

theorem quicksort_small_noop_witness :
    QuickSort exState1 0 cmpInt 1 = some exState1 :=
  quicksort_small_noop exState1_wf (Or.inr ⟨1, rfl⟩) (by decide)


/-- C8: every operation given a node not owned by the receiving list
leaves the list completely unmodified and returns the absent result:
`InsertBefore` and `InsertAfter` with a foreign mark return no element and
insert nothing, `MoveToFront` and `MoveToBack` with a foreign node change
nothing, `MoveBefore` and `MoveAfter` change nothing whenever the mark is
foreign (for every node argument, owned or not), whenever the node is
foreign (for every mark), or whenever the node equals the mark, and
`Remove` of a foreign node changes nothing and returns that node's
currently stored value. -/
theorem foreign_node_noops (σ : State α) (l e mark : Nat) (v : α)
    (he : own σ e ≠ some l) (hmark : own σ mark ≠ some l) :
    InsertBefore σ l v mark = some (σ, none) ∧
    InsertAfter σ l v mark = some (σ, none) ∧
    MoveToFront σ l e = some σ ∧
    MoveToBack σ l e = some σ ∧
    (∀ e2, MoveBefore σ l e2 mark = some σ ∧
      MoveAfter σ l e2 mark = some σ) ∧
    (∀ mark2, MoveBefore σ l e mark2 = some σ ∧
      MoveAfter σ l e mark2 = some σ) ∧
    (∀ e2, MoveBefore σ l e2 e2 = some σ ∧ MoveAfter σ l e2 e2 = some σ) ∧
    Remove σ l e = some (σ, val σ e) := by
  refine ⟨?_, ?_, ?_, ?_, ?_, ?_, ?_, ?_⟩
  · unfold InsertBefore
    rw [if_pos hmark]
  · unfold InsertAfter
    rw [if_pos hmark]
  · unfold MoveToFront
    rw [if_pos (Or.inl he)]
  · unfold MoveToBack
    rw [if_pos (Or.inl he)]
  · intro e2
    constructor
    · unfold MoveBefore
      rw [if_pos (Or.inr (Or.inr hmark))]
    · unfold MoveAfter
      rw [if_pos (Or.inr (Or.inr hmark))]
  · intro mark2
    constructor
    · unfold MoveBefore
      rw [if_pos (Or.inl he)]
    · unfold MoveAfter
      rw [if_pos (Or.inl he)]
  · intro e2
    constructor
    · unfold MoveBefore
      rw [if_pos (Or.inr (Or.inl rfl))]
    · unfold MoveAfter
      rw [if_pos (Or.inr (Or.inl rfl))]
  · unfold Remove
    rw [if_neg he]

theorem foreign_node_noops_witness :
    InsertBefore exState 0 (9 : Int) 7 = some (exState, none) ∧
    InsertAfter exState 0 (9 : Int) 7 = some (exState, none) ∧
    MoveToFront exState 0 8 = some exState ∧
    MoveToBack exState 0 8 = some exState ∧
    (∀ e2, MoveBefore exState 0 e2 7 = some exState ∧
      MoveAfter exState 0 e2 7 = some exState) ∧
    (∀ mark2, MoveBefore exState 0 8 mark2 = some exState ∧
      MoveAfter exState 0 8 mark2 = some exState) ∧
    (∀ e2, MoveBefore exState 0 e2 e2 = some exState ∧
      MoveAfter exState 0 e2 e2 = some exState) ∧
    Remove exState 0 8 = some (exState, val exState 8) :=
  foreign_node_noops exState 0 8 7 9 (by decide) (by decide)


/-! ### Sorting an already sorted list -/

/-- In a cmp-sorted list the head compares `<= 0` against every later
element (comparator transitivity). -/
theorem cmpSorted_head_le {cmp : α → α → Int} (hval : Valid cmp) :
    ∀ {l : List α} {a : α}, CmpSorted cmp (a :: l) → ∀ b ∈ l, cmp a b ≤ 0 := by
  intro l
  induction l with
  | nil =>
    intro a _ b hb
    cases hb
  | cons c t ih =>
    intro a hs b hb
    have hac : cmp a c ≤ 0 := (List.chain'_cons.mp hs).1
    rcases List.mem_cons.mp hb with rfl | hbt
    · exact hac
    · exact hval.trans a c b hac (ih (List.chain'_cons.mp hs).2 b hbt)

/-- The node after `x` in the ring points back at `x`. -/
theorem RingOk.prv_after {σ : State α} {s : Nat} {ids : List Nat}
    (h : RingOk σ s ids) {A B : List Nat} {x : Nat} (he : ids = A ++ x :: B) :
    prv σ (B.headD s) = some x := by
  cases B with
  | nil =>
    rw [List.headD_nil, h.prv_sent, he, getLastD_append_cons, List.getLastD_nil]
  | cons b B2 =>
    rw [List.headD_cons,
      h.prv_mem (A := A ++ [x]) (B := B2) (x := b) (by simp [he]),
      getLastD_append_cons, List.getLastD_nil]

set_option maxHeartbeats 800000 in
/-- `_qsort` on a range whose values are already cmp-sorted returns the
state entirely unchanged: the right scan runs down to the pivot, the
partition loop performs no swap, the placement swap degenerates to
`swap x x`, and only the upper sub-range recurses. -/
theorem qsort_sorted_noop {s : Nat} {cmp : α → α → Int} (hval : Valid cmp) :
    ∀ (n : Nat) (σ : State α) (fuel : Nat) (P R Q : List Nat),
      R.length = n → R ≠ [] → WFl σ s (P ++ R ++ Q) →
      CmpSorted cmp (R.map (val σ)) → qsortFuel n ≤ fuel →
      _qsort cmp fuel σ (some (R.headD 0)) (some (R.getLastD 0)) = some σ := by
  intro n
  induction n using Nat.strong_induction_on with
  | _ n IH =>
  intro σ fuel P R Q hlen hRne hw hsorted hfuel
  obtain ⟨x, R1, rfl⟩ : ∃ x R1, R = x :: R1 := by
    cases R with
    | nil => exact absurd rfl hRne
    | cons a t => exact ⟨a, t, rfl⟩
  obtain ⟨f, rfl⟩ : ∃ f, fuel = f + 1 :=
    ⟨fuel - 1, by have := qsortFuel_pos n; omega⟩
  cases R1 using List.reverseRecOn with
  | nil =>
    rw [_qsort]
    simp
  | append_singleton Rmid rl =>
    have hn2 : Rmid.length + 2 = n := by simpa using hlen
    have hsubl : List.Sublist (x :: (Rmid ++ [rl]))
        (s :: (P ++ x :: (Rmid ++ [rl]) ++ Q)) :=
      (((List.sublist_append_right P _).trans
        (List.sublist_append_left _ Q)).trans (List.sublist_cons_self _ _))
    have hseg_nd : (x :: (Rmid ++ [rl])).Nodup := hw.nodup.sublist hsubl
    have hxnotin : x ∉ Rmid ++ [rl] := (List.nodup_cons.mp hseg_nd).1
    have hxrl : x ≠ rl := fun hc => hxnotin (by simp [hc])
    have hprvx : prv σ x = some (P.getLastD s) :=
      hw.ring.prv_mem (A := P) (B := (Rmid ++ [rl]) ++ Q) (x := x) (by simp)
    have hnxtrl : nxt σ rl = some (Q.headD s) :=
      hw.ring.nxt_mem (A := P ++ x :: Rmid) (B := Q) (x := rl) (by simp)
    have hge : ∀ y ∈ Rmid ++ [rl], 0 ≤ cmp (val σ y) (val σ x) := by
      intro y hy
      have h1 : cmp (val σ x) (val σ y) ≤ 0 :=
        cmpSorted_head_le hval (l := (Rmid ++ [rl]).map (val σ))
          (a := val σ x) (by simpa using hsorted) (val σ y)
          (List.mem_map_of_mem _ hy)
      exact (hval.flip _ _).mp h1
    obtain ⟨f2, rfl⟩ : ∃ f2, f = f2 + 1 := by
      refine ⟨f - 1, ?_⟩
      have := qsortFuel_ge n
      omega
    have hsr : scanRight cmp (val σ x) f2 σ (some x) (some rl) =
        some (some x) := by
      rcases scanRight_spec hw cmp (val σ x) Rmid f2 x rl P Q (by simp)
        (by have := qsortFuel_ge n; omega) with
        ⟨W1, j, W2, hsp, hj, -, -⟩ | ⟨-, hres⟩
      · exfalso
        have hjmem : j ∈ Rmid ++ [rl] := by rw [hsp]; simp
        have := hge j hjmem
        omega
      · exact hres
    obtain ⟨f3, hf23⟩ : ∃ f3, f2 = f3 + 1 := by
      refine ⟨f2 - 1, ?_⟩
      have := qsortFuel_ge n
      omega
    have hsl : scanLeft cmp (val σ x) f2 σ (some x) (some x) =
        some (some x) := by
      rw [hf23]
      exact scanLeft_stop cmp (val σ x) f3 σ (some x)
    have hpl : partLoop cmp (val σ x) (f2 + 1) σ (some x) (some rl) =
        some (σ, some x) := by
      rw [partLoop]
      simp only [Option.bind_eq_bind]
      rw [hsr]
      simp only [Option.some_bind]
      rw [hsl]
      simp
    have hnxtlb : nxt σ (P.getLastD s) = some x := by
      have h := RingOk.nxt_last_left (P := P)
        (Y := (x :: (Rmid ++ [rl])) ++ Q) (hw.ring.recast' (by simp))
      simpa using h
    have hnxtx : nxt σ x = some ((Rmid ++ rl :: Q).headD s) :=
      hw.ring.nxt_mem (A := P) (B := Rmid ++ rl :: Q) (x := x) (by simp)
    have hprvy : prv σ ((Rmid ++ rl :: Q).headD s) = some x :=
      hw.ring.prv_after (A := P) (B := Rmid ++ rl :: Q) (by simp)
    have hprvrb : prv σ (Q.headD s) = some rl := by
      have h := RingOk.prv_head_right (X := P ++ (x :: (Rmid ++ [rl])))
        (Q := Q) (hw.ring.recast' (by simp))
      rw [h, getLastD_append_right, List.getLastD_cons, List.getLastD_concat]
    have hs2 : CmpSorted cmp ((Rmid ++ [rl]).map (val σ)) := by
      have h := hsorted
      rw [CmpSorted, List.map_cons] at h
      exact List.Chain'.tail h
    have hrec : _qsort cmp (f2 + 1) σ (some ((Rmid ++ [rl]).headD 0))
        (some ((Rmid ++ [rl]).getLastD 0)) = some σ := by
      refine IH (Rmid.length + 1) (by omega) σ (f2 + 1) (P ++ [x])
        (Rmid ++ [rl]) Q (by simp) (by simp) (hw.recast (by simp)) hs2 ?_
      have h2 : qsortFuel (Rmid.length + 1 + 1) =
          qsortFuel (Rmid.length + 1) + 2 * (Rmid.length + 1 + 1) + 1 := rfl
      have h3 : Rmid.length + 1 + 1 = n := by omega
      rw [h3] at h2
      omega
    rw [headD_append_cons, List.getLastD_concat] at hrec
    rw [List.headD_cons, List.getLastD_cons, List.getLastD_concat]
    rw [_qsort]
    rw [if_neg (by simpa using hxrl)]
    simp only [Option.bind_eq_bind, Option.some_bind]
    rw [hprvx, hnxtrl, hpl]
    simp only [Option.some_bind]
    rw [hnxtx, hnxtlb, swap_same]
    simp only [Option.some_bind]
    rw [hprvy, hnxtlb]
    rw [if_neg (by simp)]
    rw [hprvrb]
    rw [if_pos (by simpa using hxrl)]
    simp only [Option.some_bind]
    rw [hnxtx, headD_append_cons]
    exact hrec

/-- C9: `QuickSort` with a valid comparator on a list whose traversal is
already cmp-sorted returns the state entirely unchanged: the traversal
order is exactly the same, no node moves. -/
theorem quicksort_sorted_idempotent {s : Nat} {cmp : α → α → Int}
    {σ : State α} {ids : List Nat} {fuel : Nat} (hval : Valid cmp)
    (hw : WFl σ s ids) (hsorted : CmpSorted cmp (ids.map (val σ)))
    (hfuel : qsortFuel ids.length ≤ fuel) :
    QuickSort σ s cmp fuel = some σ := by
  have hlz := lazyInit_of_wf hw
  cases ids with
  | nil =>
    obtain ⟨f, rfl⟩ : ∃ f, fuel = f + 1 := by
      refine ⟨fuel - 1, ?_⟩
      have h := hfuel
      simp only [List.length_nil] at h
      have := qsortFuel_pos 0
      omega
    have hfr : Front σ s = none := by
      unfold Front; rw [hw.len]; simp
    have hbk : Back σ s = none := by
      unfold Back; rw [hw.len]; simp
    unfold QuickSort
    rw [hlz]
    show _qsort cmp (f + 1) σ (Front σ s) (Back σ s) = some σ
    rw [hfr, hbk, _qsort]
    simp
  | cons i0 it =>
    have hfr : Front σ s = some i0 := by
      unfold Front
      rw [hw.len, if_neg (by intro hc; simp only [List.length_cons] at hc; omega),
        hw.ring.nxt_sent, List.headD_cons]
    have hbk : Back σ s = some (it.getLastD i0) := by
      unfold Back
      rw [hw.len, if_neg (by intro hc; simp only [List.length_cons] at hc; omega),
        hw.ring.prv_sent, List.getLastD_cons]
    have hrun := qsort_sorted_noop hval (i0 :: it).length σ fuel [] (i0 :: it)
      [] rfl (List.cons_ne_nil _ _) (hw.recast (by simp)) hsorted hfuel
    unfold QuickSort
    rw [hlz]
    show _qsort cmp fuel σ (Front σ s) (Back σ s) = some σ
    rw [hfr, hbk]
    rw [List.headD_cons, List.getLastD_cons] at hrun
    exact hrun

/-- A concrete already-sorted list holding `2, 5, 7`. -/
def exStateS : State Int :=
  { heap := fun m =>
      if m = 0 then ⟨some 1, some 3, none, 0⟩
      else if m = 1 then ⟨some 2, some 0, some 0, 2⟩
      else if m = 2 then ⟨some 3, some 1, some 0, 5⟩
      else if m = 3 then ⟨some 0, some 2, some 0, 7⟩
      else ⟨none, none, none, 0⟩,
    lens := fun m => if m = 0 then 3 else 0,
    fresh := 4 }

theorem exStateS_wf : WFl exStateS 0 [1, 2, 3] :=
  ⟨by unfold RingOk
      exact .cons (by decide) (.cons (by decide) (.cons (by decide)
        (.cons (by decide) .nil))),
   by decide, by decide, by decide, by decide⟩

theorem exStateS_sorted : CmpSorted cmpInt ([1, 2, 3].map (val exStateS)) := by
  unfold CmpSorted
  exact .cons (by decide) (.cons (by decide) .nil)

theorem quicksort_sorted_idempotent_witness :
    QuickSort exStateS 0 cmpInt 16 = some exStateS :=
  quicksort_sorted_idempotent cmpInt_valid exStateS_wf exStateS_sorted
    (by decide)


/-! ### The pivot node during partition and placement -/

/-- C3: in every recursive call of the quicksort on a well-formed
non-singleton range, the partition loop never moves the node that held
the pivot value at entry: at loop exit it is still the successor of the
left boundary (`leftBoundary.next` with `leftBoundary = left.previous`
recorded at entry).  After the final relink `swap(leftBoundary.next,
left)`, the node recovered as `leftNext.previous` (with `leftNext =
left.next` captured before the relink) is exactly the pivot node, and it
now occupies the ring position formerly held by the cursor `left`. -/
theorem pivot_placement {s : Nat} {cmp : α → α → Int} {σ : State α}
    {P M Q : List Nat} {x r : Nat} {fuel : Nat} (hval : Valid cmp)
    (hw : WFl σ s (P ++ (x :: (M ++ [r])) ++ Q))
    (hfuel : 2 * M.length + 4 ≤ fuel) :
    ∃ σ1 U' lf V',
      partLoop cmp (val σ x) fuel σ (some x) (some r) = some (σ1, some lf) ∧
      prv σ x = some (P.getLastD s) ∧
      nxt σ1 (P.getLastD s) = some x ∧
      WFl σ1 s (P ++ (U' ++ lf :: V') ++ Q) ∧
      U'.headD lf = x ∧
      ∃ σ2 nb ln L0,
        nxt σ1 lf = some ln ∧
        swap σ1 (nxt σ1 (P.getLastD s)) (some lf) = some (σ2, nb) ∧
        prv σ2 ln = some x ∧
        WFl σ2 s (P ++ (L0 ++ x :: V') ++ Q) ∧
        L0.length = U'.length := by
  have hprvx : prv σ x = some (P.getLastD s) :=
    hw.ring.prv_mem (A := P) (B := (M ++ [r]) ++ Q) (x := x) (by simp)
  obtain ⟨σ1, U', lf, V', hplRun, hw1, hperm1, hhead1, hU', hlf', hV', hv1,
    hown1, hlens1, hfresh1, hframe1⟩ :=
    partLoop_spec cmp (val σ x) (val σ) fuel σ P [] M [] Q x r
      (hw.recast (by simp)) (fun _ => rfl) (by simp)
      (by rw [hval.refl]) (by simp) hfuel
  have hpivhead : U'.headD lf = x := by simpa using hhead1
  have hnxtlb : nxt σ1 (P.getLastD s) = some x := by
    have h := RingOk.nxt_last_left (P := P)
      (Y := (U' ++ lf :: V') ++ Q) (hw1.ring.recast' (by simp))
    rw [h]
    rw [headD_append_right, headD_append_cons, hpivhead]
  have hnxtlf : nxt σ1 lf = some ((V' ++ Q).headD s) :=
    hw1.ring.nxt_mem (A := P ++ U') (B := V' ++ Q) (x := lf) (by simp)
  refine ⟨σ1, U', lf, V', hplRun, hprvx, hnxtlb, hw1, hpivhead, ?_⟩
  rw [hnxtlb]
  cases U' with
  | nil =>
    have hlfx : lf = x := by simpa using hpivhead
    subst hlfx
    refine ⟨σ1, false, (V' ++ Q).headD s, [], hnxtlf, swap_same σ1 (some lf),
      ?_, hw1.recast (by simp), by simp⟩
    exact hw1.ring.prv_after (A := P) (B := V' ++ Q) (by simp)
  | cons u0 U'r =>
    have hu0 : u0 = x := by simpa using hpivhead
    subst hu0
    have hwS : WFl σ1 s (P ++ u0 :: (U'r ++ lf :: (V' ++ Q))) :=
      hw1.recast (by simp)
    obtain ⟨σ2, hsw, hring2, hown2, hval2, hlens2, hfresh2, hframe2⟩ :=
      swap_spec hwS.ring hwS.nodup
    have hpermRing : (P ++ lf :: (U'r ++ u0 :: (V' ++ Q))).Perm
        (P ++ u0 :: (U'r ++ lf :: (V' ++ Q))) :=
      List.Perm.append_left P (perm_swap_mid u0 lf U'r (V' ++ Q)).symm
    have hw2 : WFl σ2 s (P ++ lf :: (U'r ++ u0 :: (V' ++ Q))) :=
      WFl.of_perm_ringOk hwS hpermRing hring2 hown2 hlens2
    refine ⟨σ2, U'r.isEmpty, (V' ++ Q).headD s, lf :: U'r, hnxtlf, hsw, ?_,
      hw2.recast (by simp), by simp⟩
    exact hw2.ring.prv_after (A := P ++ lf :: U'r) (B := V' ++ Q) (by simp)

theorem pivot_placement_witness :
    ∃ σ1 U' lf V',
      partLoop cmpInt (val exState 1) 6 exState (some 1) (some 3) =
        some (σ1, some lf) ∧
      prv exState 1 = some (List.getLastD [] 0) ∧
      nxt σ1 (List.getLastD [] 0) = some 1 ∧
      WFl σ1 0 ([] ++ (U' ++ lf :: V') ++ []) ∧
      U'.headD lf = 1 ∧
      ∃ σ2 nb ln L0,
        nxt σ1 lf = some ln ∧
        swap σ1 (nxt σ1 (List.getLastD [] 0)) (some lf) = some (σ2, nb) ∧
        prv σ2 ln = some 1 ∧
        WFl σ2 0 ([] ++ (L0 ++ 1 :: V') ++ []) ∧
        L0.length = U'.length :=
  pivot_placement cmpInt_valid
    (show WFl exState 0 ([] ++ (1 :: ([2] ++ [3])) ++ []) from exState_wf)
    (by decide)

/-- C10: the partition loop of `_qsort` on a well-formed non-singleton
range is memory-safe: the fueled embedding (which returns `none` on any
nil dereference) terminates successfully, so every cursor step `Prev`
or `Next`, every comparator call and every dereference inside the loop
hits a valid node, and the final cursor is a node of the range — never
nil and never the sentinel. -/
theorem partition_loop_safe {s : Nat} {cmp : α → α → Int} {σ : State α}
    {P M Q : List Nat} {x r : Nat} {fuel : Nat} (hval : Valid cmp)
    (hw : WFl σ s (P ++ (x :: (M ++ [r])) ++ Q))
    (hfuel : 2 * M.length + 4 ≤ fuel) :
    ∃ σ' lf, partLoop cmp (val σ x) fuel σ (some x) (some r) =
        some (σ', some lf) ∧ lf ∈ x :: (M ++ [r]) ∧ lf ≠ s := by
  obtain ⟨σ', U', lf, V', hrun, hw', hperm, -, -, -, -, -, -, -, -, -⟩ :=
    partLoop_spec cmp (val σ x) (val σ) fuel σ P [] M [] Q x r
      (hw.recast (by simp)) (fun _ => rfl) (by simp)
      (by rw [hval.refl]) (by simp) hfuel
  refine ⟨σ', lf, hrun, ?_, ?_⟩
  · have h := hperm.mem_iff.mp (show lf ∈ U' ++ lf :: V' by simp)
    simpa using h
  · intro hc
    subst hc
    exact hw'.sent_notMem (by simp)

theorem partition_loop_safe_witness :
    ∃ σ' lf, partLoop cmpInt (val exState 1) 6 exState (some 1) (some 3) =
        some (σ', some lf) ∧ lf ∈ 1 :: ([2] ++ [3]) ∧ lf ≠ 0 :=
  partition_loop_safe cmpInt_valid
    (show WFl exState 0 ([] ++ (1 :: ([2] ++ [3])) ++ []) from exState_wf)
    (by decide)


/-! ### The swap contract for both argument orders -/

/-- When `b` directly follows `d` in the ring, the two argument orders of
`swap` take the two adjacent branches of the code, which perform the same
writes in the same order. -/
theorem swap_comm_adj {σ : State α} {b d : Nat} (hbd : b ≠ d)
    (hn : nxt σ d = some b) (hne : nxt σ b ≠ some d) (hp : prv σ b = some d) :
    swap σ (some b) (some d) = swap σ (some d) (some b) := by
  unfold swap
  rw [if_neg (by simpa using hbd), if_neg (by simpa using hbd.symm)]
  simp only [Option.bind_eq_bind, Option.some_bind]
  rw [if_pos (Or.inr hp), if_neg hne, if_pos (Or.inl hn), if_pos hn]

theorem perm_rotate (s t : Nat) (X Y : List Nat) :
    (t :: (Y ++ s :: X)).Perm (s :: (X ++ t :: Y)) := by
  have h1 : (Y ++ s :: X).Perm (s :: (Y ++ X)) := List.perm_middle
  have h2 : (X ++ t :: Y).Perm (t :: (X ++ Y)) := List.perm_middle
  refine ((h1.cons t).trans ?_).trans (h2.cons s).symm
  refine (List.Perm.swap s t _).trans ?_
  exact (List.perm_append_comm.cons t).cons s

/-- A closed ring can be read from any of its nodes. -/
theorem RingOk.rotate {σ : State α} {s t : Nat} {X Y : List Nat}
    (h : RingOk σ s (X ++ t :: Y)) : RingOk σ t (Y ++ s :: X) := by
  have hch : List.Chain' (linked σ) ((s :: X) ++ (t :: (Y ++ [s]))) := by
    have h2 : List.Chain' (linked σ) (s :: (X ++ t :: Y) ++ [s]) := h
    simpa using h2
  rw [List.chain'_append] at hch
  obtain ⟨h1, h2, h3⟩ := hch
  have h2' : List.Chain' (linked σ) ((t :: Y) ++ [s]) := by simpa using h2
  rw [List.chain'_append] at h2'
  obtain ⟨h4, h5, h6⟩ := h2'
  show List.Chain' (linked σ) (t :: (Y ++ s :: X) ++ [t])
  have hgoal : List.Chain' (linked σ) ((t :: Y) ++ (s :: (X ++ [t]))) := by
    rw [List.chain'_append]
    refine ⟨h4, ?_, ?_⟩
    · have : List.Chain' (linked σ) ((s :: X) ++ [t]) := by
        rw [List.chain'_append]
        refine ⟨h1, List.chain'_singleton t, ?_⟩
        intro x hx y hy
        have hyt : y = t := by have := hy; simp at this; exact this.symm
        rw [hyt]
        exact h3 x hx t (by simp)
      simpa using this
    · intro x hx y hy
      have hys : y = s := by have := hy; simp at this; exact this.symm
      rw [hys]
      exact h6 x hx s (by simp)
  simpa using hgoal

/-- Mirror of `swap_adj`: `b` directly follows `d` in the ring and the
call is `swap(b, d)`; the code takes its second adjacent branch. -/
theorem swap_adj_rev {σ : State α} {s b d : Nat} {A C : List Nat}
    (hr : RingOk σ s (A ++ d :: b :: C))
    (hnd : (s :: (A ++ d :: b :: C)).Nodup) :
    ∃ σ', swap σ (some b) (some d) = some (σ', true) ∧
      RingOk σ' s (A ++ b :: d :: C) ∧
      (∀ n, own σ' n = own σ n) ∧ (∀ n, val σ' n = val σ n) ∧
      σ'.lens = σ.lens ∧ σ'.fresh = σ.fresh ∧
      (∀ n, n ≠ b → n ≠ d → n ≠ A.getLastD s → n ≠ C.headD s →
        σ'.heap n = σ.heap n) := by
  obtain ⟨σ', h1, h2, h3, h4, h5, h6, h7⟩ := swap_adj (b := d) (d := b) hr hnd
  have hsmem : s ∉ A ++ d :: b :: C := (List.nodup_cons.mp hnd).1
  have hsb : s ≠ b := fun h => hsmem (by simp [h])
  have hsd : s ≠ d := fun h => hsmem (by simp [h])
  have htl : (A ++ d :: b :: C).Nodup := (List.nodup_cons.mp hnd).2
  rw [List.nodup_append, List.nodup_cons, List.nodup_cons] at htl
  obtain ⟨-, ⟨hdm, hbC, -⟩, hAX⟩ := htl
  have hdb : d ≠ b := fun h => hdm (by simp [h])
  have hdC : d ∉ C := fun h => hdm (by simp [h])
  have hn : nxt σ d = some b := by
    have h := hr.nxt_mem (A := A) (B := b :: C) (x := d) rfl
    simpa using h
  have hp : prv σ b = some d := by
    have h := hr.prv_mem (A := A ++ [d]) (B := C) (x := b) (by simp)
    rwa [getLastD_append_cons, List.getLastD_nil] at h
  have hnb : nxt σ b = some (C.headD s) :=
    hr.nxt_mem (A := A ++ [d]) (B := C) (x := b) (by simp)
  have hne : nxt σ b ≠ some d := by
    rw [hnb]
    intro hc
    have hcd := Option.some.inj hc
    rcases headD_mem_or C s with h | h
    · rw [hcd] at h; exact hsd h.symm
    · rw [hcd] at h; exact hdC h
  exact ⟨σ', (swap_comm_adj hdb.symm hn hne hp).trans h1, h2, h3, h4, h5, h6,
    fun n k1 k2 k3 k4 => h7 n k2 k1 k3 k4⟩

/-- Mirror of `swap_nonadj`, proved by rotating the ring so that the
two swapped nodes appear in the order the existing lemma expects. -/
theorem swap_nonadj_rev {σ : State α} {s b d B0 : Nat} {A Bt C : List Nat}
    (hr : RingOk σ s (A ++ d :: B0 :: (Bt ++ b :: C)))
    (hnd : (s :: (A ++ d :: B0 :: (Bt ++ b :: C))).Nodup) :
    ∃ σ', swap σ (some b) (some d) = some (σ', false) ∧
      RingOk σ' s (A ++ b :: B0 :: (Bt ++ d :: C)) ∧
      (∀ n, own σ' n = own σ n) ∧ (∀ n, val σ' n = val σ n) ∧
      σ'.lens = σ.lens ∧ σ'.fresh = σ.fresh ∧
      (∀ n, n ≠ b → n ≠ d → n ≠ A.getLastD s → n ≠ B0 →
        n ≠ Bt.getLastD B0 → n ≠ C.headD s → σ'.heap n = σ.heap n) := by
  have hrot : RingOk σ B0 ((Bt ++ b :: C) ++ s :: (A ++ [d])) := by
    have h : RingOk σ s ((A ++ [d]) ++ B0 :: (Bt ++ b :: C)) :=
      hr.recast' (by simp)
    exact h.rotate
  have hndrot : (B0 :: ((Bt ++ b :: C) ++ s :: (A ++ [d]))).Nodup := by
    refine (perm_rotate s B0 (A ++ [d]) (Bt ++ b :: C)).nodup_iff.mpr ?_
    have h : s :: ((A ++ [d]) ++ B0 :: (Bt ++ b :: C)) =
        s :: (A ++ d :: B0 :: (Bt ++ b :: C)) := by simp
    rw [h]
    exact hnd
  cases C with
  | nil =>
    have hr' : RingOk σ B0 (Bt ++ b :: s :: (A ++ d :: [])) :=
      hrot.recast' (by simp)
    have hnd' : (B0 :: (Bt ++ b :: s :: (A ++ d :: []))).Nodup := by
      have h : B0 :: ((Bt ++ b :: []) ++ s :: (A ++ [d])) =
          B0 :: (Bt ++ b :: s :: (A ++ d :: [])) := by simp
      rw [← h]
      exact hndrot
    obtain ⟨σ', h1, h2, h3, h4, h5, h6, h7⟩ :=
      swap_nonadj hr' hnd'
    refine ⟨σ', h1, ?_, h3, h4, h5, h6, ?_⟩
    · have h2' : RingOk σ' B0 ((Bt ++ [d]) ++ s :: (A ++ [b])) :=
        h2.recast' (by simp)
      exact h2'.rotate.recast' (by simp)
    · intro n k1 k2 k3 k4 k5 k6
      rw [List.headD_nil] at k6
      refine h7 n k1 k2 k5 k6 k3 ?_
      rw [List.headD_nil]
      exact k4
  | cons c0 Ct =>
    have hr' : RingOk σ B0 (Bt ++ b :: c0 :: ((Ct ++ s :: A) ++ d :: [])) :=
      hrot.recast' (by simp)
    have hnd' : (B0 :: (Bt ++ b :: c0 :: ((Ct ++ s :: A) ++ d :: []))).Nodup := by
      have h : B0 :: ((Bt ++ b :: (c0 :: Ct)) ++ s :: (A ++ [d])) =
          B0 :: (Bt ++ b :: c0 :: ((Ct ++ s :: A) ++ d :: [])) := by simp
      rw [← h]
      exact hndrot
    obtain ⟨σ', h1, h2, h3, h4, h5, h6, h7⟩ :=
      swap_nonadj hr' hnd'
    refine ⟨σ', h1, ?_, h3, h4, h5, h6, ?_⟩
    · have h2' : RingOk σ' B0 ((Bt ++ d :: c0 :: Ct) ++ s :: (A ++ [b])) :=
        h2.recast' (by simp)
      exact h2'.rotate.recast' (by simp)
    · intro n k1 k2 k3 k4 k5 k6
      rw [List.headD_cons] at k6
      refine h7 n k1 k2 k5 k6 ?_ ?_
      · rw [getLastD_append_cons]
        exact k3
      · rw [List.headD_nil]
        exact k4

/-- C5: for two distinct nodes `b` and `d` of the same well-formed list
(in either ring order), `swap(b, d)` exchanges their structural positions
in the ring, leaves every stored value (and ownership, length and
allocator state) unchanged, modifies heap cells only among `b`, `d` and
their former neighbours, and returns `true` exactly when `b` and `d` were
adjacent; `swap(e, e)` changes nothing and returns `false`. -/
theorem swap_contract {s b d : Nat} {σ : State α} {ids A B C : List Nat}
    (hw : WFl σ s ids)
    (hsplit : ids = A ++ b :: (B ++ d :: C) ∨ ids = A ++ d :: (B ++ b :: C)) :
    (∀ e, swap σ (some e) (some e) = some (σ, false)) ∧
    ∃ σ' ids',
      swap σ (some b) (some d) = some (σ', B.isEmpty) ∧
      WFl σ' s ids' ∧
      (ids = A ++ b :: (B ++ d :: C) → ids' = A ++ d :: (B ++ b :: C)) ∧
      (ids = A ++ d :: (B ++ b :: C) → ids' = A ++ b :: (B ++ d :: C)) ∧
      (∀ n, val σ' n = val σ n) ∧
      (∀ n, own σ' n = own σ n) ∧
      σ'.lens = σ.lens ∧ σ'.fresh = σ.fresh ∧
      (∀ n, n ≠ b → n ≠ d → n ≠ A.getLastD s → n ≠ B.headD d →
        n ≠ B.getLastD b → n ≠ C.headD s → σ'.heap n = σ.heap n) := by
  refine ⟨fun e => swap_same σ (some e), ?_⟩
  rcases hsplit with hsp | hsp
  · have hw1 : WFl σ s (A ++ b :: (B ++ d :: C)) := hw.recast hsp
    have hbd : b ≠ d := by
      have hnd := hw1.nodup
      rw [List.nodup_cons, List.nodup_append, List.nodup_cons] at hnd
      intro hc
      exact hnd.2.2.1.1 (by simp [hc])
    obtain ⟨σ', hsw, hring', hown', hval', hlens', hfresh', hframe'⟩ :=
      swap_spec hw1.ring hw1.nodup
    have hperm : (A ++ d :: (B ++ b :: C)).Perm (A ++ b :: (B ++ d :: C)) :=
      List.Perm.append_left A (perm_swap_mid b d B C).symm
    refine ⟨σ', A ++ d :: (B ++ b :: C), hsw,
      WFl.of_perm_ringOk hw1 hperm hring' hown' hlens',
      fun _ => rfl, ?_, hval', hown', hlens', hfresh', hframe'⟩
    · intro hc
      rw [hsp] at hc
      have h2 := List.append_cancel_left hc
      exact absurd (List.cons.inj h2).1 hbd
  · have hw1 : WFl σ s (A ++ d :: (B ++ b :: C)) := hw.recast hsp
    have hdb : d ≠ b := by
      have hnd := hw1.nodup
      rw [List.nodup_cons, List.nodup_append, List.nodup_cons] at hnd
      intro hc
      exact hnd.2.2.1.1 (by simp [hc])
    have hperm : (A ++ b :: (B ++ d :: C)).Perm (A ++ d :: (B ++ b :: C)) :=
      List.Perm.append_left A (perm_swap_mid d b B C).symm
    cases B with
    | nil =>
      have hr1 : RingOk σ s (A ++ d :: b :: C) := hw1.ring.recast' (by simp)
      have hnd1 : (s :: (A ++ d :: b :: C)).Nodup := by
        have h : s :: (A ++ d :: ([] ++ b :: C)) = s :: (A ++ d :: b :: C) := by
          simp
        rw [← h]
        exact hw1.nodup
      obtain ⟨σ', hsw, hring', hown', hval', hlens', hfresh', hframe'⟩ :=
        swap_adj_rev hr1 hnd1
      refine ⟨σ', A ++ b :: ([] ++ d :: C), hsw,
        WFl.of_perm_ringOk hw1 hperm (hring'.recast' (by simp)) hown' hlens',
        ?_, fun _ => rfl, hval', hown', hlens', hfresh', ?_⟩
      · intro hc
        rw [hsp] at hc
        have h2 := List.append_cancel_left hc
        exact absurd (List.cons.inj h2).1 hdb
      · intro n k1 k2 k3 k4 k5 k6
        exact hframe' n k1 k2 k3 k6
    | cons B0 Bt =>
      have hr1 : RingOk σ s (A ++ d :: B0 :: (Bt ++ b :: C)) :=
        hw1.ring.recast' (by simp)
      have hnd1 : (s :: (A ++ d :: B0 :: (Bt ++ b :: C))).Nodup := by
        have h : s :: (A ++ d :: ((B0 :: Bt) ++ b :: C)) =
            s :: (A ++ d :: B0 :: (Bt ++ b :: C)) := by simp
        rw [← h]
        exact hw1.nodup
      obtain ⟨σ', hsw, hring', hown', hval', hlens', hfresh', hframe'⟩ :=
        swap_nonadj_rev hr1 hnd1
      refine ⟨σ', A ++ b :: ((B0 :: Bt) ++ d :: C), hsw,
        WFl.of_perm_ringOk hw1 hperm (hring'.recast' (by simp)) hown' hlens',
        ?_, fun _ => rfl, hval', hown', hlens', hfresh', ?_⟩
      · intro hc
        rw [hsp] at hc
        have h2 := List.append_cancel_left hc
        exact absurd (List.cons.inj h2).1 hdb
      · intro n k1 k2 k3 k4 k5 k6
        rw [List.headD_cons] at k4
        rw [List.getLastD_cons] at k5
        exact hframe' n k1 k2 k3 k4 k5 k6

theorem swap_contract_witness :
    (∀ e, swap exState (some e) (some e) = some (exState, false)) ∧
    ∃ σ' ids',
      swap exState (some 2) (some 1) = some (σ', true) ∧
      WFl σ' 0 ids' ∧
      ([1, 2, 3] = [] ++ 2 :: ([] ++ 1 :: [3]) → ids' = [] ++ 1 :: ([] ++ 2 :: [3])) ∧
      ([1, 2, 3] = [] ++ 1 :: ([] ++ 2 :: [3]) → ids' = [] ++ 2 :: ([] ++ 1 :: [3])) ∧
      (∀ n, val σ' n = val exState n) ∧
      (∀ n, own σ' n = own exState n) ∧
      σ'.lens = exState.lens ∧ σ'.fresh = exState.fresh ∧
      (∀ n, n ≠ 2 → n ≠ 1 → n ≠ List.getLastD [] 0 → n ≠ List.headD [] 1 →
        n ≠ List.getLastD [] 2 → n ≠ List.headD [3] 0 →
        σ'.heap n = exState.heap n) :=
  swap_contract (b := 2) (d := 1) (A := []) (B := []) (C := [3]) exState_wf
    (Or.inr rfl)


/-! ### Ring surgery: linking a node in and out -/

/-- Splicing a fresh node `e` after the node `X.getLastD s` of a ring (the
write sequence shared by `insert` and the second half of `move`). -/
theorem link_spec {σ : State α} {s e : Nat} {X Y : List Nat}
    (hr : RingOk σ s (X ++ Y)) (hnd : (s :: (X ++ Y)).Nodup)
    (he : e ∉ s :: (X ++ Y)) :
    ∃ σ', σ' = setPrev (setNext (setNext (setPrev σ e (some (X.getLastD s))) e
        (some (Y.headD s))) (X.getLastD s) (some e)) (Y.headD s) (some e) ∧
      RingOk σ' s (X ++ e :: Y) ∧
      (∀ m, own σ' m = own σ m) ∧ (∀ m, val σ' m = val σ m) ∧
      σ'.lens = σ.lens ∧ σ'.fresh = σ.fresh ∧
      (∀ m, m ≠ e → m ≠ X.getLastD s → m ≠ Y.headD s →
        σ'.heap m = σ.heap m) := by
  have hes : e ≠ s := fun hc => he (by simp [hc])
  have heX : e ∉ X := fun hc => he (by simp [hc])
  have heY : e ∉ Y := fun hc => he (by simp [hc])
  have hsX : s ∉ X := fun hc => (List.nodup_cons.mp hnd).1 (by simp [hc])
  have hsY : s ∉ Y := fun hc => (List.nodup_cons.mp hnd).1 (by simp [hc])
  have hXY : ∀ m ∈ X, m ∉ Y := by
    have h := (List.nodup_cons.mp hnd).2
    rw [List.nodup_append] at h
    exact fun m hm hc => h.2.2 hm hc
  obtain ⟨a, ha⟩ : ∃ x, X.getLastD s = x := ⟨_, rfl⟩
  obtain ⟨q, hq⟩ : ∃ x, Y.headD s = x := ⟨_, rfl⟩
  have hamem : a = s ∨ a ∈ X := by rw [← ha]; exact getLastD_mem_or X s
  have hqmem : q = s ∨ q ∈ Y := by rw [← hq]; exact headD_mem_or Y s
  have hea : e ≠ a := by
    rcases hamem with h | h
    · rw [h]; exact hes
    · exact fun hc => heX (hc ▸ h)
  have heq : e ≠ q := by
    rcases hqmem with h | h
    · rw [h]; exact hes
    · exact fun hc => heY (hc ▸ h)
  obtain ⟨σ', hσ'⟩ : ∃ σ', σ' =
      setPrev (setNext (setNext (setPrev σ e (some a)) e (some q)) a (some e))
        q (some e) := ⟨_, rfl⟩
  have LA : nxt σ' a = some e := by rw [hσ']; simp
  have LB : prv σ' e = some a := by rw [hσ']; simp [heq]
  have LC : nxt σ' e = some q := by rw [hσ']; simp [hea]
  have LD : prv σ' q = some e := by rw [hσ']; simp
  have hch : List.Chain' (linked σ) ((s :: X) ++ (Y ++ [s])) := by
    have h : List.Chain' (linked σ) (s :: (X ++ Y) ++ [s]) := hr
    simpa using h
  rw [List.chain'_append] at hch
  obtain ⟨chX, chY, hcross⟩ := hch
  have chX' : List.Chain' (linked σ') (s :: X) := by
    refine chain'_linked_congr (fun m hm => ?_) (fun m hm => ?_) chX
    · have hmX : m ∈ s :: X := (List.dropLast_sublist (s :: X)).subset hm
      have h1 : m ≠ e := by
        rintro rfl
        rcases List.mem_cons.mp hmX with h | h
        · exact hes h
        · exact heX h
      have h2 : m ≠ a := by
        intro hc
        have hnsX : (s :: X).Nodup := by
          have h := hnd
          rw [List.nodup_cons] at h ⊢
          exact ⟨fun hc2 => h.1 (by simp [hc2]),
            ((List.nodup_append.mp h.2).1)⟩
        apply getLastD_cons_notMem_dropLast hnsX
        rw [ha, ← hc]
        exact hm
      rw [hσ']; simp [h1, h2]
    · simp only [List.tail_cons] at hm
      have h1 : m ≠ e := fun hc => heX (hc ▸ hm)
      have h2 : m ≠ q := by
        rcases hqmem with h | h
        · rw [h]; exact fun hc => hsX (hc ▸ hm)
        · exact fun hc => hXY m hm (hc ▸ h)
      rw [hσ']; simp [h1, h2]
  have chY' : List.Chain' (linked σ') (Y ++ [s]) := by
    refine chain'_linked_congr (fun m hm => ?_) (fun m hm => ?_) chY
    · rw [List.dropLast_concat] at hm
      have h1 : m ≠ e := fun hc => heY (hc ▸ hm)
      have h2 : m ≠ a := by
        rcases hamem with h | h
        · rw [h]; exact fun hc => hsY (hc ▸ hm)
        · exact fun hc => hXY a h (hc ▸ hm)
      rw [hσ']; simp [h1, h2]
    · cases Y with
      | nil => simp at hm
      | cons y0 t =>
        have hqy0 : q = y0 := by rw [← hq]; rfl
        simp only [List.cons_append, List.tail_cons] at hm
        rw [List.mem_append, List.mem_singleton] at hm
        have hy0t : y0 ∉ t := by
          have h := (List.nodup_cons.mp hnd).2
          rw [List.nodup_append, List.nodup_cons] at h
          exact h.2.1.1
        have h1 : m ≠ e := by
          rcases hm with h | h
          · exact fun hc => heY (hc ▸ List.mem_cons_of_mem y0 h)
          · rw [h]; exact fun hc => hes hc.symm
        have h2 : m ≠ q := by
          rw [hqy0]
          rcases hm with h | h
          · exact fun hc => hy0t (hc ▸ h)
          · rw [h]; exact fun hc => hsY (hc ▸ List.mem_cons_self y0 t)
        rw [hσ']; simp [h1, h2]
  have hchain : List.Chain' (linked σ') ((s :: X) ++ (e :: (Y ++ [s]))) := by
    rw [List.chain'_append]
    refine ⟨chX', ?_, ?_⟩
    · rw [List.chain'_cons']
      refine ⟨fun y hy => ?_, chY'⟩
      rw [head?_append_singleton, hq] at hy
      have hyq := Option.mem_some_iff.mp hy
      subst hyq
      exact ⟨LC, LD⟩
    · intro x hx y hy
      rw [getLast?_cons_eq, ha] at hx
      have hxv := Option.mem_some_iff.mp hx
      have hyv : y = e := by have := hy; simp at this; exact this.symm
      subst hxv
      subst hyv
      exact ⟨LA, LB⟩
  subst ha
  subst hq
  refine ⟨σ', hσ', ?_, ?_, ?_, ?_, ?_, ?_⟩
  · show List.Chain' (linked σ') (s :: (X ++ e :: Y) ++ [s])
    simpa using hchain
  · intro m; rw [hσ']; simp
  · intro m; rw [hσ']; simp
  · rw [hσ']; rfl
  · rw [hσ']; rfl
  · intro m h1 h2 h3
    rw [List.getLastD_eq_getLast?] at h2
    rw [List.headD_eq_head?] at h3
    rw [hσ']
    simp [setNext, setPrev, h1, h2, h3]

/-- Unlinking the node `e` from a ring (the first half of `remove` and of
`move`). -/
theorem unlink_spec {σ : State α} {s e : Nat} {A B : List Nat}
    (hr : RingOk σ s (A ++ e :: B)) (hnd : (s :: (A ++ e :: B)).Nodup) :
    prv σ e = some (A.getLastD s) ∧ nxt σ e = some (B.headD s) ∧
    ∃ σ', σ' = setPrev (setNext σ (A.getLastD s) (some (B.headD s)))
        (B.headD s) (some (A.getLastD s)) ∧
      RingOk σ' s (A ++ B) ∧
      (∀ m, own σ' m = own σ m) ∧ (∀ m, val σ' m = val σ m) ∧
      σ'.lens = σ.lens ∧ σ'.fresh = σ.fresh ∧
      (∀ m, m ≠ A.getLastD s → m ≠ B.headD s → σ'.heap m = σ.heap m) := by
  have hes : e ≠ s := by
    intro hc
    exact (List.nodup_cons.mp hnd).1 (by simp [hc])
  have heA : e ∉ A := by
    intro hc
    have h := (List.nodup_cons.mp hnd).2
    rw [List.nodup_append, List.nodup_cons] at h
    exact h.2.2 hc (by simp)
  have heB : e ∉ B := by
    have h := (List.nodup_cons.mp hnd).2
    rw [List.nodup_append, List.nodup_cons] at h
    exact fun hc => h.2.1.1 hc
  have hsA : s ∉ A := fun hc => (List.nodup_cons.mp hnd).1 (by simp [hc])
  have hsB : s ∉ B := fun hc => (List.nodup_cons.mp hnd).1 (by simp [hc])
  have hAB : ∀ m ∈ A, m ∉ B := by
    have h := (List.nodup_cons.mp hnd).2
    rw [List.nodup_append] at h
    exact fun m hm hc => h.2.2 hm (by simp [hc])
  have hpe : prv σ e = some (A.getLastD s) := hr.prv_mem rfl
  have hne2 : nxt σ e = some (B.headD s) := by
    cases B with
    | nil =>
      have h := hr.nxt_mem (A := A) (B := []) (x := e) (by simp)
      simpa using h
    | cons b0 t =>
      have h := hr.nxt_mem (A := A) (B := b0 :: t) (x := e) rfl
      simpa using h
  obtain ⟨a, ha⟩ : ∃ x, A.getLastD s = x := ⟨_, rfl⟩
  obtain ⟨q, hq⟩ : ∃ x, B.headD s = x := ⟨_, rfl⟩
  have hamem : a = s ∨ a ∈ A := by rw [← ha]; exact getLastD_mem_or A s
  have hqmem : q = s ∨ q ∈ B := by rw [← hq]; exact headD_mem_or B s
  obtain ⟨σ', hσ'⟩ : ∃ σ', σ' =
      setPrev (setNext σ a (some q)) q (some a) := ⟨_, rfl⟩
  have LA : nxt σ' a = some q := by rw [hσ']; simp
  have LB : prv σ' q = some a := by rw [hσ']; simp
  have hch : List.Chain' (linked σ) ((s :: A) ++ (e :: (B ++ [s]))) := by
    have h : List.Chain' (linked σ) (s :: (A ++ e :: B) ++ [s]) := hr
    simpa using h
  rw [List.chain'_append] at hch
  obtain ⟨chA, chRest, -⟩ := hch
  have chB : List.Chain' (linked σ) (B ++ [s]) := chRest.tail
  have chA' : List.Chain' (linked σ') (s :: A) := by
    refine chain'_linked_congr (fun m hm => ?_) (fun m hm => ?_) chA
    · have h2 : m ≠ a := by
        intro hc
        have hnsA : (s :: A).Nodup := by
          have h := hnd
          rw [List.nodup_cons] at h ⊢
          exact ⟨fun hc2 => h.1 (by simp [hc2]),
            ((List.nodup_append.mp h.2).1)⟩
        apply getLastD_cons_notMem_dropLast hnsA
        rw [ha, ← hc]
        exact hm
      rw [hσ']; simp [h2]
    · simp only [List.tail_cons] at hm
      have h2 : m ≠ q := by
        rcases hqmem with h | h
        · rw [h]; exact fun hc => hsA (hc ▸ hm)
        · exact fun hc => hAB m hm (hc ▸ h)
      rw [hσ']; simp [h2]
  have chB' : List.Chain' (linked σ') (B ++ [s]) := by
    refine chain'_linked_congr (fun m hm => ?_) (fun m hm => ?_) chB
    · rw [List.dropLast_concat] at hm
      have h2 : m ≠ a := by
        rcases hamem with h | h
        · rw [h]; exact fun hc => hsB (hc ▸ hm)
        · exact fun hc => hAB a h (hc ▸ hm)
      rw [hσ']; simp [h2]
    · cases B with
      | nil => simp at hm
      | cons b0 t =>
        have hqb0 : q = b0 := by rw [← hq]; rfl
        simp only [List.cons_append, List.tail_cons] at hm
        rw [List.mem_append, List.mem_singleton] at hm
        have hb0t : b0 ∉ t := by
          have h := (List.nodup_cons.mp hnd).2
          rw [List.nodup_append, List.nodup_cons, List.nodup_cons] at h
          exact h.2.1.2.1
        have h2 : m ≠ q := by
          rw [hqb0]
          rcases hm with h | h
          · exact fun hc => hb0t (hc ▸ h)
          · rw [h]; exact fun hc => hsB (hc ▸ List.mem_cons_self b0 t)
        rw [hσ']; simp [h2]
  have hchain : List.Chain' (linked σ') ((s :: A) ++ (B ++ [s])) := by
    rw [List.chain'_append]
    refine ⟨chA', chB', ?_⟩
    intro x hx y hy
    rw [getLast?_cons_eq, ha] at hx
    have hxv := Option.mem_some_iff.mp hx
    subst hxv
    have hyv : y = q := by
      rw [head?_append_singleton, hq] at hy
      have := hy; simp at this; exact this.symm
    subst hyv
    exact ⟨LA, LB⟩
  subst ha
  subst hq
  refine ⟨hpe, hne2, σ', hσ', ?_, ?_, ?_, ?_, ?_, ?_⟩
  · show List.Chain' (linked σ') (s :: (A ++ B) ++ [s])
    simpa using hchain
  · intro m; rw [hσ']; simp
  · intro m; rw [hσ']; simp
  · rw [hσ']; rfl
  · rw [hσ']; rfl
  · intro m h1 h2
    rw [List.getLastD_eq_getLast?] at h1
    rw [List.headD_eq_head?] at h2
    rw [hσ']
    simp [setNext, setPrev, h1, h2]


/-! ### The container invariant over public operations -/

/-- Invariant carried across public operations: the ring is well formed,
ownership marks exactly the members, and every ring node (sentinel
included) lies below the allocation watermark. -/
structure GInv (σ : State α) (s : Nat) (ids : List Nat) : Prop where
  wf : WFl σ s ids
  ownIff : ∀ m, own σ m = some s ↔ m ∈ ids
  sfresh : s < σ.fresh
  idsFresh : ∀ m ∈ ids, m < σ.fresh

theorem GInv.cast {σ : State α} {s : Nat} {ids ids' : List Nat}
    (h : GInv σ s ids) (he : ids = ids') : GInv σ s ids' := he ▸ h

/-- A list value that was never initialised and owns no node. -/
def Uninit (σ : State α) (s : Nat) : Prop :=
  nxt σ s = none ∧ own σ s = none ∧ (∀ m, own σ m ≠ some s) ∧
  σ.lens s = 0 ∧ s < σ.fresh

/-- A state change that does not touch the cells of a ring keeps it. -/
theorem RingOk.hcongr {σ σ' : State α} {s : Nat} {ids : List Nat}
    (h : RingOk σ s ids) (hagree : ∀ m, m ∈ s :: ids → σ'.heap m = σ.heap m) :
    RingOk σ' s ids := by
  refine chain'_linked_congr (fun a ha => ?_) (fun a ha => ?_) h
  · have hmem : a ∈ s :: ids := by
      have hsub : (s :: ids ++ [s]).dropLast.Sublist (s :: ids) := by
        rw [show s :: ids ++ [s] = (s :: ids) ++ [s] by simp,
          List.dropLast_concat]
      exact hsub.subset ha
    show (σ'.heap a).next = (σ.heap a).next
    rw [hagree a hmem]
  · have hmem : a ∈ s :: ids := by
      have hsub : (s :: ids ++ [s]).tail.Sublist (ids ++ [s]) := by
        simp
      have h2 := hsub.subset ha
      rw [List.mem_append, List.mem_singleton] at h2
      rcases h2 with h2 | h2
      · exact List.mem_cons_of_mem s h2
      · rw [h2]; exact List.mem_cons_self _ _
    show (σ'.heap a).prev = (σ.heap a).prev
    rw [hagree a hmem]

/-- `Init` on an uninitialised list establishes the invariant. -/
theorem Init_ginv {σ : State α} {s : Nat} (h : Uninit σ s) :
    GInv (Init σ s) s [] := by
  obtain ⟨-, hown, hnone, -, hfresh⟩ := h
  refine ⟨⟨?_, by simp, by simp, ?_, by simp [Init]⟩, ?_, ?_, by simp⟩
  · show List.Chain' (linked (Init σ s)) (s :: [] ++ [s])
    refine List.chain'_cons.mpr ⟨⟨?_, ?_⟩, List.chain'_singleton s⟩
    · show nxt (Init σ s) s = some s
      simp [Init]
    · show prv (Init σ s) s = some s
      simp [Init]
  · show own (Init σ s) s = none
    simpa [Init] using hown
  · intro m
    constructor
    · intro hc
      have hc2 : own σ m = some s := by simpa [Init] using hc
      exact absurd hc2 (hnone m)
    · intro hc
      cases hc
  · show s < (Init σ s).fresh
    simpa [Init] using hfresh

/-- A well-formed invariant state is initialised. -/
theorem lazyInit_of_ginv {σ : State α} {s : Nat} {ids : List Nat}
    (h : GInv σ s ids) : lazyInit σ s = σ := lazyInit_of_wf h.wf

/-- On an uninitialised list, `lazyInit` runs `Init`. -/
theorem lazyInit_of_uninit {σ : State α} {s : Nat} (h : Uninit σ s) :
    lazyInit σ s = Init σ s := by
  unfold lazyInit
  rw [if_pos h.1]


/-- `insertValue` after the node `X.getLastD s` of an invariant ring:
it allocates the next fresh id, splices it in place and maintains the
invariant. -/
theorem insertValue_ginv {σ : State α} {s : Nat} {ids : List Nat}
    (h : GInv σ s ids) (X Y : List Nat) (hsplit : ids = X ++ Y) (v : α) :
    ∃ σ', insertValue σ s v (some (X.getLastD s)) = some (σ', σ.fresh) ∧
      GInv σ' s (X ++ σ.fresh :: Y) ∧
      val σ' σ.fresh = v ∧
      (∀ m, m ≠ σ.fresh → val σ' m = val σ m) ∧
      (∀ t, t ≠ s → σ'.lens t = σ.lens t) ∧
      σ'.lens s = σ.lens s + 1 ∧
      σ'.fresh = σ.fresh + 1 ∧
      (∀ m, m ∉ s :: ids → m ≠ σ.fresh → σ'.heap m = σ.heap m) := by
  subst hsplit
  have hndold : (s :: (X ++ Y)).Nodup := h.wf.nodup
  have he_not : σ.fresh ∉ s :: (X ++ Y) := by
    intro hc
    rcases List.mem_cons.mp hc with hc | hc
    · have := h.sfresh
      omega
    · have := h.idsFresh _ hc
      omega
  have ha_ne : X.getLastD s ≠ σ.fresh := by
    intro hc
    apply he_not
    rw [← hc]
    rcases getLastD_mem_or X s with h2 | h2
    · rw [h2]; exact List.mem_cons_self _ _
    · exact List.mem_cons_of_mem _ (by rw [List.mem_append]; exact Or.inl h2)
  have hq_ne : Y.headD s ≠ σ.fresh := by
    intro hc
    apply he_not
    rw [← hc]
    rcases headD_mem_or Y s with h2 | h2
    · rw [h2]; exact List.mem_cons_self _ _
    · exact List.mem_cons_of_mem _ (by rw [List.mem_append]; exact Or.inr h2)
  obtain ⟨σA, hσA⟩ : ∃ t, t = (allocNode σ v).1 := ⟨_, rfl⟩
  have hA_heap : ∀ m, m ≠ σ.fresh → σA.heap m = σ.heap m := by
    intro m hm
    rw [hσA]
    simp [allocNode, hm]
  have hA_e : σA.heap σ.fresh = ⟨none, none, none, v⟩ := by
    rw [hσA]; simp [allocNode]
  have hA_fresh : σA.fresh = σ.fresh + 1 := by rw [hσA]; rfl
  have hA_lens : σA.lens = σ.lens := by rw [hσA]; rfl
  have hA_own : ∀ m, m ≠ σ.fresh → own σA m = own σ m := by
    intro m hm
    show (σA.heap m).list = (σ.heap m).list
    rw [hA_heap m hm]
  have hA_val : ∀ m, m ≠ σ.fresh → val σA m = val σ m := by
    intro m hm
    show (σA.heap m).value = (σ.heap m).value
    rw [hA_heap m hm]
  have hrA : RingOk σA s (X ++ Y) :=
    h.wf.ring.hcongr (fun m hm => hA_heap m (fun hc => he_not (hc ▸ hm)))
  obtain ⟨σL, hσL, hrL, hownL, hvalL, hlensL, hfreshL, hframeL⟩ :=
    link_spec (e := σ.fresh) hrA hndold he_not
  have hnxta : nxt σ (X.getLastD s) = some (Y.headD s) :=
    RingOk.nxt_last_left (P := X) (Y := Y) h.wf.ring
  have hnxtaA : nxt σA (X.getLastD s) = some (Y.headD s) := by
    show (σA.heap _).next = _
    rw [hA_heap _ ha_ne]
    exact hnxta
  obtain ⟨σF, hσF⟩ : ∃ t,
      t = setLen (setOwn σL σ.fresh (some s)) s (σ.lens s + 1) := ⟨_, rfl⟩
  have hr1 : nxt (setPrev σA σ.fresh (some (X.getLastD s))) (X.getLastD s) =
      some (Y.headD s) := by
    simp only [nxt_setPrev]
    exact hnxtaA
  have hr2 : prv (setNext (setPrev σA σ.fresh (some (X.getLastD s))) σ.fresh
      (some (Y.headD s))) σ.fresh = some (X.getLastD s) := by
    simp only [prv_setNext, prv_setPrev]
    simp
  have hr3 : nxt (setNext (setNext (setPrev σA σ.fresh (some (X.getLastD s)))
      σ.fresh (some (Y.headD s))) (X.getLastD s) (some σ.fresh)) σ.fresh =
      some (Y.headD s) := by
    simp only [nxt_setNext, nxt_setPrev]
    rw [if_neg (Ne.symm ha_ne)]
    simp
  have hp2 : (allocNode σ v).2 = σ.fresh := rfl
  have heval : insertValue σ s v (some (X.getLastD s)) = some (σF, σ.fresh) := by
    unfold insertValue insert
    simp only [Option.bind_eq_bind, Option.some_bind]
    rw [← hσA, hp2]
    rw [hr1, hr2]
    simp only [Option.some_bind]
    rw [hr3]
    simp only [Option.some_bind]
    rw [hσF, hσL]
    simp only [lens_setOwn, lens_setPrev, lens_setNext, hA_lens]
  have hvalF : ∀ m, val σF m = val σL m := by
    intro m
    rw [hσF]
    simp
  have hownF : ∀ m, own σF m = if m = σ.fresh then some s else own σ m := by
    intro m
    by_cases hc : m = σ.fresh
    · rw [hσF, hc]
      simp
    · rw [hσF]
      simp only [own_setLen, own_setOwn, if_neg hc]
      rw [hownL m, hA_own m hc]
  have hrF : RingOk σF s (X ++ σ.fresh :: Y) := by
    refine chain'_linked_congr (fun m _ => ?_) (fun m _ => ?_) hrL
    · rw [hσF]; simp
    · rw [hσF]; simp
  have hnd' : (s :: (X ++ σ.fresh :: Y)).Nodup := by
    have hperm : (s :: (X ++ σ.fresh :: Y)).Perm
        (s :: (σ.fresh :: (X ++ Y))) := List.perm_middle.cons s
    refine hperm.nodup_iff.mpr ?_
    rw [List.nodup_cons, List.nodup_cons]
    refine ⟨?_, fun hc => he_not (List.mem_cons_of_mem s hc),
      (List.nodup_cons.mp hndold).2⟩
    intro hc
    rcases List.mem_cons.mp hc with hc | hc
    · have := h.sfresh
      omega
    · exact (List.nodup_cons.mp hndold).1 hc
  have hlenF : σF.lens s = σ.lens s + 1 := by
    rw [hσF]
    simp
  refine ⟨σF, heval, ⟨⟨hrF, hnd', ?_, ?_, ?_⟩, ?_, ?_, ?_⟩, ?_, ?_, ?_, hlenF,
    ?_, ?_⟩
  · intro n hn
    rw [hownF n]
    by_cases hc : n = σ.fresh
    · rw [if_pos hc]
    · rw [if_neg hc]
      refine h.wf.owns n ?_
      rw [List.mem_append] at hn ⊢
      rcases hn with hn | hn
      · exact Or.inl hn
      · rcases List.mem_cons.mp hn with hn | hn
        · exact absurd hn hc
        · exact Or.inr hn
  · have hsne : s ≠ σ.fresh := by
      intro hc
      apply he_not
      rw [← hc]
      exact List.mem_cons_self _ _
    rw [hownF s, if_neg hsne]
    exact h.wf.sentOwn
  · rw [hlenF, h.wf.len]
    simp only [List.length_append, List.length_cons]
    push_cast
    ring
  · intro m
    rw [hownF m]
    by_cases hc : m = σ.fresh
    · subst hc
      simp
    · rw [if_neg hc, h.ownIff m]
      constructor
      · intro hm
        rw [List.mem_append] at hm ⊢
        rcases hm with hm | hm
        · exact Or.inl hm
        · exact Or.inr (List.mem_cons_of_mem _ hm)
      · intro hm
        rw [List.mem_append] at hm ⊢
        rcases hm with hm | hm
        · exact Or.inl hm
        · rcases List.mem_cons.mp hm with hm | hm
          · exact absurd hm hc
          · exact Or.inr hm
  · have : σF.fresh = σ.fresh + 1 := by
      rw [hσF]
      simp only [fresh_setLen, fresh_setOwn]
      rw [hfreshL, hA_fresh]
    rw [this]
    have := h.sfresh
    omega
  · intro m hm
    have hF : σF.fresh = σ.fresh + 1 := by
      rw [hσF]
      simp only [fresh_setLen, fresh_setOwn]
      rw [hfreshL, hA_fresh]
    rw [hF]
    rw [List.mem_append] at hm
    rcases hm with hm | hm
    · have := h.idsFresh m (by rw [List.mem_append]; exact Or.inl hm)
      omega
    · rcases List.mem_cons.mp hm with hm | hm
      · omega
      · have := h.idsFresh m (by rw [List.mem_append]; exact Or.inr hm)
        omega
  · rw [hvalF σ.fresh, hvalL σ.fresh]
    show (σA.heap σ.fresh).value = v
    rw [hA_e]
  · intro m hm
    rw [hvalF m, hvalL m, hA_val m hm]
  · intro t ht
    rw [hσF]
    simp only [lens_setLen, lens_setOwn]
    rw [if_neg ht, hlensL, hA_lens]
  · rw [hσF]
    simp only [fresh_setLen, fresh_setOwn]
    rw [hfreshL, hA_fresh]
  · intro m hm hme
    have hma : m ≠ X.getLastD s := by
      intro hc
      apply hm
      rcases getLastD_mem_or X s with h2 | h2
      · rw [hc, h2]; exact List.mem_cons_self _ _
      · rw [hc]
        exact List.mem_cons_of_mem _ (by rw [List.mem_append]; exact Or.inl h2)
    have hmq : m ≠ Y.headD s := by
      intro hc
      apply hm
      rcases headD_mem_or Y s with h2 | h2
      · rw [hc, h2]; exact List.mem_cons_self _ _
      · rw [hc]
        exact List.mem_cons_of_mem _ (by rw [List.mem_append]; exact Or.inr h2)
    have h1 : σF.heap m = σL.heap m := by
      rw [hσF]
      simp only [heap_setLen]
      rw [heap_setOwn_ne _ _ _ _ hme]
    rw [h1, hframeL m hme hma hmq, hA_heap m hme]


/-- `remove` of a member node keeps the invariant on the shortened ring. -/
theorem remove_ginv {σ : State α} {s : Nat} {ids : List Nat} {e : Nat}
    (h : GInv σ s ids) (X Y : List Nat) (hsplit : ids = X ++ e :: Y) :
    ∃ σ', remove σ s e = some σ' ∧ GInv σ' s (X ++ Y) ∧
      (∀ m, val σ' m = val σ m) ∧
      (∀ t, t ≠ s → σ'.lens t = σ.lens t) ∧
      σ'.lens s = σ.lens s - 1 ∧ σ'.fresh = σ.fresh ∧
      own σ' e = none ∧
      (∀ m, m ∉ s :: ids → σ'.heap m = σ.heap m) := by
  subst hsplit
  have hnd := h.wf.nodup
  have hes : e ≠ s := by
    intro hc
    exact (List.nodup_cons.mp hnd).1 (by simp [hc])
  have heX : e ∉ X := by
    intro hc
    have h2 := (List.nodup_cons.mp hnd).2
    rw [List.nodup_append, List.nodup_cons] at h2
    exact h2.2.2 hc (by simp)
  have heY : e ∉ Y := by
    have h2 := (List.nodup_cons.mp hnd).2
    rw [List.nodup_append, List.nodup_cons] at h2
    exact fun hc => h2.2.1.1 hc
  have ha_ne : X.getLastD s ≠ e := by
    intro hc
    rcases getLastD_mem_or X s with h2 | h2
    · rw [hc] at h2; exact hes h2
    · rw [hc] at h2; exact heX h2
  have hq_ne : Y.headD s ≠ e := by
    intro hc
    rcases headD_mem_or Y s with h2 | h2
    · rw [hc] at h2; exact hes h2
    · rw [hc] at h2; exact heY h2
  obtain ⟨hpe, hne2, σU, hσU, hrU, hownU, hvalU, hlensU, hfreshU, hframeU⟩ :=
    unlink_spec h.wf.ring hnd
  obtain ⟨σF, hσF⟩ : ∃ t, t = setLen (setOwn (setPrev (setNext σU e none)
      e none) e none) s (σ.lens s - 1) := ⟨_, rfl⟩
  have hq : nxt (setNext σ (X.getLastD s) (some (Y.headD s))) e =
      some (Y.headD s) := by
    simp only [nxt_setNext]
    rw [if_neg (Ne.symm ha_ne)]
    exact hne2
  have hp1 : prv (setNext σ (X.getLastD s) (some (Y.headD s))) e =
      some (X.getLastD s) := by
    simp only [prv_setNext]
    exact hpe
  have heval : remove σ s e = some σF := by
    unfold remove
    simp only [Option.bind_eq_bind, Option.some_bind]
    rw [hpe]
    simp only [Option.some_bind]
    rw [hne2, hq]
    simp only [Option.some_bind]
    rw [hp1, ← hσU, hσF]
    simp only [lens_setOwn, lens_setPrev, lens_setNext]
    rw [hlensU]
  have hheapF : ∀ m, m ≠ e → σF.heap m = σU.heap m := by
    intro m hm
    rw [hσF]
    simp only [heap_setLen]
    rw [heap_setOwn_ne _ _ _ _ hm, heap_setPrev_ne _ _ _ _ hm,
      heap_setNext_ne _ _ _ _ hm]
  have hownF : ∀ m, m ≠ e → own σF m = own σ m := by
    intro m hm
    show (σF.heap m).list = _
    rw [hheapF m hm]
    exact hownU m
  have hownFe : own σF e = none := by
    rw [hσF]
    simp
  have hvalF : ∀ m, val σF m = val σ m := by
    intro m
    rw [hσF]
    simp only [val_setLen, val_setOwn, val_setPrev, val_setNext]
    exact hvalU m
  have hrF : RingOk σF s (X ++ Y) :=
    hrU.hcongr (fun m hm => hheapF m (by
      intro hc
      rw [hc] at hm
      rcases List.mem_cons.mp hm with h2 | h2
      · exact hes h2
      · rw [List.mem_append] at h2
        rcases h2 with h2 | h2
        · exact heX h2
        · exact heY h2))
  have hsubnd : (s :: (X ++ Y)).Nodup :=
    hnd.sublist (((List.sublist_cons_self e Y).append_left X).cons₂ s)
  have hfreshF : σF.fresh = σ.fresh := by
    rw [hσF]
    simp only [fresh_setLen, fresh_setOwn, fresh_setPrev, fresh_setNext]
    exact hfreshU
  have hlenF : σF.lens s = σ.lens s - 1 := by
    rw [hσF]
    simp
  refine ⟨σF, heval, ⟨⟨hrF, hsubnd, ?_, ?_, ?_⟩, ?_, ?_, ?_⟩, hvalF, ?_, hlenF,
    hfreshF, hownFe, ?_⟩
  · intro n hn
    have hne : n ≠ e := by
      intro hc
      rw [List.mem_append] at hn
      rcases hn with hn | hn
      · exact heX (hc ▸ hn)
      · exact heY (hc ▸ hn)
    rw [hownF n hne]
    refine h.wf.owns n ?_
    rw [List.mem_append] at hn ⊢
    rcases hn with hn | hn
    · exact Or.inl hn
    · exact Or.inr (List.mem_cons_of_mem e hn)
  · rw [hownF s (Ne.symm hes)]
    exact h.wf.sentOwn
  · rw [hlenF, h.wf.len]
    simp only [List.length_append, List.length_cons]
    push_cast
    ring
  · intro m
    by_cases hc : m = e
    · subst hc
      rw [hownFe]
      constructor
      · intro hc2
        cases hc2
      · intro hc2
        rw [List.mem_append] at hc2
        rcases hc2 with hc2 | hc2
        · exact absurd hc2 heX
        · exact absurd hc2 heY
    · rw [hownF m hc, h.ownIff m]
      constructor
      · intro hm
        rw [List.mem_append] at hm ⊢
        rcases hm with hm | hm
        · exact Or.inl hm
        · rcases List.mem_cons.mp hm with hm | hm
          · exact absurd hm hc
          · exact Or.inr hm
      · intro hm
        rw [List.mem_append] at hm ⊢
        rcases hm with hm | hm
        · exact Or.inl hm
        · exact Or.inr (List.mem_cons_of_mem e hm)
  · rw [hfreshF]
    exact h.sfresh
  · intro m hm
    rw [hfreshF]
    refine h.idsFresh m ?_
    rw [List.mem_append] at hm ⊢
    rcases hm with hm | hm
    · exact Or.inl hm
    · exact Or.inr (List.mem_cons_of_mem e hm)
  · intro t ht
    rw [hσF]
    simp only [lens_setLen, lens_setOwn, lens_setPrev, lens_setNext]
    rw [if_neg ht, hlensU]
  · intro m hm
    have hme : m ≠ e := fun hc => hm (by rw [hc]; simp)
    have hma : m ≠ X.getLastD s := by
      intro hc
      apply hm
      rcases getLastD_mem_or X s with h2 | h2
      · rw [hc, h2]; exact List.mem_cons_self _ _
      · rw [hc]
        exact List.mem_cons_of_mem _ (by rw [List.mem_append]; exact Or.inl h2)
    have hmq : m ≠ Y.headD s := by
      intro hc
      apply hm
      rcases headD_mem_or Y s with h2 | h2
      · rw [hc, h2]; exact List.mem_cons_self _ _
      · rw [hc]
        exact List.mem_cons_of_mem _
          (by rw [List.mem_append]; exact Or.inr (List.mem_cons_of_mem e h2))
    rw [hheapF m hme, hframeU m hma hmq]


/-- `move` of a member node `e` to the position after the ring node
`X.getLastD s` keeps the invariant: the node is unlinked and relinked,
nothing else changes. -/
theorem move_ginv {σ : State α} {s : Nat} {ids : List Nat} {e : Nat}
    (h : GInv σ s ids) (A B X Y : List Nat) (hsplit : ids = A ++ e :: B)
    (hxy : A ++ B = X ++ Y) (hne : e ≠ X.getLastD s) :
    ∃ σ', move σ e (some (X.getLastD s)) = some σ' ∧
      GInv σ' s (X ++ e :: Y) ∧
      (∀ m, val σ' m = val σ m) ∧ (∀ m, own σ' m = own σ m) ∧
      σ'.lens = σ.lens ∧ σ'.fresh = σ.fresh ∧
      (∀ m, m ∉ s :: ids → σ'.heap m = σ.heap m) := by
  subst hsplit
  have hnd := h.wf.nodup
  have hes : e ≠ s := by
    intro hc
    exact (List.nodup_cons.mp hnd).1 (by simp [hc])
  have heA : e ∉ A := by
    intro hc
    have h2 := (List.nodup_cons.mp hnd).2
    rw [List.nodup_append, List.nodup_cons] at h2
    exact h2.2.2 hc (by simp)
  have heB : e ∉ B := by
    have h2 := (List.nodup_cons.mp hnd).2
    rw [List.nodup_append, List.nodup_cons] at h2
    exact fun hc => h2.2.1.1 hc
  have hep_ne : A.getLastD s ≠ e := by
    intro hc
    rcases getLastD_mem_or A s with h2 | h2
    · rw [hc] at h2; exact hes h2
    · rw [hc] at h2; exact heA h2
  have heq_ne : B.headD s ≠ e := by
    intro hc
    rcases headD_mem_or B s with h2 | h2
    · rw [hc] at h2; exact hes h2
    · rw [hc] at h2; exact heB h2
  obtain ⟨hpe, hne2, σU, hσU, hrU, hownU, hvalU, hlensU, hfreshU, hframeU⟩ :=
    unlink_spec h.wf.ring hnd
  have hndU : (s :: (A ++ B)).Nodup :=
    hnd.sublist (((List.sublist_cons_self e B).append_left A).cons₂ s)
  have hrU' : RingOk σU s (X ++ Y) := hrU.recast' hxy
  have hndU' : (s :: (X ++ Y)).Nodup := by
    rw [← hxy]
    exact hndU
  have he_not : e ∉ s :: (X ++ Y) := by
    rw [← hxy]
    intro hc
    rcases List.mem_cons.mp hc with hc | hc
    · exact hes hc
    · rw [List.mem_append] at hc
      rcases hc with hc | hc
      · exact heA hc
      · exact heB hc
  obtain ⟨σL, hσL, hrL, hownL, hvalL, hlensL, hfreshL, hframeL⟩ :=
    link_spec (e := e) hrU' hndU' he_not
  have hnxtUa : nxt σU (X.getLastD s) = some (Y.headD s) :=
    RingOk.nxt_last_left (P := X) (Y := Y) hrU'
  have hq : nxt (setNext σ (A.getLastD s) (some (B.headD s))) e =
      some (B.headD s) := by
    simp only [nxt_setNext]
    rw [if_neg (Ne.symm hep_ne)]
    exact hne2
  have hp1 : prv (setNext σ (A.getLastD s) (some (B.headD s))) e =
      some (A.getLastD s) := by
    simp only [prv_setNext]
    exact hpe
  have hr4 : nxt (setPrev σU e (some (X.getLastD s))) (X.getLastD s) =
      some (Y.headD s) := by
    simp only [nxt_setPrev]
    exact hnxtUa
  have hp2' : prv (setNext (setPrev σU e (some (X.getLastD s))) e
      (some (Y.headD s))) e = some (X.getLastD s) := by
    simp only [prv_setNext, prv_setPrev]
    simp
  have hq2 : nxt (setNext (setNext (setPrev σU e (some (X.getLastD s))) e
      (some (Y.headD s))) (X.getLastD s) (some e)) e = some (Y.headD s) := by
    simp only [nxt_setNext, nxt_setPrev]
    rw [if_neg hne]
    simp
  have heval : move σ e (some (X.getLastD s)) = some σL := by
    unfold move
    rw [if_neg (by simpa using hne)]
    simp only [Option.bind_eq_bind, Option.some_bind]
    rw [hpe]
    simp only [Option.some_bind]
    rw [hne2, hq]
    simp only [Option.some_bind]
    rw [hp1, ← hσU]
    rw [hr4, hp2']
    simp only [Option.some_bind]
    rw [hq2]
    simp only [Option.some_bind]
    rw [← hσL]
  have hperm : (X ++ e :: Y).Perm (A ++ e :: B) := by
    refine List.perm_middle.trans ?_
    rw [← hxy]
    exact List.perm_middle.symm
  have hownF : ∀ m, own σL m = own σ m := fun m =>
    (hownL m).trans (hownU m)
  have hvalF : ∀ m, val σL m = val σ m := fun m =>
    (hvalL m).trans (hvalU m)
  have hlensF : σL.lens = σ.lens := hlensL.trans hlensU
  have hfreshF : σL.fresh = σ.fresh := hfreshL.trans hfreshU
  refine ⟨σL, heval, ⟨⟨hrL, ?_, ?_, ?_, ?_⟩, ?_, ?_, ?_⟩, hvalF, hownF, hlensF,
    hfreshF, ?_⟩
  · exact ((hperm.cons s).nodup_iff).mpr hnd
  · intro n hn
    rw [hownF n]
    exact h.wf.owns n (hperm.mem_iff.mp hn)
  · rw [hownF s]
    exact h.wf.sentOwn
  · rw [show σL.lens s = σ.lens s from by rw [hlensF], h.wf.len,
      hperm.length_eq]
  · intro m
    rw [hownF m, h.ownIff m]
    exact ⟨fun hm => hperm.mem_iff.mpr hm, fun hm => hperm.mem_iff.mp hm⟩
  · rw [hfreshF]
    exact h.sfresh
  · intro m hm
    rw [hfreshF]
    exact h.idsFresh m (hperm.mem_iff.mp hm)
  · intro m hm
    have hme : m ≠ e := fun hc => hm (by rw [hc]; simp)
    have hmemT : ∀ k, k ∈ s :: (X ++ Y) → m ≠ k := by
      intro k hk hc
      subst hc
      apply hm
      rcases List.mem_cons.mp hk with hk | hk
      · rw [hk]; exact List.mem_cons_self _ _
      · rw [← hxy, List.mem_append] at hk
        rcases hk with hk | hk
        · exact List.mem_cons_of_mem _ (by rw [List.mem_append]; exact Or.inl hk)
        · exact List.mem_cons_of_mem _
            (by rw [List.mem_append]; exact Or.inr (List.mem_cons_of_mem e hk))
    have hma : m ≠ X.getLastD s := by
      rcases getLastD_mem_or X s with h2 | h2
      · rw [h2]; exact hmemT s (List.mem_cons_self _ _)
      · exact hmemT _ (List.mem_cons_of_mem _ (by rw [List.mem_append]; exact Or.inl h2))
    have hmaq : m ≠ Y.headD s := by
      rcases headD_mem_or Y s with h2 | h2
      · rw [h2]; exact hmemT s (List.mem_cons_self _ _)
      · exact hmemT _ (List.mem_cons_of_mem _ (by rw [List.mem_append]; exact Or.inr h2))
    have hmep : m ≠ A.getLastD s := by
      intro hc
      apply hm
      rcases getLastD_mem_or A s with h2 | h2
      · rw [hc, h2]; exact List.mem_cons_self _ _
      · rw [hc]
        exact List.mem_cons_of_mem _ (by rw [List.mem_append]; exact Or.inl h2)
    have hmeq2 : m ≠ B.headD s := by
      intro hc
      apply hm
      rcases headD_mem_or B s with h2 | h2
      · rw [hc, h2]; exact List.mem_cons_self _ _
      · rw [hc]
        exact List.mem_cons_of_mem _
          (by rw [List.mem_append]; exact Or.inr (List.mem_cons_of_mem e h2))
    rw [hframeL m hme hma hmaq, hframeU m hmep hmeq2]


/-! ### Sequences of public operations -/

/-- One public operation of the list API, with arbitrary node arguments;
the sort carries the comparator together with its validity, as the sort
contract requires. -/
inductive PubOp (α : Type) where
  | pushFront (v : α)
  | pushBack (v : α)
  | insertBefore (v : α) (mark : Nat)
  | insertAfter (v : α) (mark : Nat)
  | remove (e : Nat)
  | moveToFront (e : Nat)
  | moveToBack (e : Nat)
  | moveBefore (e mark : Nat)
  | moveAfter (e mark : Nat)
  | pushBackListSelf
  | pushFrontListSelf
  | quickSort (cmp : α → α → Int) (hv : Valid cmp)

/-- Run one public operation on list `l`, discarding auxiliary results;
the sort gets the fuel its termination bound prescribes. -/
def runOp (σ : State α) (l : Nat) : PubOp α → Option (State α)
  | .pushFront v => (PushFront σ l v).map Prod.fst
  | .pushBack v => (PushBack σ l v).map Prod.fst
  | .insertBefore v mark => (InsertBefore σ l v mark).map Prod.fst
  | .insertAfter v mark => (InsertAfter σ l v mark).map Prod.fst
  | .remove e => (Remove σ l e).map Prod.fst
  | .moveToFront e => MoveToFront σ l e
  | .moveToBack e => MoveToBack σ l e
  | .moveBefore e mark => MoveBefore σ l e mark
  | .moveAfter e mark => MoveAfter σ l e mark
  | .pushBackListSelf => PushBackList σ l l
  | .pushFrontListSelf => PushFrontList σ l l
  | .quickSort cmp _ => QuickSort σ l cmp (qsortFuel (Len σ l).toNat)

/-- Run a sequence of public operations. -/
def runOps (σ : State α) (l : Nat) : List (PubOp α) → Option (State α)
  | [] => some σ
  | op :: ops => do
    let σ' ← runOp σ l op
    runOps σ' l ops

/-- The untyped all-default starting state: an uninitialised empty list. -/
def initState (a0 : α) (f0 : Nat) : State α :=
  { heap := fun _ => ⟨none, none, none, a0⟩,
    lens := fun _ => 0,
    fresh := f0 }

/-- The invariant that survives every public operation. -/
def Inv (σ : State α) (s : Nat) : Prop :=
  Uninit σ s ∨ ∃ ids, GInv σ s ids

theorem initState_uninit (a0 : α) {f0 s : Nat} (h : s < f0) :
    Uninit (initState a0 f0) s :=
  ⟨rfl, rfl, fun _ => by simp [initState, own], rfl, h⟩

/-- Two distinct members of a list split it in one of two orders. -/
theorem mem_mem_split {a b : Nat} {l : List Nat} (ha : a ∈ l) (hb : b ∈ l)
    (hab : a ≠ b) :
    (∃ P1 P2 P3, l = P1 ++ a :: (P2 ++ b :: P3)) ∨
    (∃ P1 P2 P3, l = P1 ++ b :: (P2 ++ a :: P3)) := by
  obtain ⟨X, Y, rfl⟩ := List.append_of_mem ha
  rw [List.mem_append, List.mem_cons] at hb
  rcases hb with hb | hb | hb
  · obtain ⟨X1, X2, rfl⟩ := List.append_of_mem hb
    right
    exact ⟨X1, X2, Y, by simp⟩
  · exact absurd hb.symm hab
  · obtain ⟨Y1, Y2, rfl⟩ := List.append_of_mem hb
    left
    exact ⟨X, Y1, Y2, rfl⟩

/-- Ring consistency: every member has `e.next.prev = e` and
`e.prev.next = e`. -/
theorem WFl.ring_consistent {σ : State α} {s : Nat} {ids : List Nat}
    (hw : WFl σ s ids) : ∀ e ∈ ids,
      (∃ n, nxt σ e = some n ∧ prv σ n = some e) ∧
      (∃ p, prv σ e = some p ∧ nxt σ p = some e) := by
  intro e he
  obtain ⟨A, B, rfl⟩ := List.append_of_mem he
  refine ⟨⟨B.headD s, hw.ring.nxt_mem rfl, hw.ring.prv_after rfl⟩,
    ⟨A.getLastD s, hw.ring.prv_mem rfl, ?_⟩⟩
  have h := RingOk.nxt_last_left (P := A) (Y := e :: B)
    (hw.ring.recast' rfl)
  rw [h, List.headD_cons]

/-- Under the invariant `Front` is the head of the member list. -/
theorem Front_eq_head {σ : State α} {s : Nat} {ids : List Nat}
    (hw : WFl σ s ids) : Front σ s = ids.head? := by
  cases ids with
  | nil =>
    unfold Front
    rw [hw.len]
    simp
  | cons x t =>
    unfold Front
    rw [hw.len, if_neg (by intro hc; simp only [List.length_cons] at hc; omega),
      hw.ring.nxt_sent, List.headD_cons, List.head?_cons]

/-- Under the invariant `Back` is the last member. -/
theorem Back_eq_getLast {σ : State α} {s : Nat} {ids : List Nat}
    (hw : WFl σ s ids) : Back σ s = ids.getLast? := by
  cases ids with
  | nil =>
    unfold Back
    rw [hw.len]
    simp
  | cons x t =>
    unfold Back
    rw [hw.len, if_neg (by intro hc; simp only [List.length_cons] at hc; omega),
      hw.ring.prv_sent, getLast?_cons_eq, List.getLastD_cons]

/-- Under the invariant the stored length counts the members. -/
theorem Len_toNat {σ : State α} {s : Nat} {ids : List Nat}
    (hw : WFl σ s ids) : (Len σ s).toNat = ids.length := by
  unfold Len
  rw [hw.len]
  exact Int.toNat_natCast _


/-- The `PushBackList` loop keeps the invariant: cursor at the head of the
unprocessed original segment, one insert at the back per step. -/
theorem pushBackListLoop_ginv {s : Nat} :
    ∀ (i : Nat) (σ : State α) (A B : List Nat), GInv σ s (A ++ B) →
      i ≤ B.length →
      ∃ σ' ids', pushBackListLoop s i σ B.head? = some σ' ∧ GInv σ' s ids' := by
  intro i
  induction i with
  | zero => exact fun σ A B h _ => ⟨σ, A ++ B, rfl, h⟩
  | succ i ih =>
    intro σ A B h hlen
    cases B with
    | nil => simp at hlen
    | cons b Bt =>
      have hprv : prv σ s = some ((A ++ b :: Bt).getLastD s) :=
        h.wf.ring.prv_sent
      obtain ⟨σ1, heval, hg1, -, -, -, -, -, -⟩ :=
        insertValue_ginv h (A ++ b :: Bt) [] (by simp) (val σ b)
      have hg1n : GInv σ1 s (A ++ b :: (Bt ++ [σ.fresh])) := hg1.cast (by simp)
      have hnext : NextE σ1 b = (Bt ++ [σ.fresh]).head? :=
        hg1n.wf.NextE_eq rfl
      obtain ⟨σ', ids', hrun, hginv⟩ :=
        ih σ1 (A ++ [b]) (Bt ++ [σ.fresh]) (hg1.cast (by simp))
          (by simp only [List.length_cons, Nat.succ_le_succ_iff] at hlen
              simp only [List.length_append, List.length_cons,
                List.length_nil]
              omega)
      refine ⟨σ', ids', ?_, hginv⟩
      rw [pushBackListLoop]
      simp only [List.head?_cons, Option.bind_eq_bind, Option.some_bind]
      rw [hprv, heval]
      simp only [Option.some_bind]
      show pushBackListLoop s i σ1 (NextE σ1 b) = some σ'
      rw [hnext]
      exact hrun

/-- The `PushFrontList` loop keeps the invariant: cursor at the last of the
unprocessed original segment, one insert at the front per step. -/
theorem pushFrontListLoop_ginv {s : Nat} :
    ∀ (i : Nat) (σ : State α) (A B : List Nat), GInv σ s (A ++ B) →
      i ≤ A.length →
      ∃ σ' ids', pushFrontListLoop s i σ A.getLast? = some σ' ∧ GInv σ' s ids' := by
  intro i
  induction i with
  | zero => exact fun σ A B h _ => ⟨σ, A ++ B, rfl, h⟩
  | succ i ih =>
    intro σ A B h hlen
    cases A using List.reverseRecOn with
    | nil => simp at hlen
    | append_singleton At a =>
      have hcur : (At ++ [a]).getLast? = some a := by simp
      obtain ⟨σ1, heval0, hg1, -, -, -, -, -, -⟩ :=
        insertValue_ginv h [] ((At ++ [a]) ++ B) rfl (val σ a)
      have heval : insertValue σ s (val σ a) (some s) = some (σ1, σ.fresh) :=
        heval0
      have hg1n : GInv σ1 s ((σ.fresh :: At) ++ a :: B) := hg1.cast (by simp)
      have hprev : PrevE σ1 a = (σ.fresh :: At).getLast? :=
        hg1n.wf.PrevE_eq rfl
      obtain ⟨σ', ids', hrun, hginv⟩ :=
        ih σ1 (σ.fresh :: At) (a :: B) hg1n
          (by simp only [List.length_append, List.length_cons,
                List.length_nil] at hlen
              simp only [List.length_cons]
              omega)
      refine ⟨σ', ids', ?_, hginv⟩
      rw [pushFrontListLoop, hcur]
      simp only [Option.bind_eq_bind, Option.some_bind]
      rw [heval]
      simp only [Option.some_bind]
      show pushFrontListLoop s i σ1 (PrevE σ1 a) = some σ'
      rw [hprev]
      exact hrun


theorem WFl.mem_ne_sent {σ : State α} {s : Nat} {ids : List Nat}
    (hw : WFl σ s ids) {e : Nat} (he : e ∈ ids) : e ≠ s := by
  intro hc
  rw [hc] at he
  exact hw.sent_notMem he

theorem nodup_mid_notMem {e : Nat} {A M : List Nat}
    (h : (A ++ e :: M).Nodup) : e ∉ A ∧ e ∉ M := by
  rw [List.nodup_append, List.nodup_cons] at h
  exact ⟨fun he => h.2.2 he (List.mem_cons_self e M), h.2.1.1⟩

theorem ne_getLastD_of_notMem {e s : Nat} {P : List Nat}
    (hs : e ≠ s) (hP : e ∉ P) : e ≠ P.getLastD s := by
  intro hc
  cases P using List.reverseRecOn with
  | nil => exact hs hc
  | append_singleton P0 p =>
    rw [getLastD_append_cons, List.getLastD_nil] at hc
    exact hP (by rw [hc]; simp)

/-- `PushFront` always succeeds and keeps the invariant. -/
theorem PushFront_inv {σ : State α} {s : Nat} (h : Inv σ s) (v : α) :
    ∃ r, PushFront σ s v = some r ∧ Inv r.1 s := by
  rcases h with hun | ⟨ids, hg⟩
  · obtain ⟨σ', heval, hg', -, -, -, -, -, -⟩ :=
      insertValue_ginv (Init_ginv hun) [] [] rfl v
    refine ⟨(σ', (Init σ s).fresh), ?_, Or.inr ⟨_, hg'⟩⟩
    show insertValue (lazyInit σ s) s v (some s) = _
    rw [lazyInit_of_uninit hun]
    exact heval
  · obtain ⟨σ', heval, hg', -, -, -, -, -, -⟩ :=
      insertValue_ginv hg [] ids rfl v
    refine ⟨(σ', σ.fresh), ?_, Or.inr ⟨_, hg'⟩⟩
    show insertValue (lazyInit σ s) s v (some s) = _
    rw [lazyInit_of_ginv hg]
    exact heval

/-- `PushBack` always succeeds and keeps the invariant. -/
theorem PushBack_inv {σ : State α} {s : Nat} (h : Inv σ s) (v : α) :
    ∃ r, PushBack σ s v = some r ∧ Inv r.1 s := by
  rcases h with hun | ⟨ids, hg⟩
  · obtain ⟨σ', heval, hg', -, -, -, -, -, -⟩ :=
      insertValue_ginv (Init_ginv hun) [] [] rfl v
    refine ⟨(σ', (Init σ s).fresh), ?_, Or.inr ⟨_, hg'⟩⟩
    show insertValue (lazyInit σ s) s v (prv (lazyInit σ s) s) = _
    rw [lazyInit_of_uninit hun]
    have hp : prv (Init σ s) s = some s := by simp [Init]
    rw [hp]
    exact heval
  · obtain ⟨σ', heval, hg', -, -, -, -, -, -⟩ :=
      insertValue_ginv hg ids [] (by simp) v
    refine ⟨(σ', σ.fresh), ?_, Or.inr ⟨_, hg'⟩⟩
    show insertValue (lazyInit σ s) s v (prv (lazyInit σ s) s) = _
    rw [lazyInit_of_ginv hg, hg.wf.ring.prv_sent]
    exact heval

/-- `InsertBefore` always succeeds and keeps the invariant. -/
theorem InsertBefore_inv {σ : State α} {s : Nat} (h : Inv σ s) (v : α)
    (mark : Nat) :
    ∃ r, InsertBefore σ s v mark = some r ∧ Inv r.1 s := by
  by_cases hguard : own σ mark = some s
  · rcases h with hun | ⟨ids, hg⟩
    · exact absurd hguard (hun.2.2.1 mark)
    · obtain ⟨Am, Bm, rfl⟩ := List.append_of_mem ((hg.ownIff mark).mp hguard)
      have hp : prv σ mark = some (Am.getLastD s) := hg.wf.ring.prv_mem rfl
      obtain ⟨σ', heval, hg', -, -, -, -, -, -⟩ :=
        insertValue_ginv hg Am (mark :: Bm) rfl v
      refine ⟨(σ', some σ.fresh), ?_, Or.inr ⟨_, hg'⟩⟩
      unfold InsertBefore
      rw [if_neg (not_not_intro hguard)]
      simp only [Option.bind_eq_bind]
      rw [hp, heval]
      rfl
  · exact ⟨(σ, none), by unfold InsertBefore; rw [if_pos hguard], h⟩

/-- `InsertAfter` always succeeds and keeps the invariant. -/
theorem InsertAfter_inv {σ : State α} {s : Nat} (h : Inv σ s) (v : α)
    (mark : Nat) :
    ∃ r, InsertAfter σ s v mark = some r ∧ Inv r.1 s := by
  by_cases hguard : own σ mark = some s
  · rcases h with hun | ⟨ids, hg⟩
    · exact absurd hguard (hun.2.2.1 mark)
    · obtain ⟨Am, Bm, rfl⟩ := List.append_of_mem ((hg.ownIff mark).mp hguard)
      obtain ⟨σ', heval, hg', -, -, -, -, -, -⟩ :=
        insertValue_ginv hg (Am ++ [mark]) Bm (by simp) v
      rw [show (Am ++ [mark]).getLastD s = mark from by
        rw [getLastD_append_cons]; rfl] at heval
      refine ⟨(σ', some σ.fresh), ?_, Or.inr ⟨_, hg'⟩⟩
      unfold InsertAfter
      rw [if_neg (not_not_intro hguard)]
      simp only [Option.bind_eq_bind]
      rw [heval]
      rfl
  · exact ⟨(σ, none), by unfold InsertAfter; rw [if_pos hguard], h⟩

/-- `Remove` always succeeds and keeps the invariant. -/
theorem Remove_inv {σ : State α} {s : Nat} (h : Inv σ s) (e : Nat) :
    ∃ r, Remove σ s e = some r ∧ Inv r.1 s := by
  by_cases hguard : own σ e = some s
  · rcases h with hun | ⟨ids, hg⟩
    · exact absurd hguard (hun.2.2.1 e)
    · obtain ⟨X, Y, rfl⟩ := List.append_of_mem ((hg.ownIff e).mp hguard)
      obtain ⟨σ', heval, hg', -, -, -, -, -, -⟩ := remove_ginv hg X Y rfl
      refine ⟨(σ', val σ' e), ?_, Or.inr ⟨_, hg'⟩⟩
      unfold Remove
      rw [if_pos hguard]
      simp only [Option.bind_eq_bind]
      rw [heval]
      rfl
  · exact ⟨(σ, val σ e), by unfold Remove; rw [if_neg hguard], h⟩


/-- `MoveToFront` always succeeds and keeps the invariant. -/
theorem MoveToFront_inv {σ : State α} {s : Nat} (h : Inv σ s) (e : Nat) :
    ∃ σ2, MoveToFront σ s e = some σ2 ∧ Inv σ2 s := by
  by_cases hguard : own σ e ≠ some s ∨ nxt σ s = some e
  · exact ⟨σ, by unfold MoveToFront; rw [if_pos hguard], h⟩
  · push_neg at hguard
    obtain ⟨hown, hfront⟩ := hguard
    rcases h with hun | ⟨ids, hg⟩
    · exact absurd hown (hun.2.2.1 e)
    · obtain ⟨A, B, rfl⟩ := List.append_of_mem ((hg.ownIff e).mp hown)
      have hes : e ≠ s := hg.wf.mem_ne_sent (by simp)
      obtain ⟨σ', heval0, hg', -, -, -, -, -⟩ :=
        move_ginv hg A B [] (A ++ B) rfl rfl hes
      have heval : move σ e (some s) = some σ' := heval0
      refine ⟨σ', ?_, Or.inr ⟨_, hg'⟩⟩
      unfold MoveToFront
      rw [if_neg (by push_neg; exact ⟨hown, hfront⟩)]
      exact heval

/-- `MoveToBack` always succeeds and keeps the invariant. -/
theorem MoveToBack_inv {σ : State α} {s : Nat} (h : Inv σ s) (e : Nat) :
    ∃ σ2, MoveToBack σ s e = some σ2 ∧ Inv σ2 s := by
  by_cases hguard : own σ e ≠ some s ∨ prv σ s = some e
  · exact ⟨σ, by unfold MoveToBack; rw [if_pos hguard], h⟩
  · push_neg at hguard
    obtain ⟨hown, hback⟩ := hguard
    rcases h with hun | ⟨ids, hg⟩
    · exact absurd hown (hun.2.2.1 e)
    · obtain ⟨A, B, rfl⟩ := List.append_of_mem ((hg.ownIff e).mp hown)
      have hp : prv σ s = some ((A ++ e :: B).getLastD s) :=
        hg.wf.ring.prv_sent
      cases B with
      | nil =>
        exfalso
        apply hback
        rw [hp, getLastD_append_cons, List.getLastD_nil]
      | cons b0 Bt =>
        have hnm := nodup_mid_notMem (List.nodup_cons.mp hg.wf.nodup).2
        have hes : e ≠ s := hg.wf.mem_ne_sent (by simp)
        have hne : e ≠ (A ++ b0 :: Bt).getLastD s :=
          ne_getLastD_of_notMem hes (by
            rw [List.mem_append]
            rintro (hc | hc)
            · exact hnm.1 hc
            · exact hnm.2 hc)
        have hlast : (A ++ e :: b0 :: Bt).getLastD s
            = (A ++ b0 :: Bt).getLastD s := by
          rw [getLastD_append_cons, getLastD_append_cons, List.getLastD_cons]
        obtain ⟨σ', heval, hg', -, -, -, -, -⟩ :=
          move_ginv hg A (b0 :: Bt) (A ++ b0 :: Bt) [] rfl (by simp) hne
        refine ⟨σ', ?_, Or.inr ⟨_, hg'⟩⟩
        unfold MoveToBack
        rw [if_neg (by push_neg; exact ⟨hown, hback⟩), hp, hlast]
        exact heval

/-- `MoveBefore` always succeeds and keeps the invariant. -/
theorem MoveBefore_inv {σ : State α} {s : Nat} (h : Inv σ s) (e mark : Nat) :
    ∃ σ2, MoveBefore σ s e mark = some σ2 ∧ Inv σ2 s := by
  by_cases hguard : own σ e ≠ some s ∨ e = mark ∨ own σ mark ≠ some s
  · exact ⟨σ, by unfold MoveBefore; rw [if_pos hguard], h⟩
  · push_neg at hguard
    obtain ⟨hown, hem, hmark⟩ := hguard
    rcases h with hun | ⟨ids, hg⟩
    · exact absurd hown (hun.2.2.1 e)
    · rcases mem_mem_split ((hg.ownIff e).mp hown) ((hg.ownIff mark).mp hmark)
        hem with ⟨P1, P2, P3, hid⟩ | ⟨P1, P2, P3, hid⟩
      · have hgd := hg.cast hid
        have hp : prv σ mark = some ((P1 ++ e :: P2).getLastD s) :=
          hgd.wf.ring.prv_mem (show P1 ++ e :: (P2 ++ mark :: P3)
            = (P1 ++ e :: P2) ++ mark :: P3 by simp)
        cases P2 with
        | nil =>
          have hpe : prv σ mark = some e := by
            rw [hp, getLastD_append_cons, List.getLastD_nil]
          refine ⟨σ, ?_, Or.inr ⟨ids, hg⟩⟩
          unfold MoveBefore
          rw [if_neg (by push_neg; exact ⟨hown, hem, hmark⟩), hpe]
          unfold move
          rw [if_pos rfl]
        | cons p0 P2t =>
          have hnm := nodup_mid_notMem (List.nodup_cons.mp hgd.wf.nodup).2
          have hes : e ≠ s := hgd.wf.mem_ne_sent (by simp)
          have hne : e ≠ (P1 ++ p0 :: P2t).getLastD s :=
            ne_getLastD_of_notMem hes (by
              rw [List.mem_append]
              rintro (hc | hc)
              · exact hnm.1 hc
              · exact hnm.2 (List.mem_append_left _ hc))
          have hp2 : prv σ mark = some ((P1 ++ p0 :: P2t).getLastD s) := by
            rw [hp, getLastD_append_cons, getLastD_append_cons,
              List.getLastD_cons]
          obtain ⟨σ', heval, hg', -, -, -, -, -⟩ :=
            move_ginv hgd P1 ((p0 :: P2t) ++ mark :: P3) (P1 ++ p0 :: P2t)
              (mark :: P3) rfl (by simp) hne
          refine ⟨σ', ?_, Or.inr ⟨_, hg'⟩⟩
          unfold MoveBefore
          rw [if_neg (by push_neg; exact ⟨hown, hem, hmark⟩), hp2]
          exact heval
      · have hgd := hg.cast hid
        have hgd2 := hg.cast (hid.trans (by simp :
          P1 ++ mark :: (P2 ++ e :: P3) = (P1 ++ mark :: P2) ++ e :: P3))
        have hnm := nodup_mid_notMem (List.nodup_cons.mp hgd2.wf.nodup).2
        have hes : e ≠ s := hgd.wf.mem_ne_sent (by simp)
        have hne : e ≠ P1.getLastD s :=
          ne_getLastD_of_notMem hes
            (fun hc => hnm.1 (List.mem_append_left _ hc))
        have hp : prv σ mark = some (P1.getLastD s) :=
          hgd.wf.ring.prv_mem rfl
        obtain ⟨σ', heval, hg', -, -, -, -, -⟩ :=
          move_ginv hgd2 (P1 ++ mark :: P2) P3 P1 (mark :: (P2 ++ P3))
            rfl (by simp) hne
        refine ⟨σ', ?_, Or.inr ⟨_, hg'⟩⟩
        unfold MoveBefore
        rw [if_neg (by push_neg; exact ⟨hown, hem, hmark⟩), hp]
        exact heval

/-- `MoveAfter` always succeeds and keeps the invariant. -/
theorem MoveAfter_inv {σ : State α} {s : Nat} (h : Inv σ s) (e mark : Nat) :
    ∃ σ2, MoveAfter σ s e mark = some σ2 ∧ Inv σ2 s := by
  by_cases hguard : own σ e ≠ some s ∨ e = mark ∨ own σ mark ≠ some s
  · exact ⟨σ, by unfold MoveAfter; rw [if_pos hguard], h⟩
  · push_neg at hguard
    obtain ⟨hown, hem, hmark⟩ := hguard
    rcases h with hun | ⟨ids, hg⟩
    · exact absurd hown (hun.2.2.1 e)
    · rcases mem_mem_split ((hg.ownIff e).mp hown) ((hg.ownIff mark).mp hmark)
        hem with ⟨P1, P2, P3, hid⟩ | ⟨P1, P2, P3, hid⟩
      · have hgd := hg.cast hid
        have hXl : ((P1 ++ P2) ++ [mark]).getLastD s = mark := by
          rw [getLastD_append_cons]; rfl
        have hne : e ≠ ((P1 ++ P2) ++ [mark]).getLastD s := by
          rw [hXl]; exact hem
        obtain ⟨σ', heval0, hg', -, -, -, -, -⟩ :=
          move_ginv hgd P1 (P2 ++ mark :: P3) ((P1 ++ P2) ++ [mark]) P3
            rfl (by simp) hne
        rw [hXl] at heval0
        refine ⟨σ', ?_, Or.inr ⟨_, hg'⟩⟩
        unfold MoveAfter
        rw [if_neg (by push_neg; exact ⟨hown, hem, hmark⟩)]
        exact heval0
      · have hgd := hg.cast (hid.trans (by simp :
          P1 ++ mark :: (P2 ++ e :: P3) = (P1 ++ mark :: P2) ++ e :: P3))
        have hXl : (P1 ++ [mark]).getLastD s = mark := by
          rw [getLastD_append_cons]; rfl
        have hne : e ≠ (P1 ++ [mark]).getLastD s := by
          rw [hXl]; exact hem
        obtain ⟨σ', heval0, hg', -, -, -, -, -⟩ :=
          move_ginv hgd (P1 ++ mark :: P2) P3 (P1 ++ [mark]) (P2 ++ P3)
            rfl (by simp) hne
        rw [hXl] at heval0
        refine ⟨σ', ?_, Or.inr ⟨_, hg'⟩⟩
        unfold MoveAfter
        rw [if_neg (by push_neg; exact ⟨hown, hem, hmark⟩)]
        exact heval0


/-- `PushBackList` of a list onto itself succeeds and keeps the invariant. -/
theorem PushBackListSelf_inv {σ : State α} {s : Nat} (h : Inv σ s) :
    ∃ σ2, PushBackList σ s s = some σ2 ∧ Inv σ2 s := by
  rcases h with hun | ⟨ids, hg⟩
  · refine ⟨Init σ s, ?_, Or.inr ⟨[], Init_ginv hun⟩⟩
    show pushBackListLoop s (Len (lazyInit σ s) s).toNat (lazyInit σ s)
      (Front (lazyInit σ s) s) = some (Init σ s)
    rw [lazyInit_of_uninit hun]
    have hlen : (Len (Init σ s) s).toNat = 0 := by simp [Len, Init]
    rw [hlen]
    rfl
  · obtain ⟨σ', ids', hrun, hg'⟩ :=
      pushBackListLoop_ginv ids.length σ [] ids hg (le_refl _)
    refine ⟨σ', ?_, Or.inr ⟨_, hg'⟩⟩
    show pushBackListLoop s (Len (lazyInit σ s) s).toNat (lazyInit σ s)
      (Front (lazyInit σ s) s) = some σ'
    rw [lazyInit_of_ginv hg, Len_toNat hg.wf, Front_eq_head hg.wf]
    exact hrun

/-- `PushFrontList` of a list onto itself succeeds and keeps the invariant. -/
theorem PushFrontListSelf_inv {σ : State α} {s : Nat} (h : Inv σ s) :
    ∃ σ2, PushFrontList σ s s = some σ2 ∧ Inv σ2 s := by
  rcases h with hun | ⟨ids, hg⟩
  · refine ⟨Init σ s, ?_, Or.inr ⟨[], Init_ginv hun⟩⟩
    show pushFrontListLoop s (Len (lazyInit σ s) s).toNat (lazyInit σ s)
      (Back (lazyInit σ s) s) = some (Init σ s)
    rw [lazyInit_of_uninit hun]
    have hlen : (Len (Init σ s) s).toNat = 0 := by simp [Len, Init]
    rw [hlen]
    rfl
  · obtain ⟨σ', ids', hrun, hg'⟩ :=
      pushFrontListLoop_ginv ids.length σ ids [] (hg.cast (by simp))
        (le_refl _)
    refine ⟨σ', ?_, Or.inr ⟨_, hg'⟩⟩
    show pushFrontListLoop s (Len (lazyInit σ s) s).toNat (lazyInit σ s)
      (Back (lazyInit σ s) s) = some σ'
    rw [lazyInit_of_ginv hg, Len_toNat hg.wf, Back_eq_getLast hg.wf]
    exact hrun

/-- `QuickSort` with a valid comparator and its prescribed fuel succeeds
and keeps the invariant. -/
theorem QuickSortOp_inv {σ : State α} {s : Nat} (h : Inv σ s)
    {cmp : α → α → Int} (hv : Valid cmp) :
    ∃ σ2, QuickSort σ s cmp (qsortFuel (Len σ s).toNat) = some σ2 ∧
      Inv σ2 s := by
  rcases h with hun | ⟨ids, hg⟩
  · refine ⟨Init σ s, ?_, Or.inr ⟨[], Init_ginv hun⟩⟩
    have hlen : (Len σ s).toNat = 0 := by
      rw [Len, hun.2.2.2.1]; rfl
    rw [hlen]
    show _qsort cmp (qsortFuel 0) (lazyInit σ s) (Front (lazyInit σ s) s)
      (Back (lazyInit σ s) s) = some (Init σ s)
    rw [lazyInit_of_uninit hun]
    have hfr : Front (Init σ s) s = none := by unfold Front; simp [Init]
    have hbk : Back (Init σ s) s = none := by unfold Back; simp [Init]
    rw [hfr, hbk]
    rfl
  · have hlen : (Len σ s).toNat = ids.length := Len_toNat hg.wf
    obtain ⟨σ', ids', hrun, hwf', hperm, -, -, hown, hlens, hfresh, -⟩ :=
      QuickSort_spec hv hg.wf (show qsortFuel ids.length
        ≤ qsortFuel (Len σ s).toNat by rw [hlen])
    refine ⟨σ', hrun, Or.inr ⟨ids', hwf', ?_, ?_, ?_⟩⟩
    · intro m
      rw [hown m, hg.ownIff m]
      exact hperm.mem_iff.symm
    · rw [hfresh]
      exact hg.sfresh
    · intro m hm
      rw [hfresh]
      exact hg.idsFresh m (hperm.subset hm)

/-- Every public operation succeeds and keeps the invariant. -/
theorem runOp_inv {σ : State α} {s : Nat} (h : Inv σ s) (op : PubOp α) :
    ∃ σ', runOp σ s op = some σ' ∧ Inv σ' s := by
  cases op with
  | pushFront v =>
    obtain ⟨r, he, hi⟩ := PushFront_inv h v
    refine ⟨r.1, ?_, hi⟩
    show (PushFront σ s v).map Prod.fst = some r.1
    rw [he]
    rfl
  | pushBack v =>
    obtain ⟨r, he, hi⟩ := PushBack_inv h v
    refine ⟨r.1, ?_, hi⟩
    show (PushBack σ s v).map Prod.fst = some r.1
    rw [he]
    rfl
  | insertBefore v mark =>
    obtain ⟨r, he, hi⟩ := InsertBefore_inv h v mark
    refine ⟨r.1, ?_, hi⟩
    show (InsertBefore σ s v mark).map Prod.fst = some r.1
    rw [he]
    rfl
  | insertAfter v mark =>
    obtain ⟨r, he, hi⟩ := InsertAfter_inv h v mark
    refine ⟨r.1, ?_, hi⟩
    show (InsertAfter σ s v mark).map Prod.fst = some r.1
    rw [he]
    rfl
  | remove e =>
    obtain ⟨r, he, hi⟩ := Remove_inv h e
    refine ⟨r.1, ?_, hi⟩
    show (Remove σ s e).map Prod.fst = some r.1
    rw [he]
    rfl
  | moveToFront e => exact MoveToFront_inv h e
  | moveToBack e => exact MoveToBack_inv h e
  | moveBefore e mark => exact MoveBefore_inv h e mark
  | moveAfter e mark => exact MoveAfter_inv h e mark
  | pushBackListSelf => exact PushBackListSelf_inv h
  | pushFrontListSelf => exact PushFrontListSelf_inv h
  | quickSort cmp hv => exact QuickSortOp_inv h hv

/-- Any sequence of public operations succeeds and keeps the invariant. -/
theorem runOps_inv {σ : State α} {s : Nat} (h : Inv σ s)
    (ops : List (PubOp α)) :
    ∃ σ', runOps σ s ops = some σ' ∧ Inv σ' s := by
  induction ops generalizing σ with
  | nil => exact ⟨σ, rfl, h⟩
  | cons op ops ih =>
    obtain ⟨σ1, h1, hi1⟩ := runOp_inv h op
    obtain ⟨σ', h2, hi'⟩ := ih hi1
    refine ⟨σ', ?_, hi'⟩
    show (runOp σ s op).bind (fun σ2 => runOps σ2 s ops) = some σ'
    rw [h1, Option.some_bind]
    exact h2


/-- C6: after any sequence of public operations (PushFront, PushBack,
InsertBefore, InsertAfter, Remove, the four move operations, PushBackList,
PushFrontList, QuickSort with a valid comparator) starting from an empty
list, every operation succeeds, the ring is consistent — for every node `e`
currently owned by the list, `e.next.prev = e` and `e.prev.next = e` — and
`Len` equals the number of non-sentinel nodes reachable from the sentinel by
following `next` before returning to the sentinel. -/
theorem container_invariant {a0 : α} {f0 s : Nat} (hs : s < f0)
    {ops : List (PubOp α)} {σf : State α}
    (hrun : runOps (initState a0 f0) s ops = some σf) :
    (∀ e, own σf e = some s →
      (∃ n, nxt σf e = some n ∧ prv σf n = some e) ∧
      (∃ p, prv σf e = some p ∧ nxt σf p = some e)) ∧
    ∃ ids : List Nat,
      (∀ fuel, ids.length ≤ fuel → ringNodes σf s fuel (nxt σf s) = ids) ∧
      Len σf s = ids.length := by
  obtain ⟨σ2, hr2, hi2⟩ :=
    runOps_inv (Or.inl (initState_uninit a0 hs)) ops
  rw [hrun] at hr2
  obtain rfl : σf = σ2 := Option.some.inj hr2
  rcases hi2 with hun | ⟨ids, hg⟩
  · refine ⟨fun e hown => absurd hown (hun.2.2.1 e), [], ?_, ?_⟩
    · intro fuel hf
      rw [hun.1]
      cases fuel <;> rfl
    · show σf.lens s = (([] : List Nat).length : Int)
      rw [hun.2.2.2.1]
      rfl
  · refine ⟨?_, ids, ?_, ?_⟩
    · intro e hown
      exact hg.wf.ring_consistent e ((hg.ownIff e).mp hown)
    · intro fuel hf
      exact ringNodes_eq hg.wf hf
    · show σf.lens s = (ids.length : Int)
      rw [hg.wf.len]

theorem container_invariant_witness :
    ∃ σf : State Int,
      runOps (initState (0 : Int) 1) 0
        [PubOp.pushBack 5, PubOp.pushFront 2, PubOp.pushBack 7,
          PubOp.remove 1] = some σf ∧
      (∀ e, own σf e = some 0 →
        (∃ n, nxt σf e = some n ∧ prv σf n = some e) ∧
        (∃ p, prv σf e = some p ∧ nxt σf p = some e)) ∧
      ∃ ids : List Nat,
        (∀ fuel, ids.length ≤ fuel → ringNodes σf 0 fuel (nxt σf 0) = ids) ∧
        Len σf 0 = ids.length := by
  have hsome : (runOps (initState (0 : Int) 1) 0
      [PubOp.pushBack 5, PubOp.pushFront 2, PubOp.pushBack 7,
        PubOp.remove 1]).isSome = true := rfl
  obtain ⟨σf, hσf⟩ := Option.isSome_iff_exists.mp hsome
  have hc := container_invariant (show (0 : Nat) < 1 by decide) hσf
  exact ⟨σf, hσf, hc.1, hc.2⟩

end GoList
